import Mathlib

/-!
# flexiGIF LZW core: shallow embedding and verification

A shallow embedding of the LZW recompression core of flexiGIF
(`LzwEncoder.cpp`, `LzwDecoder.cpp`, `BinaryInputBuffer.cpp`):

* the encoder dictionary trie (`addCode`, `findMatch`, `getMinBits`),
* the block optimizer `optimizePartial` (emit and DP-scoring modes) and `merge`,
* the decoder `LzwDecoder::decompress` over a flat bit vector,
* the bit reader `BinaryInputBuffer` (`peekBits` / `getBits`).

Machine integers are modelled as `Nat`; in-range behaviour of the C++
`unsigned int` arithmetic coincides with `Nat` arithmetic at every point the
theorems touch.  C++ exceptions (`throw "..."`) are modelled by `Option`
(`none` = the call throws).  Bytes are `Nat` values; the literal stream is a
`List Nat`.  Bit streams (`std::vector<bool>`) are `List Bool`, index 0 first.
-/

namespace FlexiGif

set_option maxRecDepth 100000

/-- The dictionary trie: for each LZW code, its 256 child slots
(`m_dictionary[code][byte]`); `none` models the `Unknown` (= -1) entry. -/
def Dict : Type := Nat → Nat → Option Nat

instance : Inhabited Dict := ⟨fun _ _ => none⟩

/-- The empty dictionary: every child slot is `Unknown`
(`children.fill(Unknown)` for every node, LzwEncoder.cpp lines 187-191). -/
def emptyDict : Dict := fun _ _ => none

/-- Point update of one child slot (`m_dictionary[code][lastByte] = value`). -/
def setChild (d : Dict) (code byte value : Nat) : Dict :=
  fun c b => if c = code ∧ b = byte then some value else d c b

/-- The do-while loop of `LzwEncoder::getMinBits`, with explicit fuel (the
loop halves `token` each round, so any `fuel ≥ token` is enough; structural
recursion keeps the definition kernel-computable). -/
def getMinBitsGo : Nat → Nat → Nat
  | 0, _ => 1
  | fuel + 1, token => if token ≤ 1 then 1 else getMinBitsGo fuel (token / 2) + 1

/-- `LzwEncoder::getMinBits` (LzwEncoder.cpp lines 614-624): minimum number of
bits to represent `token`; the do-while loop always runs at least once. -/
def getMinBits (token : Nat) : Nat := getMinBitsGo token token

/-- The bits of `token`, LSB first, exactly `numBits` of them: the loop body of
`LzwEncoder::add` (LzwEncoder.cpp lines 603-610). -/
def tokenBits (token : Nat) : Nat → List Bool
  | 0 => []
  | n + 1 => decide (token % 2 = 1) :: tokenBits (token / 2) n

/-- `LzwEncoder::add` (LzwEncoder.cpp lines 603-610): append `numBits` bits of
`token` to `stream`, LSB first. -/
def addToStream (stream : List Bool) (token numBits : Nat) : List Bool :=
  stream ++ tokenBits token numBits

/-- The trie walk of `LzwEncoder::addCode` lines 42-49: starting from code
`code`, successively look up the children keyed by `data[pos]`, `data[pos+1]`,
... for `steps` steps; `none` models reaching an `Unknown` entry (in which case
the C++ code would index the dictionary with -1: out of contract). -/
def codeOfAux (d : Dict) (data : List Nat) : Nat → Nat → Nat → Option Nat
  | _, code, 0 => some code
  | pos, code, steps + 1 =>
    match d code (data.getD pos 0) with
    | none => none
    | some c => codeOfAux d data (pos + 1) c steps

/-- The code of the string `data[start ... start+len)` obtained by the walk in
`LzwEncoder::addCode` lines 42-49 (`len ≥ 1` in every call made by the code). -/
def codeOf (d : Dict) (data : List Nat) (start len : Nat) : Option Nat :=
  codeOfAux d data (start + 1) (data.getD start 0) (len - 1)

/-- Encoder dictionary state: the trie plus `m_dictSize`. -/
structure EncDict where
  dict : Dict
  size : Nat

/-- `LzwEncoder::addCode` (LzwEncoder.cpp lines 39-67): walk the trie to find
the code of `data[from1 ... from1+length)` and, if a further byte exists and
the dictionary is below `maxDictionary`, insert the new child — but only if
the slot was empty; `m_dictSize` is incremented unconditionally in that case. -/
def addCode (data : List Nat) (maxDictionary : Nat) (st : EncDict)
    (from1 length : Nat) : Option (Nat × EncDict) :=
  match codeOf st.dict data from1 length with
  | none => none
  | some code =>
    if from1 + length < data.length then
      let lastByte := data.getD (from1 + length) 0
      if st.size < maxDictionary then
        let newDict :=
          if st.dict code lastByte = none
          then setChild st.dict code lastByte st.size
          else st.dict
        some (code, ⟨newDict, st.size + 1⟩)
      else
        some (code, st)
    else
      some (code, st)

/-- The loop of `LzwEncoder::findMatch` (LzwEncoder.cpp lines 77-84):
`remaining` counts the loop iterations still allowed (`maxLength - len`),
`len` is the number of bytes matched so far. -/
def findMatchGo (d : Dict) (data : List Nat) : Nat → Nat → Nat → Nat → Nat
  | _, _, len, 0 => len
  | code, pos, len, r + 1 =>
    match d code (data.getD pos 0) with
    | none => len
    | some c => findMatchGo d data c (pos + 1) (len + 1) r

/-- `LzwEncoder::findMatch` (LzwEncoder.cpp lines 71-88): length of the longest
match beginning at `data[from1]`, limited to `maxLength`. -/
def findMatch (d : Dict) (data : List Nat) (from1 maxLength : Nat) : Nat :=
  if maxLength = 0 then 0
  else findMatchGo d data (data.getD from1 0) (from1 + 1) 1 (maxLength - 1)

/-- `LzwEncoder::OptimizationSettings` (LzwEncoder.h). -/
structure OptimizationSettings where
  minCodeSize : Nat
  startWithClearCode : Bool
  verbose : Bool
  greedy : Bool
  minNonGreedyMatch : Nat
  minImprovement : Nat
  maxDictionary : Nat
  maxTokens : Nat
  splitRuns : Bool
  alignment : Nat
  readOnlyBest : Bool
  avoidNonGreedyAgain : Bool
deriving DecidableEq

/-- `LzwEncoder::BestBlock` (LzwEncoder.h); the C++ member `partial` is renamed
`partialFlag` here.  The default constructor zero-initialises every field. -/
structure BestBlock where
  length : Nat
  bits : Nat
  totalBits : Nat
  tokens : Nat
  nongreedy : Nat
  partialFlag : Bool
deriving DecidableEq

instance : Inhabited BestBlock := ⟨⟨0, 0, 0, 0, 0, false⟩⟩

/-- Static data of one `optimizePartial` run: the members of `LzwEncoder`
consulted by the loop, the (already alignment-corrected) settings, the block
start `from1`, the clipped block length `len`, and the `emitBitStream` flag. -/
structure EncParams where
  data : List Nat
  isGif : Bool
  maxCodeLength : Nat
  maxDict : Nat
  o : OptimizationSettings
  alignment : Nat
  from1 : Nat
  len : Nat
  emit : Bool

/-- Mutable state of the `optimizePartial` loop (LzwEncoder.cpp lines 198-206):
the dictionary, `m_dictSize`, `m_best` (as a total table with default entries),
the counters, the pending `matchLength`, the code width and the emitted bits. -/
structure EncLoop where
  dict : Dict
  dictSize : Nat
  best : Nat → BestBlock
  numBits : Nat
  numTokens : Nat
  numNonGreedyMatches : Nat
  matchLength : Nat
  codeSize : Nat
  result : List Bool

/-- The non-greedy lookahead loop of LzwEncoder.cpp lines 269-280: try every
shorter length (from `matchLength - 1` down to 1); a shorter length becomes
the `choice` when its two-match sum reaches `atLeast` and strictly exceeds the
running `best` sum. -/
def nonGreedyLoop (d : Dict) (data : List Nat) (i remaining atLeast : Nat) :
    Nat → Nat → Nat → Nat × Nat
  | 0, best, choice => (best, choice)
  | shorter + 1, best, choice =>
    let next := findMatch d data (i + (shorter + 1)) (remaining - (shorter + 1))
    let sum := (shorter + 1) + next
    if atLeast ≤ sum ∧ best < sum then
      nonGreedyLoop d data i remaining atLeast shorter sum (shorter + 1)
    else
      nonGreedyLoop d data i remaining atLeast shorter best choice

/-- Match selection at one emission point (LzwEncoder.cpp lines 228-296):
the greedy `findMatch`, the conditions disabling the non-greedy lookahead, and
the flexible-parsing choice.  Returns the chosen length and whether a
non-greedy (strictly shorter) choice was taken.  The run-of-identical-bytes
scan of lines 244-257 computes a local flag that is never consulted after
line 257 (the lookahead below it runs regardless), so it has no effect on the
state and is not repeated here. -/
def chooseMatchLength (P : EncParams) (d : Dict) (i remaining : Nat) : Nat × Bool :=
  let matchLength := findMatch d P.data i remaining
  let try0 := !P.o.greedy
  let try1 := if matchLength = 1 ∨ matchLength < P.o.minNonGreedyMatch then false else try0
  let try2 := if P.data.length ≤ i + matchLength + 4 then false else try1
  if try2 then
    let second := findMatch d P.data (i + matchLength) (remaining - matchLength)
    let best := matchLength + second
    let atLeast := best + P.o.minImprovement
    let choice := (nonGreedyLoop d P.data i remaining atLeast (matchLength - 1) best matchLength).2
    if choice < matchLength then (choice, true) else (matchLength, false)
  else (matchLength, false)

/-- The code-width step of LzwEncoder.cpp lines 300-312: one more bit per code
when `m_dictSize - 1` just became a power of two, capped at `maxCodeLength`,
with the increase undone at threshold 256 for the `.Z` format. -/
def bumpCodeSize (isGif : Bool) (maxCodeLength maxDict dictSize codeSize : Nat) : Nat :=
  if dictSize < maxDict then
    let threshold := dictSize - 1
    if Nat.land threshold (threshold - 1) = 0 ∧ codeSize < maxCodeLength then
      let c := codeSize + 1
      if ¬isGif ∧ threshold = 256 then c - 1 else c
    else codeSize
  else codeSize

/-- The cost-evaluation tail of the `optimizePartial` loop body (LzwEncoder.cpp
lines 328-407): decide whether the block could close after input byte `i` and,
if the closing cost improves (or first reaches) `m_best[fromAligned]`,
record it.  Each C++ `continue` returns the state unchanged. -/
def costEval (P : EncParams) (i : Nat) (st : EncLoop) : EncLoop :=
  if P.o.readOnlyBest then st else
  let numBytes := i - P.from1 + 1
  let isLastByte := i + 1 = P.data.length
  let next := i + 1
  let nextAligned := if 1 < P.alignment then (next + P.alignment - 1) / P.alignment else next
  if ¬isLastByte ∧ (st.best nextAligned).totalBits = 0 then st else
  if 1 < P.alignment ∧ numBytes % P.alignment ≠ 0 ∧ ¬isLastByte then st else
  let add0 := st.codeSize
  let threshold := st.dictSize - 1
  let add1 := if Nat.land threshold (threshold - 1) = 0 ∧ st.codeSize < P.maxCodeLength
              then add0 + 1 else add0
  -- `.Z`: restart admissible only at full width (lines 360-364)
  if ¬P.isGif ∧ ¬isLastByte ∧ st.codeSize < 16 then st else
  let add2 :=
    if ¬P.isGif then
      let a := if isLastByte then 0 else add1
      let a := if st.numBits % 8 ≠ 0 then a + (8 - st.numBits % 8) else a
      if ¬isLastByte then
        let tokensPlusClear := st.numTokens + 1
        let mod8 := tokensPlusClear % 8
        let gap := if mod8 = 0 then 0 else 8 - mod8
        a + st.codeSize * gap
      else a
    else add1
  let isPartial := decide (0 < st.matchLength)
  let trueBits := st.numBits + add2
  let totalBits := trueBits + (st.best nextAligned).totalBits
  let fromAligned := P.from1 / P.alignment
  if (st.best fromAligned).totalBits = 0 ∨ totalBits ≤ (st.best fromAligned).totalBits then
    { st with best := fun k =>
        if k = fromAligned then
          ⟨numBytes, trueBits, totalBits, st.numTokens, st.numNonGreedyMatches, isPartial⟩
        else st.best k }
  else st

/-- The main loop of `optimizePartial` (LzwEncoder.cpp lines 210-408), as a
fueled recursion over the input positions (`fuel = len` iterations starting at
`i = from1`).  A C++ `break` returns the state as-is; a failing dictionary
walk inside `addCode` (out of contract in C++) gives `none`. -/
def encodeLoop (P : EncParams) : Nat → Nat → EncLoop → Option EncLoop
  | 0, _, st => some st
  | fuel + 1, i, st =>
    if st.matchLength = 0 then
      if 0 < P.o.maxDictionary ∧ P.o.maxDictionary ≤ st.dictSize then some st
      else if 0 < P.o.maxTokens ∧ P.o.maxTokens ≤ st.numTokens then some st
      else
        let remaining := P.len + P.from1 - i
        let choice := chooseMatchLength P st.dict i remaining
        let cs := bumpCodeSize P.isGif P.maxCodeLength P.maxDict st.dictSize st.codeSize
        match addCode P.data P.maxDict ⟨st.dict, st.dictSize⟩ i choice.1 with
        | none => none
        | some (code, ed) =>
          let st1 : EncLoop :=
            { dict := ed.dict
              dictSize := ed.size
              best := st.best
              numBits := st.numBits + cs
              numTokens := st.numTokens + 1
              numNonGreedyMatches := st.numNonGreedyMatches + (if choice.2 then 1 else 0)
              matchLength := choice.1 - 1
              codeSize := cs
              result := if P.emit then addToStream st.result code cs else st.result }
          encodeLoop P fuel (i + 1) (costEval P i st1)
    else
      encodeLoop P fuel (i + 1) (costEval P i { st with matchLength := st.matchLength - 1 })

/-- The block-closing tail of `optimizePartial` (LzwEncoder.cpp lines 410-467):
emit `endOfStream`/`clear` for GIF; for `.Z` emit `clear` on non-final blocks,
fill the last byte with zero bits, and append `codeSize * gap` zero bits so
the token count is a multiple of 8 (`none` models the `throw` when a non-final
`.Z` block closes at a code size other than 16). -/
def closeBlock (P : EncParams) (isFinal : Bool) (st : EncLoop) : Option EncLoop :=
  if ¬P.emit then some st else
  let clear := 2 ^ P.o.minCodeSize
  let endOfStream := clear + 1
  let cs := getMinBits (st.dictSize - 1)
  if P.isGif then
    some { st with
           result := addToStream st.result (if isFinal then endOfStream else clear) cs
           codeSize := cs }
  else
    let st1 :=
      if ¬isFinal then
        { st with result := addToStream st.result clear cs, numTokens := st.numTokens + 1 }
      else st
    let pad := (8 - st1.result.length % 8) % 8
    let st2 := { st1 with result := st1.result ++ List.replicate pad false
                          numBits := st1.numBits + pad }
    if ¬isFinal then
      if cs ≠ 16 then none
      else
        let mod8 := st2.numTokens % 8
        let gap := if mod8 = 0 then 0 else 8 - mod8
        let numZeros := cs * gap / 8
        some { st2 with result := st2.result ++ List.replicate (8 * numZeros) false
                        codeSize := cs }
    else
      some { st2 with codeSize := cs }

/-- `LzwEncoder::optimizePartial` (LzwEncoder.cpp lines 147-479).  `best0` is
the current `m_best` table (a total function; out-of-range C++ indices are
never consulted by in-contract runs); the result is the emitted bit vector and
the updated table.  `none` models a thrown exception. -/
def optimizePartial (data : List Nat) (isGif : Bool) (best0 : Nat → BestBlock)
    (from1 maxLength : Nat) (emit isFinal : Bool) (o : OptimizationSettings) :
    Option (List Bool × (Nat → BestBlock)) :=
  let maxCodeLength := if isGif then 12 else 16
  let maxDict := 2 ^ maxCodeLength - 1
  let len := if maxLength ≠ 0 ∧ maxLength < data.length - from1
             then maxLength else data.length - from1
  let alignment := if o.alignment = 0 then 1 else o.alignment
  if from1 % alignment ≠ 0 then none
  else
    let fromAligned := from1 / alignment
    if o.greedy ∧ o.avoidNonGreedyAgain ∧ ¬emit ∧
       (best0 fromAligned).nongreedy = 0 ∧ 0 < (best0 fromAligned).length then
      some ([], best0)
    else
      let clear := 2 ^ o.minCodeSize
      let dictSize0 := if isGif then clear + 2 else clear + 1
      let P : EncParams := ⟨data, isGif, maxCodeLength, maxDict, o, alignment, from1, len, emit⟩
      let st0 : EncLoop :=
        ⟨emptyDict, dictSize0, best0, 0, 0, 0, 0, getMinBits dictSize0, []⟩
      match encodeLoop P len from1 st0 with
      | none => none
      | some st => (closeBlock P isFinal st).map fun st2 => (st2.result, st2.best)

/-- The segment loop of `LzwEncoder::merge` (LzwEncoder.cpp lines 542-591).
`bestEmpty` mirrors `m_best.empty()` (true only until the first
`optimizePartial` call allocates the table); the per-segment settings
mutations (`greedy` switch, sticky `avoidNonGreedyAgain` and `readOnlyBest`)
persist into later segments exactly as in the C++ (the settings are a local
of `merge` mutated across iterations). -/
def mergeGo (data : List Nat) (isGif : Bool) :
    OptimizationSettings → (Nat → BestBlock) → Bool → Nat → List Bool → List Nat →
    Option (List Bool)
  | _, _, _, _, result, [] => some result
  | o, best, bestEmpty, pos, result, r :: rest =>
    if r = 0 then mergeGo data isGif o best bestEmpty pos result rest
    else
      let isFinal := rest = []
      let length := r - pos
      let o1 :=
        if ¬bestEmpty then
          let g := (best (pos / o.alignment)).nongreedy = 0
          { o with greedy := g
                   avoidNonGreedyAgain := if g then true else o.avoidNonGreedyAgain }
        else o
      let o2 := { o1 with readOnlyBest := true }
      match optimizePartial data isGif best pos length true isFinal o2 with
      | none => none
      | some (block, best1) =>
        if block = [] ∧ 0 < length then none
        else mergeGo data isGif o2 best1 false r (result ++ block) rest

/-- `LzwEncoder::merge` (LzwEncoder.cpp lines 513-599): optional leading clear
code, the empty-restarts early return, appending `data.length` as the final
segment end, then the segment loop. -/
def merge (data : List Nat) (isGif : Bool) (best : Nat → BestBlock) (bestEmpty : Bool)
    (restarts : List Nat) (o : OptimizationSettings) : Option (List Bool) :=
  let result0 :=
    if o.startWithClearCode ∧ isGif
    then List.replicate o.minCodeSize false ++ [true] else []
  if restarts = [] then some result0
  else
    let restarts1 :=
      if restarts.getLastD 0 < data.length then restarts ++ [data.length] else restarts
    mergeGo data isGif o best bestEmpty 0 result0 restarts1

/-- The restart-list reconstruction of `LzwEncoder::optimize` (LzwEncoder.cpp
lines 483-509): walk `m_best` forward from position 0; `none` models the
thrown "gap between two blocks". -/
def buildRestarts (best : Nat → BestBlock) (alignment size : Nat) :
    Nat → Nat → Option (List Nat)
  | 0, pos => if pos < size then none else some []
  | fuel + 1, pos =>
    if pos < size then
      let length := (best (pos / alignment)).length
      if length = 0 then none
      else (buildRestarts best alignment size fuel (pos + length)).map
             fun l => (pos + length) :: l
    else some []

/-- `LzwEncoder::optimize` (LzwEncoder.cpp lines 483-509): build the restart
list along the DP table, then `merge`.  When called, `m_best` is non-empty
(the scoring passes have filled it). -/
def optimizeE (data : List Nat) (isGif : Bool) (best : Nat → BestBlock)
    (o : OptimizationSettings) : Option (List Bool) :=
  match buildRestarts best o.alignment data.length (data.length + 1) 0 with
  | none => none
  | some restarts => merge data isGif best false restarts o

/-! ## The decoder (`LzwDecoder.cpp`)

The decoder is modelled over a flat bit vector, the bits of the bytes the
container hands it: `getLzwBits` reduces to `BinaryInputBuffer::getBits` for
the `.Z` format (LzwDecoder.cpp lines 343-345), and for GIF the sub-block
framing (length-prefixed groups of ≤ 255 bytes) is added and stripped by the
container adapter, so over the flat byte content `getLzwBits` returns the same
values there as well.  Because the container writes whole bytes, the final
byte's zero padding bits are part of the vector.  When a read would run past
its end, the `.Z` main loop breaks beforehand (lines 158-159) while the GIF
path hits the zero sub-block terminator inside `getLzwBits` and throws
"too few bits available in unlzw" (lines 368-370), modelled as `.fail`. -/

/-- Interpret a bit list as a number, LSB first (bit 0 is read first), as
`BinaryInputBuffer` packs bits. -/
def bitsToNat : List Bool → Nat
  | [] => 0
  | b :: bs => (if b then 1 else 0) + 2 * bitsToNat bs

/-- Read `n` bits from the front of a flat bit vector. -/
def takeBits (bits : List Bool) (n : Nat) : Nat × List Bool :=
  (bitsToNat (bits.take n), bits.drop n)

/-- `LzwDecoder::BackReference` (LzwDecoder.h): parent code, last byte, match
length and output position.  The C++ stores the sentinel `NoPrevious` (-1) in
`previous`/`pos` of entries that never dereference them (literals, and the
zero-initialised clear/end-of-stream slots); those sentinels are modelled
as 0. -/
structure DecEntry where
  length : Nat
  previous : Nat
  last : Nat
  pos : Nat
deriving DecidableEq

instance : Inhabited DecEntry := ⟨⟨0, 0, 0, 0⟩⟩

/-- The backward walk of `LzwDecoder::decode` (LzwDecoder.cpp lines 74-85):
`steps` bytes are written right-to-left following the `previous` chain. -/
def decodeStr (lut : List DecEntry) : Nat → Nat → List Nat
  | 0, _ => []
  | steps + 1, code =>
    decodeStr lut steps (lut.getD code default).previous ++ [(lut.getD code default).last]

/-- `LzwDecoder::decode` (LzwDecoder.cpp lines 65-85): the byte string denoted
by `code` (the `length == 1` shortcut of lines 68-72 agrees with the general
walk). -/
def decodeCode (lut : List DecEntry) (code : Nat) : List Nat :=
  decodeStr lut (lut.getD code default).length code

/-- Decoder loop state: remaining input bits, the lookup table, the output
bytes, the current code width, the most recently read token, the token count
since the last reset, and `m_numBitsOriginalLZW`. -/
structure DecState where
  bits : List Bool
  lut : List DecEntry
  bytes : List Nat
  codeSize : Nat
  token : Nat
  numTokensBlock : Nat
  origBits : Nat
deriving DecidableEq

/-- The initial-token loop of LzwDecoder.cpp lines 128-130: read tokens of the
given width until one differs from `clear`, counting every read into
`m_numBitsOriginalLZW`. -/
def skipClears (clear codeSize : Nat) : Nat → List Bool → Nat → Option (Nat × List Bool × Nat)
  | 0, _, _ => none
  | fuel + 1, bits, orig =>
    let r := takeBits bits codeSize
    if r.1 = clear then skipClears clear codeSize fuel r.2 (orig + codeSize)
    else some (r.1, r.2, orig + codeSize)

/-- The dictionary-reset loop of LzwDecoder.cpp lines 180-246 (`while (token ==
clear)`): truncate the table, for `.Z` discard the bits left in the current
byte and the `gap × codeSize` alignment bits, reset the width, read the first
token of the new block (it must be a literal) and append it to the output. -/
def resetLoop (isGif : Bool) (minCodeSize clear maxColor : Nat) :
    Nat → DecState → Option DecState
  | 0, _ => none
  | fuel + 1, st =>
    if st.token ≠ clear then some st
    else
      let lut1 := st.lut.take (if isGif then clear + 2 else clear + 1)
      let st1 : DecState := { st with lut := lut1 }
      let st2 :=
        if ¬isGif then
          -- bits leftover in the current byte are ignored (lines 206-210)
          let skip := if st1.origBits % 8 ≠ 0 then 8 - st1.origBits % 8 else 0
          let bitsA := (takeBits st1.bits skip).2
          -- a block's token count must be a multiple of 8 (lines 213-220);
          -- these reads go through m_input.getBits directly and are not
          -- counted into m_numBitsOriginalLZW
          let mod8 := st1.numTokensBlock % 8
          let gap := if mod8 = 0 then 0 else 8 - mod8
          let bitsB := (takeBits bitsA (gap * st1.codeSize)).2
          { st1 with bits := bitsB, origBits := st1.origBits + skip }
        else st1
      let cs := minCodeSize + 1
      let r := takeBits st2.bits cs
      if maxColor < r.1 then none
      else
        resetLoop isGif minCodeSize clear maxColor fuel
          { st2 with bits := r.2, codeSize := cs, token := r.1
                     numTokensBlock := 1, origBits := st2.origBits + cs
                     bytes := st2.bytes ++ [r.1] }

/-- Outcome of one pass of the decoding loop: finish with the decoded bytes,
throw, or continue with a new state. -/
inductive DecResult where
  | done : List Nat → DecResult
  | fail : DecResult
  | cont : DecState → DecResult
deriving DecidableEq

/-- The code-width step at the top of the decoding loop (LzwDecoder.cpp lines
153-155): one more bit per code when the table has grown to the current
width's capacity. -/
def stepWidth (maxCodeSize : Nat) (st : DecState) : Nat :=
  if st.lut.length = 2 ^ st.codeSize ∧ st.codeSize < maxCodeSize
  then st.codeSize + 1 else st.codeSize

/-- One pass of the main decoding loop of `LzwDecoder::decompress`
(LzwDecoder.cpp lines 150-291): the loop condition, the width step, the `.Z`
end-of-input break, one token read, the reset handling, and the new-code /
KwKwK table update. -/
def decStep (isGif : Bool) (minCodeSize maxCodeSize clear endOfStream maxColor maxToken : Nat)
    (st : DecState) : DecResult :=
  if st.token = endOfStream then .done st.bytes
  else
    let cs := stepWidth maxCodeSize st
    -- compress LZW has no end-of-file code (lines 158-159)
    if ¬isGif ∧ st.bits.length < cs then .done st.bytes
    else
      -- GIF: a read that runs past the written bytes hits the sub-block
      -- terminator and throws "too few bits available in unlzw"
      -- (LzwDecoder.cpp lines 368-370)
      if st.bits.length < cs then .fail
      else
        let prevToken := st.token
        let r := takeBits st.bits cs
        let token := r.1
        if st.lut.length < token then .fail
        else
          let st1 : DecState :=
            { st with bits := r.2, codeSize := cs, token := token
                      numTokensBlock := st.numTokensBlock + 1
                      origBits := st.origBits + cs }
          if token = clear then
            match resetLoop isGif minCodeSize clear maxColor (st1.bits.length + 2) st1 with
            | none => .fail
            | some st2 => .cont st2
          else if token = endOfStream then .done st1.bytes
          else
            -- new LZW code (lines 256-290)
            let pos := st1.bytes.length
            let addLen := (st1.lut.getD prevToken default).length + 1
            if st1.lut.length ≤ token then
              -- KwKwK: token == lut.size (token > lut.size was refused above)
              if maxToken ≤ st1.lut.length then .fail
              else
                let s := decodeCode st1.lut prevToken
                let bytes1 := st1.bytes ++ s
                let lastB := bytes1.getD pos 0
                let add : DecEntry := ⟨addLen, prevToken, lastB, pos⟩
                let bytes2 := bytes1 ++ [lastB]
                let lut1 := if st1.lut.length < maxToken then st1.lut ++ [add] else st1.lut
                .cont { st1 with bytes := bytes2, lut := lut1 }
            else
              let s := decodeCode st1.lut token
              let bytes1 := st1.bytes ++ s
              let lastB := bytes1.getD pos 0
              let add : DecEntry := ⟨addLen, prevToken, lastB, pos⟩
              let lut1 := if st1.lut.length < maxToken then st1.lut ++ [add] else st1.lut
              .cont { st1 with bytes := bytes1, lut := lut1 }

/-- The main decoding loop: iterate `decStep` (`fuel` bounds the number of
passes; the reset sub-loop consumes at least one bit per pass, so
`bits.length + 2` fuel always covers it). -/
def decLoop (isGif : Bool) (minCodeSize maxCodeSize clear endOfStream maxColor maxToken : Nat) :
    Nat → DecState → Option (List Nat)
  | 0, _ => none
  | fuel + 1, st =>
    match decStep isGif minCodeSize maxCodeSize clear endOfStream maxColor maxToken st with
    | .done bs => some bs
    | .fail => none
    | .cont st1 => decLoop isGif minCodeSize maxCodeSize clear endOfStream maxColor maxToken fuel st1

/-- The initial lookup table (LzwDecoder.cpp lines 107-116): one literal entry
per colour, plus the zero-initialised clear (and, for GIF, end-of-stream)
slots. -/
def initLut (isGif : Bool) (clear maxColor : Nat) : List DecEntry :=
  (List.range (maxColor + 1)).map (fun i => ⟨1, 0, i, 0⟩) ++
    List.replicate ((if isGif then clear + 2 else clear + 1) - (maxColor + 1)) default

/-- `LzwDecoder::decompress` (LzwDecoder.cpp lines 89-331) over a flat bit
vector: the special codes, the initial table, the first token (skipping
leading clears), then the main loop.  `fuel` bounds the number of loop
iterations; the trailing garbage-bit handling of lines 303-328 does not alter
`m_bytes` and is omitted. -/
def decompress (isGif : Bool) (minCodeSize maxCodeSize fuel : Nat)
    (bits : List Bool) : Option (List Nat) :=
  let clear := 2 ^ minCodeSize
  let endOfStream := if isGif then clear + 1 else 4294967295
  let maxColor := clear - 1
  let maxToken := 2 ^ maxCodeSize
  let lut := initLut isGif clear maxColor
  let cs := minCodeSize + 1
  match skipClears clear cs (bits.length + 1) bits 0 with
  | none => none
  | some (token, bits1, orig) =>
    if lut.length ≤ token then none
    else
      let bytes := if token ≠ endOfStream then [token] else []
      decLoop isGif minCodeSize maxCodeSize clear endOfStream maxColor maxToken fuel
        ⟨bits1, lut, bytes, cs, token, 1, orig⟩

/-! ## The bit reader (`BinaryInputBuffer.cpp`)

`m_stream`/`m_cache`/`m_cacheOffset` implement plain byte-at-a-time file
reading and are modelled as the list of not-yet-buffered bytes; `m_read` is
bookkeeping without influence on the bit values. -/

/-- `BinaryInputBuffer` state: the bytes not yet moved into the bit buffer,
the bit buffer with its fill level, and `m_bitsLeft`. -/
structure BinaryInputBuffer where
  bytes : List Nat
  bitBuffer : Nat
  bitBufferSize : Nat
  bitsLeft : Nat
deriving DecidableEq

/-- The refill loop of `BinaryInputBuffer::peekBits` (BinaryInputBuffer.cpp
lines 71-77), structurally recursive over the unread bytes: move whole bytes
into the bit buffer until it holds at least `numBits` bits; `none` models
reading past the end of the stream. -/
def peekFillAux (numBits : Nat) : List Nat → Nat → Nat → Option (List Nat × Nat × Nat)
  | [], bitBuffer, size =>
    if numBits ≤ size then some ([], bitBuffer, size) else none
  | byte :: rest, bitBuffer, size =>
    if numBits ≤ size then some (byte :: rest, bitBuffer, size)
    else peekFillAux numBits rest (bitBuffer + byte * 2 ^ size) (size + 8)

/-- The refill loop acting on a full `BinaryInputBuffer` state (`m_bitsLeft`
is untouched by refilling). -/
def peekFill (b : BinaryInputBuffer) (numBits : Nat) : Option BinaryInputBuffer :=
  (peekFillAux numBits b.bytes b.bitBuffer b.bitBufferSize).map fun r =>
    ⟨r.1, r.2.1, r.2.2, b.bitsLeft⟩

/-- `BinaryInputBuffer::peekBits` (BinaryInputBuffer.cpp lines 65-82): look at
the next `numBits` bits without consuming them (the C++ mutates only the
internal buffering, which the returned state captures). -/
def peekBits (b : BinaryInputBuffer) (numBits : Nat) :
    Option (Nat × BinaryInputBuffer) :=
  (peekFill b numBits).map fun b1 => (b1.bitBuffer % 2 ^ numBits, b1)

/-- `BinaryInputBuffer::removeBits` (BinaryInputBuffer.cpp lines 109-119):
drop `numBits` bits (refilling first if the buffer holds fewer). -/
def removeBits (b : BinaryInputBuffer) (numBits : Nat) : Option BinaryInputBuffer :=
  (peekFill b numBits).map fun b1 =>
    ⟨b1.bytes, b1.bitBuffer / 2 ^ numBits, b1.bitBufferSize - numBits,
     b1.bitsLeft - numBits⟩

/-- `BinaryInputBuffer::getBits` (BinaryInputBuffer.cpp lines 86-91): peek,
then consume. -/
def getBits (b : BinaryInputBuffer) (numBits : Nat) :
    Option (Nat × BinaryInputBuffer) :=
  match peekBits b numBits with
  | none => none
  | some (v, b1) => (removeBits b1 numBits).map fun b2 => (v, b2)

/-! ## Theorems -/

/-- Unfolding step of `codeOfAux`. -/
theorem codeOfAux_succ (d : Dict) (data : List Nat) (pos code steps : Nat) :
    codeOfAux d data pos code (steps + 1) =
      match d code (data.getD pos 0) with
      | none => none
      | some c => codeOfAux d data (pos + 1) c steps := rfl

/-- **C2.** `addCode` never overwrites an existing child entry of the trie
(every set slot survives), and it increments the size counter exactly when a
further input byte exists (`from1 + len < N`) and the dictionary is below its
cap — unconditionally in the state of the child slot, so the counter can run
ahead of the last set child. -/
theorem addCode_no_overwrite_counter_unconditional (data : List Nat) (maxDict : Nat)
    (st : EncDict) (from1 len : Nat) (code : Nat) (st' : EncDict)
    (h : addCode data maxDict st from1 len = some (code, st')) :
    (∀ c b v, st.dict c b = some v → st'.dict c b = some v) ∧
    st'.size = (if from1 + len < data.length ∧ st.size < maxDict
                then st.size + 1 else st.size) := by
  unfold addCode at h
  cases hw : codeOf st.dict data from1 len with
  | none => rw [hw] at h; exact absurd h (by simp)
  | some c0 =>
    rw [hw] at h
    dsimp only at h
    by_cases hin : from1 + len < data.length
    · rw [if_pos hin] at h
      by_cases hsz : st.size < maxDict
      · rw [if_pos hsz] at h
        by_cases hempty : st.dict c0 (data.getD (from1 + len) 0) = none
        · rw [if_pos hempty] at h
          simp only [Option.some.injEq, Prod.mk.injEq] at h
          obtain ⟨-, rfl⟩ := h
          refine ⟨fun c b v hv => ?_, by simp [hin, hsz]⟩
          show setChild st.dict c0 (data.getD (from1 + len) 0) st.size c b = some v
          unfold setChild
          split
          · rename_i hc
            rw [hc.1, hc.2] at hv
            rw [hempty] at hv
            exact absurd hv (by simp)
          · exact hv
        · rw [if_neg hempty] at h
          simp only [Option.some.injEq, Prod.mk.injEq] at h
          obtain ⟨-, rfl⟩ := h
          exact ⟨fun c b v hv => hv, by simp [hin, hsz]⟩
      · rw [if_neg hsz] at h
        simp only [Option.some.injEq, Prod.mk.injEq] at h
        obtain ⟨-, rfl⟩ := h
        exact ⟨fun c b v hv => hv, by simp [hsz]⟩
    · rw [if_neg hin] at h
      simp only [Option.some.injEq, Prod.mk.injEq] at h
      obtain ⟨-, rfl⟩ := h
      exact ⟨fun c b v hv => hv, by simp [hin]⟩

/-- Witness for C2: a concrete `addCode` call (insert "01" into a fresh GIF
dictionary of size 6) satisfying both conclusions. -/
theorem addCode_no_overwrite_counter_unconditional_witness :
    (∀ c b v, (⟨emptyDict, 6⟩ : EncDict).dict c b = some v →
       (⟨setChild emptyDict 0 1 6, 7⟩ : EncDict).dict c b = some v) ∧
    (⟨setChild emptyDict 0 1 6, 7⟩ : EncDict).size =
      (if 0 + 1 < ([0, 1, 0] : List Nat).length ∧ (⟨emptyDict, 6⟩ : EncDict).size < 4095
       then (⟨emptyDict, 6⟩ : EncDict).size + 1 else (⟨emptyDict, 6⟩ : EncDict).size) :=
  addCode_no_overwrite_counter_unconditional [0, 1, 0] 4095 ⟨emptyDict, 6⟩ 0 1 0
    ⟨setChild emptyDict 0 1 6, 7⟩ rfl

/-- Bounds and trie-walk characterisation of the `findMatch` loop: the result
grows from `len` by at most `r`, the walk of that many extra steps succeeds,
and either the iteration budget is exhausted or the next child is missing. -/
theorem findMatchGo_spec (d : Dict) (data : List Nat) :
    ∀ (r code pos len : Nat),
      len ≤ findMatchGo d data code pos len r ∧
      findMatchGo d data code pos len r ≤ len + r ∧
      codeOfAux d data pos code (findMatchGo d data code pos len r - len) ≠ none ∧
      (findMatchGo d data code pos len r = len + r ∨
       codeOfAux d data pos code (findMatchGo d data code pos len r - len + 1) = none) := by
  intro r
  induction r with
  | zero =>
    intro code pos len
    refine ⟨le_refl _, le_refl _, ?_, Or.inl rfl⟩
    simp [findMatchGo, codeOfAux]
  | succ r ih =>
    intro code pos len
    have hstep : findMatchGo d data code pos len (r + 1) =
        match d code (data.getD pos 0) with
        | none => len
        | some c => findMatchGo d data c (pos + 1) (len + 1) r := rfl
    cases hd : d code (data.getD pos 0) with
    | none =>
      have hv : findMatchGo d data code pos len (r + 1) = len := by
        rw [hstep, hd]
      rw [hv]
      refine ⟨le_refl _, by omega, by simp [codeOfAux], Or.inr ?_⟩
      rw [Nat.sub_self, codeOfAux_succ, hd]
    | some c =>
      have hv : findMatchGo d data code pos len (r + 1) =
          findMatchGo d data c (pos + 1) (len + 1) r := by
        rw [hstep, hd]
      rw [hv]
      obtain ⟨h1, h2, h3, h4⟩ := ih c (pos + 1) (len + 1)
      set L := findMatchGo d data c (pos + 1) (len + 1) r with hL
      have hsub : L - len = (L - (len + 1)) + 1 := by omega
      have hsub2 : L - len + 1 = (L - (len + 1) + 1) + 1 := by omega
      refine ⟨by omega, by omega, ?_, ?_⟩
      · rw [hsub, codeOfAux_succ, hd]
        exact h3
      · rcases h4 with h4 | h4
        · exact Or.inl (by omega)
        · refine Or.inr ?_
          rw [hsub2, codeOfAux_succ, hd]
          exact h4

/-- **C7.** For `from1` inside the literal stream and `maxLength ≥ 1`,
`findMatch` returns the number of bytes matched by walking the trie from
`data[from1]` with `data[from1+1..]` as lookup keys until a missing child:
the walk of that length succeeds (`codeOf ≠ none`), the walk one longer fails
unless the cap was reached, and the result is between 1 and `maxLength`. -/
theorem findMatch_walk (d : Dict) (data : List Nat) (from1 maxLength : Nat)
    (hfrom : from1 < data.length) (hmax : 1 ≤ maxLength) :
    1 ≤ findMatch d data from1 maxLength ∧
    findMatch d data from1 maxLength ≤ maxLength ∧
    codeOf d data from1 (findMatch d data from1 maxLength) ≠ none ∧
    (findMatch d data from1 maxLength = maxLength ∨
     codeOf d data from1 (findMatch d data from1 maxLength + 1) = none) := by
  obtain ⟨h1, h2, h3, h4⟩ :=
    findMatchGo_spec d data (maxLength - 1) (data.getD from1 0) (from1 + 1) 1
  have hfm : findMatch d data from1 maxLength =
      findMatchGo d data (data.getD from1 0) (from1 + 1) 1 (maxLength - 1) := by
    unfold findMatch
    rw [if_neg (by omega)]
  set L := findMatchGo d data (data.getD from1 0) (from1 + 1) 1 (maxLength - 1) with hL
  rw [hfm]
  have hcap : 1 + (maxLength - 1) = maxLength := by omega
  refine ⟨h1, by omega, ?_, ?_⟩
  · show codeOfAux d data (from1 + 1) (data.getD from1 0) (L - 1) ≠ none
    exact h3
  · rcases h4 with h4 | h4
    · exact Or.inl (by omega)
    · refine Or.inr ?_
      show codeOfAux d data (from1 + 1) (data.getD from1 0) (L + 1 - 1) = none
      have : L + 1 - 1 = L - 1 + 1 := by omega
      rw [this]
      exact h4

/-- Witness for C7: the trie holding only "01" (as in the C2 witness), matched
against `[0, 1, 0]` from position 0 with cap 3: the match has length 2. -/
theorem findMatch_walk_witness :
    1 ≤ findMatch (setChild emptyDict 0 1 6) [0, 1, 0] 0 3 ∧
    findMatch (setChild emptyDict 0 1 6) [0, 1, 0] 0 3 ≤ 3 ∧
    codeOf (setChild emptyDict 0 1 6) [0, 1, 0]
      0 (findMatch (setChild emptyDict 0 1 6) [0, 1, 0] 0 3) ≠ none ∧
    (findMatch (setChild emptyDict 0 1 6) [0, 1, 0] 0 3 = 3 ∨
     codeOf (setChild emptyDict 0 1 6) [0, 1, 0]
       0 (findMatch (setChild emptyDict 0 1 6) [0, 1, 0] 0 3 + 1) = none) :=
  findMatch_walk (setChild emptyDict 0 1 6) [0, 1, 0] 0 3 (by decide) (by decide)

/-- The refill loop only moves bytes into the buffer: on success the buffer
holds at least `numBits` bits. -/
theorem peekFillAux_size (numBits : Nat) :
    ∀ (bytes : List Nat) (buf size : Nat) (r : List Nat × Nat × Nat),
      peekFillAux numBits bytes buf size = some r → numBits ≤ r.2.2 := by
  intro bytes
  induction bytes with
  | nil =>
    intro buf size r h
    unfold peekFillAux at h
    split at h
    · rename_i hle
      obtain rfl := Option.some.inj h
      exact hle
    · exact absurd h (by simp)
  | cons byte rest ih =>
    intro buf size r h
    unfold peekFillAux at h
    split at h
    · rename_i hle
      obtain rfl := Option.some.inj h
      exact hle
    · exact ih _ _ r h

/-- A refill with an already sufficiently filled buffer does nothing. -/
theorem peekFillAux_noop (numBits : Nat) (bytes : List Nat) (buf size : Nat)
    (h : numBits ≤ size) :
    peekFillAux numBits bytes buf size = some (bytes, buf, size) := by
  cases bytes <;> simp [peekFillAux, h]

/-- `peekFill` does not change `m_bitsLeft` and fills the buffer to at least
`numBits` bits. -/
theorem peekFill_spec (b : BinaryInputBuffer) (numBits : Nat)
    (b1 : BinaryInputBuffer) (h : peekFill b numBits = some b1) :
    numBits ≤ b1.bitBufferSize ∧ b1.bitsLeft = b.bitsLeft ∧
    peekFill b1 numBits = some b1 := by
  unfold peekFill at h
  cases hx : peekFillAux numBits b.bytes b.bitBuffer b.bitBufferSize with
  | none => rw [hx] at h; exact absurd h (by simp)
  | some r =>
    rw [hx] at h
    obtain rfl := Option.some.inj h
    have hsz := peekFillAux_size numBits b.bytes b.bitBuffer b.bitBufferSize r hx
    refine ⟨hsz, rfl, ?_⟩
    unfold peekFill
    rw [peekFillAux_noop numBits r.1 r.2.1 r.2.2 hsz]
    rfl

/-- **C9.** The bit reader contract of `BinaryInputBuffer` (peek up to 16
bits): a successful `peekBits` consumes nothing — peeking again returns the
same value and the same state, and the remaining-bit count is unchanged —
and `getBits` returns exactly the peeked value while decreasing the
remaining-bit count by `numBits`. -/
theorem peekBits_getBits_contract (b : BinaryInputBuffer) (n v : Nat)
    (b1 : BinaryInputBuffer) (hn16 : n ≤ 16) (hn : n ≤ b.bitsLeft)
    (hpeek : peekBits b n = some (v, b1)) :
    peekBits b1 n = some (v, b1) ∧ b1.bitsLeft = b.bitsLeft ∧
    ∃ b2, getBits b n = some (v, b2) ∧ b2.bitsLeft + n = b.bitsLeft := by
  unfold peekBits at hpeek
  cases hf : peekFill b n with
  | none => rw [hf] at hpeek; exact absurd hpeek (by simp)
  | some bf =>
    rw [hf] at hpeek
    simp only [Option.map_some', Option.some.injEq, Prod.mk.injEq] at hpeek
    obtain ⟨hv, rfl⟩ := hpeek
    obtain ⟨hsz, hleft, hself⟩ := peekFill_spec b n bf hf
    refine ⟨?_, hleft, ?_⟩
    · unfold peekBits
      rw [hself]
      simp [hv]
    · refine ⟨⟨bf.bytes, bf.bitBuffer / 2 ^ n, bf.bitBufferSize - n, bf.bitsLeft - n⟩, ?_, ?_⟩
      · unfold getBits peekBits removeBits
        rw [hf]
        simp only [Option.map_some']
        rw [hself]
        simp [hv]
      · simp only
        omega

/-- Concrete fixtures used by the scenario theorems: GIF settings with
min_code_size 2 and greedy parsing (the defaults of flexiGIF.cpp with
alignment 1), and the `.Z` variant with min_code_size 8. -/
def gifSettings : OptimizationSettings :=
  ⟨2, false, false, true, 2, 1, 0, 0, false, 1, true, false⟩

/-- `.Z` settings: min_code_size 8, greedy. -/
def zSettings : OptimizationSettings := { gifSettings with minCodeSize := 8 }

/-- The literal stream of spec scenario 2. -/
def scenarioData : List Nat := [0, 1, 0, 1, 0, 1]

/-- The bitstream the encoder emits for scenario 2 (single final block). -/
def scenarioBits : Option (List Bool) :=
  (optimizePartial scenarioData true (fun _ => default) 0 0 true true gifSettings).map
    Prod.fst

/-- **C8 (counterexample).** `merge` called with an empty restart list
completes normally and returns a bit vector (here the prepended clear code
`100` for min_code_size 2): it does not report an error — the claimed misuse
error would be `none` in this model. -/
theorem merge_empty_restarts_no_error :
    merge scenarioData true (fun _ => default) true []
      { gifSettings with startWithClearCode := true }
      = some [false, false, true] := by decide

/-- **C8 (amended).** `merge` with an empty restart list returns normally for
every input and settings value: the result is just the optional prepended
clear code (no segments are encoded, no error is reported). -/
theorem merge_empty_restarts_returns_result (data : List Nat) (isGif : Bool)
    (best : Nat → BestBlock) (bestEmpty : Bool) (o : OptimizationSettings) :
    merge data isGif best bestEmpty [] o =
      some (if o.startWithClearCode ∧ isGif
            then List.replicate o.minCodeSize false ++ [true] else []) := by
  unfold merge
  simp

/-- **C6 (counterexample).** For `[0,1,0,1,0,1]` with min_code_size 2 the
encoder emits the tokens `0, 1, 6, 6` (at widths 3, 3, 3, 4, followed by the
end-of-stream code 5 at width 4), not `0, 1, 4, 6` as claimed: with
min_code_size 2 the codes 4 and 5 are the clear and end-of-stream codes, the
first user code is 6 (= "01"), and the fourth token re-uses 6 — the claimed
token stream differs from the emitted one. -/
theorem scenario2_not_tokens_0_1_4_6 :
    scenarioBits =
      some (addToStream (addToStream (addToStream (addToStream [] 0 3) 1 3) 6 3) 6 4
        ++ tokenBits 5 4) ∧
    addToStream (addToStream (addToStream (addToStream [] 0 3) 1 3) 6 3) 6 4
      ≠ addToStream (addToStream (addToStream (addToStream [] 0 3) 1 3) 4 3) 6 4 := by
  decide

/-- **C6 (amended).** For `[0,1,0,1,0,1]` with min_code_size 2 and greedy
parsing the encoder emits the token sequence `0, 1, 6, 6` before the closing
end-of-stream code (6 being the first user code, the string "01"), and
decoding the produced stream reconstructs exactly `[0,1,0,1,0,1]`. -/
theorem scenario2_tokens_and_roundtrip :
    scenarioBits =
      some (addToStream (addToStream (addToStream (addToStream [] 0 3) 1 3) 6 3) 6 4
        ++ tokenBits 5 4) ∧
    scenarioBits.bind (decompress true 2 12 100) = some scenarioData := by
  decide

/-- Witness for C9: peeking 3 bits of the byte 171 = 0b10101011 yields 3
twice, and `getBits` returns 3 leaving 5 bits. -/
theorem peekBits_getBits_contract_witness :
    peekBits ⟨[], 171, 8, 8⟩ 3 = some (3, ⟨[], 171, 8, 8⟩) ∧
    (⟨[], 171, 8, 8⟩ : BinaryInputBuffer).bitsLeft = (⟨[171], 0, 0, 8⟩ : BinaryInputBuffer).bitsLeft ∧
    ∃ b2, getBits ⟨[171], 0, 0, 8⟩ 3 = some (3, b2) ∧
      b2.bitsLeft + 3 = (⟨[171], 0, 0, 8⟩ : BinaryInputBuffer).bitsLeft :=
  peekBits_getBits_contract ⟨[171], 0, 0, 8⟩ 3 3 ⟨[], 171, 8, 8⟩ (by decide) (by decide)
    (by decide)

/-- `tokenBits` emits exactly `numBits` bits. -/
theorem tokenBits_length : ∀ (n token : Nat), (tokenBits token n).length = n := by
  intro n
  induction n with
  | zero => intro token; rfl
  | succ n ih => intro token; simp [tokenBits, ih]

/-- **C4 (counterexample).** Encoding the single `.Z` literal `[0]` as a final
segment emits the 9-bit token 0 followed by 7 zero bits of byte-boundary
padding — the final segment is padded, contradicting the claim that the final
segment emits no byte-boundary padding. -/
theorem z_final_segment_is_padded :
    (optimizePartial [0] false (fun _ => default) 0 0 true true zSettings).map Prod.fst
      = some (addToStream [] 0 9 ++ List.replicate 7 false) ∧
    addToStream [] 0 9 ++ List.replicate 7 false ≠ addToStream [] 0 9 := by decide

/-- **C4 (amended).** In the `.Z` flavour, every successfully closed non-final
segment ends with the clear code at width 16 (width 16 is forced: closing at
any other width throws, cf. C5), then zero bits padding to the next byte
boundary, then `code_size × gap` additional zero bits where `gap` makes the
token count since the last reset (including the clear code) a multiple of 8;
the final segment emits neither the clear code nor the gap zero bits, but it
IS padded with zero bits to the next byte boundary. -/
theorem z_close_block_shape (P : EncParams) (isFinal : Bool) (st st2 : EncLoop)
    (hg : P.isGif = false) (hemit : P.emit = true)
    (h : closeBlock P isFinal st = some st2) :
    (isFinal = false →
      getMinBits (st.dictSize - 1) = 16 ∧
      st2.result =
        addToStream st.result (2 ^ P.o.minCodeSize) 16
          ++ List.replicate ((8 - (st.result.length + 16) % 8) % 8) false
          ++ List.replicate (16 * ((8 - (st.numTokens + 1) % 8) % 8)) false ∧
      (st.numTokens + 1 + (8 - (st.numTokens + 1) % 8) % 8) % 8 = 0) ∧
    (isFinal = true →
      st2.result = st.result ++ List.replicate ((8 - st.result.length % 8) % 8) false ∧
      st2.result.length % 8 = 0) := by
  unfold closeBlock at h
  rw [hemit, hg] at h
  cases isFinal with
  | false =>
    simp only [Bool.false_eq_true, Bool.true_eq_false, eq_self_iff_true, not_true,
      not_false_iff, if_true, if_false] at h
    refine ⟨fun _ => ?_, fun hf => absurd hf (by simp)⟩
    by_cases hcs : getMinBits (st.dictSize - 1) = 16
    · rw [if_neg (by simp [hcs])] at h
      obtain rfl := Option.some.inj h
      have hgap : (if (st.numTokens + 1) % 8 = 0 then 0 else 8 - (st.numTokens + 1) % 8)
          = (8 - (st.numTokens + 1) % 8) % 8 := by
        by_cases h8 : (st.numTokens + 1) % 8 = 0
        · simp [h8]
        · rw [if_neg h8]
          omega
      refine ⟨hcs, ?_, by omega⟩
      dsimp only
      rw [hcs]
      have hlen : (addToStream st.result (2 ^ P.o.minCodeSize) 16).length =
          st.result.length + 16 := by
        simp [addToStream, tokenBits_length]
      rw [hlen, hgap]
      have hz : 8 * (16 * ((8 - (st.numTokens + 1) % 8) % 8) / 8)
          = 16 * ((8 - (st.numTokens + 1) % 8) % 8) := by omega
      rw [hz]
    · rw [if_pos (by simp [hcs])] at h
      exact absurd h (by simp)
  | true =>
    simp only [Bool.false_eq_true, Bool.true_eq_false, eq_self_iff_true, not_true,
      not_false_iff, if_true, if_false, Option.some.injEq] at h
    subst h
    refine ⟨fun hf => absurd hf (by simp), fun _ => ⟨rfl, ?_⟩⟩
    simp only [List.length_append, List.length_replicate]
    omega

/-- A concrete non-final `.Z` segment close used as the C4 witness: 5 tokens
and 153 bits emitted so far, dictionary size 32769 (so the closing width is
16). -/
def zCloseP : EncParams := ⟨[0, 0, 0], false, 16, 65535, zSettings, 1, 0, 3, true⟩

/-- Encoder-loop state for the C4/C5 witnesses. -/
def zCloseSt : EncLoop :=
  ⟨emptyDict, 32769, fun _ => default, 153, 5, 0, 0, 16, List.replicate 9 false⟩

/-- Witness for C4: the concrete non-final close of `zCloseSt` produces
exactly clear ++ 7 padding bits ++ 32 gap bits. -/
theorem z_close_block_shape_witness :
    (false = false →
      getMinBits (zCloseSt.dictSize - 1) = 16 ∧
      ({ zCloseSt with
          result := ((List.replicate 9 false ++ tokenBits 256 16)
            ++ List.replicate 7 false) ++ List.replicate 32 false
          numBits := 160
          numTokens := 6
          codeSize := 16 } : EncLoop).result =
        addToStream zCloseSt.result (2 ^ zCloseP.o.minCodeSize) 16
          ++ List.replicate ((8 - (zCloseSt.result.length + 16) % 8) % 8) false
          ++ List.replicate (16 * ((8 - (zCloseSt.numTokens + 1) % 8) % 8)) false ∧
      (zCloseSt.numTokens + 1 + (8 - (zCloseSt.numTokens + 1) % 8) % 8) % 8 = 0) ∧
    (false = true →
      ({ zCloseSt with
          result := ((List.replicate 9 false ++ tokenBits 256 16)
            ++ List.replicate 7 false) ++ List.replicate 32 false
          numBits := 160
          numTokens := 6
          codeSize := 16 } : EncLoop).result =
        zCloseSt.result ++ List.replicate ((8 - zCloseSt.result.length % 8) % 8) false ∧
      ({ zCloseSt with
          result := ((List.replicate 9 false ++ tokenBits 256 16)
            ++ List.replicate 7 false) ++ List.replicate 32 false
          numBits := 160
          numTokens := 6
          codeSize := 16 } : EncLoop).result.length % 8 = 0) :=
  z_close_block_shape zCloseP false zCloseSt _ rfl rfl rfl

/-- **C5.** `.Z` restart legality.  First conjunct: during the DP scoring
pass, the cost-evaluation step at a non-final position with code width below
16 records nothing (the state, in particular `m_best`, is returned
unchanged).  Second conjunct: closing a non-final `.Z` segment whose closing
code width is not 16 throws (`none`): the encode aborts and no bitstream is
produced. -/
theorem z_restart_width16 (P : EncParams) (i : Nat) (st stc : EncLoop)
    (hg : P.isGif = false)
    (hnl : i + 1 ≠ P.data.length) (hw : st.codeSize < 16)
    (hemit : P.emit = true) (hwc : getMinBits (stc.dictSize - 1) ≠ 16) :
    costEval P i st = st ∧ closeBlock P false stc = none := by
  constructor
  · unfold costEval
    by_cases h1 : P.o.readOnlyBest
    · rw [if_pos h1]
    · rw [if_neg h1]
      by_cases h2 : ¬(i + 1 = P.data.length) ∧
          (st.best (if 1 < P.alignment then (i + 1 + P.alignment - 1) / P.alignment
                    else i + 1)).totalBits = 0
      · rw [if_pos h2]
      · rw [if_neg h2]
        by_cases h3 : 1 < P.alignment ∧ (i - P.from1 + 1) % P.alignment ≠ 0 ∧
            ¬(i + 1 = P.data.length)
        · rw [if_pos h3]
        · rw [if_neg h3]
          rw [if_pos ⟨by simp [hg], hnl, hw⟩]
  · unfold closeBlock
    rw [hemit, hg]
    simp only [Bool.false_eq_true, Bool.true_eq_false, eq_self_iff_true, not_true,
      not_false_iff, if_true, if_false]
    rw [if_pos hwc]

/-- Witness for C5: a `.Z` scoring step at position 0 of a 3-byte input with
width 9 leaves the state untouched, and closing a non-final block with
dictionary size 257 (width 9) throws. -/
theorem z_restart_width16_witness :
    costEval zCloseP 0 ⟨emptyDict, 257, fun _ => default, 9, 1, 0, 0, 9, tokenBits 0 9⟩
      = ⟨emptyDict, 257, fun _ => default, 9, 1, 0, 0, 9, tokenBits 0 9⟩ ∧
    closeBlock zCloseP false ⟨emptyDict, 257, fun _ => default, 9, 1, 0, 0, 9, tokenBits 0 9⟩
      = none :=
  z_restart_width16 zCloseP 0 _ _ rfl (by decide) (by decide) rfl (by decide)

/-- Unfolding step of the non-greedy lookahead loop. -/
theorem nonGreedyLoop_succ (d : Dict) (data : List Nat)
    (i remaining atLeast sh best choice : Nat) :
    nonGreedyLoop d data i remaining atLeast (sh + 1) best choice =
      if atLeast ≤ (sh + 1) + findMatch d data (i + (sh + 1)) (remaining - (sh + 1)) ∧
         best < (sh + 1) + findMatch d data (i + (sh + 1)) (remaining - (sh + 1)) then
        nonGreedyLoop d data i remaining atLeast sh
          ((sh + 1) + findMatch d data (i + (sh + 1)) (remaining - (sh + 1))) (sh + 1)
      else nonGreedyLoop d data i remaining atLeast sh best choice := rfl

/-- Any choice the lookahead loop takes (other than the seeded one) is a
length `s ∈ [1, sh]` whose two-match sum reaches `atLeast` and strictly
exceeds the original pair sum `bp` (the running best only grows from `bp`). -/
theorem nonGreedyLoop_choice (d : Dict) (data : List Nat) (i remaining atLeast bp : Nat) :
    ∀ (sh best choice : Nat), bp ≤ best →
      (nonGreedyLoop d data i remaining atLeast sh best choice).2 = choice ∨
      (1 ≤ (nonGreedyLoop d data i remaining atLeast sh best choice).2 ∧
       (nonGreedyLoop d data i remaining atLeast sh best choice).2 ≤ sh ∧
       atLeast ≤ (nonGreedyLoop d data i remaining atLeast sh best choice).2 +
         findMatch d data (i + (nonGreedyLoop d data i remaining atLeast sh best choice).2)
           (remaining - (nonGreedyLoop d data i remaining atLeast sh best choice).2) ∧
       bp < (nonGreedyLoop d data i remaining atLeast sh best choice).2 +
         findMatch d data (i + (nonGreedyLoop d data i remaining atLeast sh best choice).2)
           (remaining - (nonGreedyLoop d data i remaining atLeast sh best choice).2)) := by
  intro sh
  induction sh with
  | zero => intro best choice _; exact Or.inl rfl
  | succ sh ih =>
    intro best choice hbp
    rw [nonGreedyLoop_succ]
    by_cases hcond : atLeast ≤ (sh + 1) + findMatch d data (i + (sh + 1)) (remaining - (sh + 1)) ∧
        best < (sh + 1) + findMatch d data (i + (sh + 1)) (remaining - (sh + 1))
    · rw [if_pos hcond]
      rcases ih ((sh + 1) + findMatch d data (i + (sh + 1)) (remaining - (sh + 1))) (sh + 1)
          (by omega) with hkeep | hnew
      · rw [hkeep]
        exact Or.inr ⟨by omega, le_refl _, hcond.1, by omega⟩
      · exact Or.inr ⟨hnew.1, by omega, hnew.2.2.1, hnew.2.2.2⟩
    · rw [if_neg hcond]
      rcases ih best choice hbp with hkeep | hnew
      · exact Or.inl hkeep
      · exact Or.inr ⟨hnew.1, by omega, hnew.2.2.1, hnew.2.2.2⟩

/-- When no shorter length has a qualifying sum, the lookahead loop keeps the
seeded choice. -/
theorem nonGreedyLoop_keep (d : Dict) (data : List Nat) (i remaining atLeast bp : Nat) :
    ∀ (sh best choice : Nat), bp ≤ best →
      (∀ s, 1 ≤ s → s ≤ sh →
        ¬(atLeast ≤ s + findMatch d data (i + s) (remaining - s) ∧
          bp < s + findMatch d data (i + s) (remaining - s))) →
      (nonGreedyLoop d data i remaining atLeast sh best choice).2 = choice := by
  intro sh
  induction sh with
  | zero => intro best choice _ _; rfl
  | succ sh ih =>
    intro best choice hbp hnone
    rw [nonGreedyLoop_succ]
    have hnot : ¬(atLeast ≤ (sh + 1) + findMatch d data (i + (sh + 1)) (remaining - (sh + 1)) ∧
        best < (sh + 1) + findMatch d data (i + (sh + 1)) (remaining - (sh + 1))) := by
      intro hcond
      exact hnone (sh + 1) (by omega) (le_refl _) ⟨hcond.1, by omega⟩
    rw [if_neg hnot]
    exact ih best choice hbp fun s h1 h2 => hnone s h1 (by omega)

/-- `chooseMatchLength` either keeps the greedy length (non-greedy flag off)
or returns the lookahead loop's choice when that is strictly shorter. -/
theorem chooseMatchLength_cases (P : EncParams) (d : Dict) (i remaining : Nat) :
    chooseMatchLength P d i remaining = (findMatch d P.data i remaining, false) ∨
    chooseMatchLength P d i remaining =
      (if (nonGreedyLoop d P.data i remaining
            (findMatch d P.data i remaining +
              findMatch d P.data (i + findMatch d P.data i remaining)
                (remaining - findMatch d P.data i remaining) + P.o.minImprovement)
            (findMatch d P.data i remaining - 1)
            (findMatch d P.data i remaining +
              findMatch d P.data (i + findMatch d P.data i remaining)
                (remaining - findMatch d P.data i remaining))
            (findMatch d P.data i remaining)).2 < findMatch d P.data i remaining then
        ((nonGreedyLoop d P.data i remaining
            (findMatch d P.data i remaining +
              findMatch d P.data (i + findMatch d P.data i remaining)
                (remaining - findMatch d P.data i remaining) + P.o.minImprovement)
            (findMatch d P.data i remaining - 1)
            (findMatch d P.data i remaining +
              findMatch d P.data (i + findMatch d P.data i remaining)
                (remaining - findMatch d P.data i remaining))
            (findMatch d P.data i remaining)).2, true)
      else (findMatch d P.data i remaining, false)) := by
  unfold chooseMatchLength
  dsimp only
  by_cases h2 : P.data.length ≤ i + findMatch d P.data i remaining + 4
  · rw [if_pos h2]
    simp only [Bool.false_eq_true, if_false]
    exact Or.inl trivial
  · rw [if_neg h2]
    by_cases h1 : findMatch d P.data i remaining = 1 ∨
        findMatch d P.data i remaining < P.o.minNonGreedyMatch
    · rw [if_pos h1]
      simp only [Bool.false_eq_true, if_false]
      exact Or.inl trivial
    · rw [if_neg h1]
      cases hg : P.o.greedy with
      | true =>
        simp only [hg, Bool.not_true, Bool.false_eq_true, if_false]
        exact Or.inl trivial
      | false =>
        simp only [hg, Bool.not_false, if_true]
        exact Or.inr trivial

/-- **C3.** The non-greedy selection rule at an emission point with greedy
length `L`, second greedy length `second` and `bp = L + second`: a shorter
length is chosen only if its two-match sum is at least `bp + min_improvement`
and strictly greater than `bp`; when no shorter length qualifies, the greedy
`L` is kept (ties and sub-threshold improvements prefer `L`). -/
theorem nongreedy_selection_rule (P : EncParams) (d : Dict)
    (i remaining L second bp c : Nat)
    (hL : L = findMatch d P.data i remaining)
    (hsecond : second = findMatch d P.data (i + L) (remaining - L))
    (hbp : bp = L + second)
    (hc : c = (chooseMatchLength P d i remaining).1) :
    (c ≠ L →
      c < L ∧ 1 ≤ c ∧
      bp + P.o.minImprovement ≤ c + findMatch d P.data (i + c) (remaining - c) ∧
      bp < c + findMatch d P.data (i + c) (remaining - c)) ∧
    ((∀ s, 1 ≤ s → s < L →
        ¬(bp + P.o.minImprovement ≤ s + findMatch d P.data (i + s) (remaining - s) ∧
          bp < s + findMatch d P.data (i + s) (remaining - s))) →
      c = L) := by
  subst hsecond hbp hL
  rcases chooseMatchLength_cases P d i remaining with hcase | hcase
  · rw [hcase] at hc
    dsimp only at hc
    subst hc
    exact ⟨fun hne => absurd rfl hne, fun _ => rfl⟩
  · rw [hcase] at hc
    by_cases hlt : (nonGreedyLoop d P.data i remaining
        (findMatch d P.data i remaining +
          findMatch d P.data (i + findMatch d P.data i remaining)
            (remaining - findMatch d P.data i remaining) + P.o.minImprovement)
        (findMatch d P.data i remaining - 1)
        (findMatch d P.data i remaining +
          findMatch d P.data (i + findMatch d P.data i remaining)
            (remaining - findMatch d P.data i remaining))
        (findMatch d P.data i remaining)).2 < findMatch d P.data i remaining
    · rw [if_pos hlt] at hc
      dsimp only at hc
      subst hc
      rcases nonGreedyLoop_choice d P.data i remaining
          (findMatch d P.data i remaining +
             findMatch d P.data (i + findMatch d P.data i remaining)
               (remaining - findMatch d P.data i remaining) + P.o.minImprovement)
          (findMatch d P.data i remaining +
             findMatch d P.data (i + findMatch d P.data i remaining)
               (remaining - findMatch d P.data i remaining))
          (findMatch d P.data i remaining - 1)
          (findMatch d P.data i remaining +
             findMatch d P.data (i + findMatch d P.data i remaining)
               (remaining - findMatch d P.data i remaining))
          (findMatch d P.data i remaining) (le_refl _) with hkeep | hnew
      · rw [hkeep] at hlt
        exact absurd hlt (lt_irrefl _)
      · refine ⟨fun _ => ⟨hlt, hnew.1, hnew.2.2.1, hnew.2.2.2⟩, fun hnone => ?_⟩
        exact absurd ⟨hnew.2.2.1, hnew.2.2.2⟩ (hnone _ hnew.1 hlt)
    · rw [if_neg hlt] at hc
      dsimp only at hc
      subst hc
      exact ⟨fun hne => absurd rfl hne, fun _ => rfl⟩

/-- The trie of spec scenario 5 (`a, aa, ab, aaa, abb` with `a = 0`,
`b = 1`), used as the C3 witness. -/
def scenario5Dict : Dict :=
  setChild (setChild (setChild (setChild emptyDict 0 0 4) 0 1 5) 4 0 6) 5 1 7

/-- Non-greedy encoder parameters for the C3 witness. -/
def ngParams : EncParams :=
  ⟨[0, 0, 0, 1, 1, 0, 0, 0], true, 12, 4095, { gifSettings with greedy := false }, 1, 0, 8, true⟩

/-- Witness for C3: on `aaabb...` with the scenario-5 trie the greedy length
is 3 (`aaa`) with second match 1 and pair sum 4, and the loop picks the
shorter length 2 (`aa`) whose sum 2 + 3 = 5 qualifies. -/
theorem nongreedy_selection_rule_witness :
    ((2 : Nat) ≠ 3 →
      2 < 3 ∧ 1 ≤ 2 ∧
      4 + ngParams.o.minImprovement ≤ 2 + findMatch scenario5Dict ngParams.data (0 + 2) (5 - 2) ∧
      4 < 2 + findMatch scenario5Dict ngParams.data (0 + 2) (5 - 2)) ∧
    ((∀ s, 1 ≤ s → s < 3 →
        ¬(4 + ngParams.o.minImprovement ≤ s + findMatch scenario5Dict ngParams.data (0 + s) (5 - s) ∧
          4 < s + findMatch scenario5Dict ngParams.data (0 + s) (5 - s))) →
      2 = 3) :=
  nongreedy_selection_rule ngParams scenario5Dict 0 5 3 1 4 2
    (by decide) (by decide) (by decide) (by decide)

/-- The reset loop only ever truncates the lookup table, so it cannot grow
it. -/
theorem resetLoop_lut_le (isGif : Bool) (minCodeSize clear maxColor : Nat) :
    ∀ (fuel : Nat) (st st2 : DecState),
      resetLoop isGif minCodeSize clear maxColor fuel st = some st2 →
      st2.lut.length ≤ st.lut.length := by
  intro fuel
  induction fuel with
  | zero => intro st st2 h; exact absurd h (by simp [resetLoop])
  | succ fuel ih =>
    intro st st2 h
    unfold resetLoop at h
    split at h
    · obtain rfl := Option.some.inj h
      exact le_refl _
    · dsimp only at h
      repeat' split at h
      all_goals
        first
        | exact Option.noConfusion h
        | exact le_trans (ih _ _ h) (List.length_take_le' _ _)

/-- **C10.** The decoder's lookup table never exceeds `2 ^ maxCodeSize`
entries (4096 for GIF with maxCodeSize 12, one more than the encoder cap
`2 ^ 12 - 1`).  First conjunct: every continuing pass of the decoding loop
preserves the bound — the new entry is appended only while the table is
strictly below it.  Second conjunct: a pass that reads the KwKwK token (equal
to the table size) while the table has reached the bound throws
("dictionary too large"). -/
theorem decoder_lut_bounded (isGif : Bool)
    (minCodeSize maxCodeSize clear endOfStream maxColor : Nat) (st st2 : DecState) :
    (decStep isGif minCodeSize maxCodeSize clear endOfStream maxColor (2 ^ maxCodeSize) st
        = .cont st2 →
      st.lut.length ≤ 2 ^ maxCodeSize → st2.lut.length ≤ 2 ^ maxCodeSize) ∧
    (st.token ≠ endOfStream →
      ¬(¬isGif = true ∧ st.bits.length < stepWidth maxCodeSize st) →
      (takeBits st.bits (stepWidth maxCodeSize st)).1 = st.lut.length →
      st.lut.length ≠ clear → st.lut.length ≠ endOfStream →
      2 ^ maxCodeSize ≤ st.lut.length →
      decStep isGif minCodeSize maxCodeSize clear endOfStream maxColor (2 ^ maxCodeSize) st
        = .fail) := by
  constructor
  · intro hstep hle
    unfold decStep at hstep
    dsimp only at hstep
    split at hstep
    · exact absurd hstep (by simp)
    · split at hstep
      · exact absurd hstep (by simp)
      · split at hstep
        · exact absurd hstep (by simp)
        · split at hstep
          · exact absurd hstep (by simp)
          · split at hstep
            · -- reset path
              split at hstep
              · exact absurd hstep (by simp)
              · rename_i stx hr
                obtain rfl := DecResult.cont.inj hstep
                exact le_trans
                  (resetLoop_lut_le isGif minCodeSize clear maxColor _ _ _ hr) hle
            · split at hstep
              · exact absurd hstep (by simp)
              · split at hstep
                · split at hstep
                  · exact absurd hstep (by simp)
                  · -- KwKwK append
                    obtain rfl := DecResult.cont.inj hstep
                    dsimp only
                    split
                    · rename_i hlt
                      simp only [List.length_append, List.length_singleton]
                      omega
                    · exact hle
                · -- known-token append
                  obtain rfl := DecResult.cont.inj hstep
                  dsimp only
                  split
                  · rename_i hlt
                    simp only [List.length_append, List.length_singleton]
                    omega
                  · exact hle
  · intro htok hbreak hread hnclear hneos hcap
    unfold decStep
    dsimp only
    rw [if_neg htok, if_neg hbreak]
    by_cases hshort : st.bits.length < stepWidth maxCodeSize st
    · rw [if_pos hshort]
    · rw [if_neg hshort]
      rw [hread]
      rw [if_neg (lt_irrefl _)]
      rw [if_neg hnclear, if_neg hneos]
      rw [if_pos (le_refl _), if_pos hcap]

/-- Witness states for C10: a mid-decode GIF state that appends one entry, and
a state (for a hypothetical decoder with maxCodeSize 3) that reads the KwKwK
token 8 with the table already at 8 entries. -/
def decStA : DecState :=
  ⟨tokenBits 1 3, initLut true 4 3, [0], 3, 0, 1, 3⟩

/-- The KwKwK-at-cap witness state. -/
def decStB : DecState :=
  ⟨tokenBits 8 4, List.replicate 8 default, [0], 4, 0, 1, 4⟩

/-- Witness for C10: the concrete continuing pass keeps the table within
2 ^ 12 entries, and the concrete KwKwK-at-cap pass fails. -/
theorem decoder_lut_bounded_witness :
    (⟨[], initLut true 4 3 ++ [⟨2, 0, 1, 1⟩], [0, 1], 3, 1, 2, 6⟩ : DecState).lut.length
        ≤ 2 ^ 12 ∧
    decStep true 2 3 4 5 3 (2 ^ 3) decStB = .fail :=
  ⟨(decoder_lut_bounded true 2 12 4 5 3 decStA
      ⟨[], initLut true 4 3 ++ [⟨2, 0, 1, 1⟩], [0, 1], 3, 1, 2, 6⟩).1
      (by decide) (by decide),
   (decoder_lut_bounded true 2 3 4 5 3 decStB decStB).2
      (by decide) (by decide) (by decide) (by decide) (by decide) (by decide)⟩

/-! ### Bit-stream lemmas -/

/-- `tokenBits` emits the token's residue, LSB first. -/
theorem bitsToNat_tokenBits : ∀ (n x : Nat), bitsToNat (tokenBits x n) = x % 2 ^ n := by
  intro n
  induction n with
  | zero => intro x; simp [tokenBits, bitsToNat, Nat.mod_one]
  | succ n ih =>
    intro x
    show bitsToNat (decide (x % 2 = 1) :: tokenBits (x / 2) n) = x % 2 ^ (n + 1)
    simp only [bitsToNat, ih, decide_eq_true_eq]
    have hsplit : x % 2 ^ (n + 1) = x % 2 + 2 * (x / 2 % 2 ^ n) := by
      rw [pow_succ, mul_comm (2 ^ n) 2, Nat.mod_mul]
    by_cases hx : x % 2 = 1
    · rw [if_pos hx]
      omega
    · rw [if_neg hx]
      omega

/-- Reading back an in-range token. -/
theorem bitsToNat_tokenBits_lt (n x : Nat) (h : x < 2 ^ n) :
    bitsToNat (tokenBits x n) = x := by
  rw [bitsToNat_tokenBits, Nat.mod_eq_of_lt h]

/-- Splitting a read at a list boundary. -/
theorem takeBits_append (xs rest : List Bool) :
    takeBits (xs ++ rest) xs.length = (bitsToNat xs, rest) := by
  unfold takeBits
  rw [List.take_left, List.drop_left]

/-- `takeBits` on a stream that starts with an emitted in-range token returns
the token and the remainder. -/
theorem takeBits_tokenBits (n x : Nat) (rest : List Bool) (h : x < 2 ^ n) :
    takeBits (tokenBits x n ++ rest) n = (x, rest) := by
  have h1 := takeBits_append (tokenBits x n) rest
  rw [tokenBits_length] at h1
  rw [h1, bitsToNat_tokenBits_lt n x h]

/-- Zero extension: reading `k ≥ n` bits off the end of a stream that holds
only the `n` bits of an in-range token still returns the token (missing bits
read as zero). -/
theorem bitsToNat_take_tokenBits (n k x : Nat) (hx : x < 2 ^ n) (hk : n ≤ k) :
    bitsToNat (List.take k (tokenBits x n)) = x := by
  rw [List.take_of_length_le (by rw [tokenBits_length]; exact hk)]
  exact bitsToNat_tokenBits_lt n x hx

/-- Dropping a zero-padding prefix. -/
theorem takeBits_replicate_drop (k : Nat) (rest : List Bool) :
    (takeBits (List.replicate k false ++ rest) k).2 = rest := by
  have h1 := takeBits_append (List.replicate k false) rest
  rw [List.length_replicate] at h1
  rw [h1]

/-! ### Data slices -/

/-- The substring `D[a..b)` of the literal stream. -/
def sub (D : List Nat) (a b : Nat) : List Nat := (D.drop a).take (b - a)

theorem sub_self (D : List Nat) (a : Nat) : sub D a a = [] := by
  simp [sub]

theorem length_sub (D : List Nat) (a b : Nat) (hb : b ≤ D.length) (hab : a ≤ b) :
    (sub D a b).length = b - a := by
  simp only [sub, List.length_take, List.length_drop]
  omega

theorem sub_one (D : List Nat) (a : Nat) (ha : a < D.length) :
    sub D a (a + 1) = [D.getD a 0] := by
  unfold sub
  have : a + 1 - a = 1 := by omega
  rw [this]
  have hd : D.drop a = D.getD a 0 :: D.drop (a + 1) := by
    rw [List.getD_eq_getElem?_getD]
    rw [List.drop_eq_getElem_cons ha]
    simp [List.getElem?_eq_getElem ha]
  rw [hd]
  rfl

/-- Extending a slice by one byte. -/
theorem sub_snoc (D : List Nat) (a b : Nat) (hab : a ≤ b) (hb : b < D.length) :
    sub D a b ++ [D.getD b 0] = sub D a (b + 1) := by
  unfold sub
  have h1 : b + 1 - a = (b - a) + 1 := by omega
  rw [h1]
  rw [List.take_succ]
  congr 1
  have : (D.drop a)[b - a]? = some (D.getD b 0) := by
    rw [List.getElem?_drop]
    have : a + (b - a) = b := by omega
    rw [this]
    rw [List.getD_eq_getElem?_getD, List.getElem?_eq_getElem hb]
    rfl
  rw [this]
  rfl

/-- The first byte of a nonempty slice. -/
theorem sub_getD_zero (D : List Nat) (a b : Nat) (hab : a < b) (ha : a < D.length) :
    (sub D a b).getD 0 0 = D.getD a 0 := by
  unfold sub
  have hd : D.drop a = D.getD a 0 :: D.drop (a + 1) := by
    rw [List.getD_eq_getElem?_getD]
    rw [List.drop_eq_getElem_cons ha]
    simp [List.getElem?_eq_getElem ha]
  rw [hd]
  have : b - a = (b - a - 1) + 1 := by omega
  rw [this]
  rfl

/-- A slice glued onto the prefix before it. -/
theorem take_append_sub (D : List Nat) (a b : Nat) (hab : a ≤ b) :
    D.take a ++ sub D a b = D.take b := by
  unfold sub
  have : b = a + (b - a) := by omega
  rw [this, List.take_add]
  have : a + (b - a) - a = b - a := by omega
  rw [this]

/-! ### Trie-walk lemmas -/

/-- Peeling the last step off a trie walk. -/
theorem codeOfAux_snoc (d : Dict) (data : List Nat) :
    ∀ (s pos code : Nat),
      codeOfAux d data pos code (s + 1) =
        (codeOfAux d data pos code s).bind (fun c => d c (data.getD (pos + s) 0)) := by
  intro s
  induction s with
  | zero =>
    intro pos code
    rw [codeOfAux_succ]
    show _ = d code (data.getD pos 0)
    cases hd : d code (data.getD pos 0) with
    | none => rfl
    | some c => rfl
  | succ s ih =>
    intro pos code
    rw [codeOfAux_succ]
    conv_rhs => rw [codeOfAux_succ]
    cases hd : d code (data.getD pos 0) with
    | none => rfl
    | some c =>
      show codeOfAux d data (pos + 1) c (s + 1) =
        (codeOfAux d data (pos + 1) c s).bind
          (fun c2 => d c2 (data.getD (pos + (s + 1)) 0))
      rw [ih (pos + 1) c]
      have h2 : pos + 1 + s = pos + (s + 1) := by omega
      rw [h2]

/-- Peeling the last byte off a whole-match walk (`n ≥ 1`). -/
theorem codeOf_snoc (d : Dict) (data : List Nat) (p n : Nat) (hn : 1 ≤ n) :
    codeOf d data p (n + 1) =
      (codeOf d data p n).bind (fun c => d c (data.getD (p + n) 0)) := by
  unfold codeOf
  have h1 : n + 1 - 1 = (n - 1) + 1 := by omega
  rw [h1, codeOfAux_snoc]
  have h2 : p + 1 + (n - 1) = p + n := by omega
  rw [h2]

/-- A prefix of a successful walk succeeds. -/
theorem codeOfAux_prefix (d : Dict) (data : List Nat) :
    ∀ (s s' pos code : Nat), s' ≤ s → codeOfAux d data pos code s ≠ none →
      codeOfAux d data pos code s' ≠ none := by
  intro s
  induction s with
  | zero =>
    intro s' pos code hle hne
    have : s' = 0 := by omega
    rw [this]
    exact hne
  | succ s ih =>
    intro s' pos code hle hne
    by_cases hs : s' = s + 1
    · rw [hs]; exact hne
    · refine ih s' pos code (by omega) ?_
      rw [codeOfAux_snoc] at hne
      intro hc
      rw [hc] at hne
      exact hne rfl

/-- A shorter match than a successful one still has a code. -/
theorem codeOf_prefix (d : Dict) (data : List Nat) (p n m : Nat)
    (hne : codeOf d data p n ≠ none) (hm : 1 ≤ m) (hmn : m ≤ n) :
    codeOf d data p m ≠ none := by
  unfold codeOf at hne ⊢
  exact codeOfAux_prefix d data (n - 1) (m - 1) (p + 1) (data.getD p 0) (by omega) hne

/-- Bounds for the match length chosen at an emission point: at least 1, at
most `remaining`, and the corresponding trie walk succeeds. -/
theorem chooseMatchLength_bounds (P : EncParams) (d : Dict) (i remaining : Nat)
    (hrem : 1 ≤ remaining) (hi : i < P.data.length) :
    1 ≤ (chooseMatchLength P d i remaining).1 ∧
    (chooseMatchLength P d i remaining).1 ≤ remaining ∧
    codeOf d P.data i (chooseMatchLength P d i remaining).1 ≠ none := by
  obtain ⟨hm1, hm2, hm3, _⟩ := findMatch_walk d P.data i remaining hi hrem
  rcases chooseMatchLength_cases P d i remaining with hcase | hcase
  · rw [hcase]
    exact ⟨hm1, hm2, hm3⟩
  · rw [hcase]
    by_cases hlt : (nonGreedyLoop d P.data i remaining
        (findMatch d P.data i remaining +
          findMatch d P.data (i + findMatch d P.data i remaining)
            (remaining - findMatch d P.data i remaining) + P.o.minImprovement)
        (findMatch d P.data i remaining - 1)
        (findMatch d P.data i remaining +
          findMatch d P.data (i + findMatch d P.data i remaining)
            (remaining - findMatch d P.data i remaining))
        (findMatch d P.data i remaining)).2 < findMatch d P.data i remaining
    · rw [if_pos hlt]
      rcases nonGreedyLoop_choice d P.data i remaining
          (findMatch d P.data i remaining +
             findMatch d P.data (i + findMatch d P.data i remaining)
               (remaining - findMatch d P.data i remaining) + P.o.minImprovement)
          (findMatch d P.data i remaining +
             findMatch d P.data (i + findMatch d P.data i remaining)
               (remaining - findMatch d P.data i remaining))
          (findMatch d P.data i remaining - 1)
          (findMatch d P.data i remaining +
             findMatch d P.data (i + findMatch d P.data i remaining)
               (remaining - findMatch d P.data i remaining))
          (findMatch d P.data i remaining) (le_refl _) with hkeep | hnew
      · rw [hkeep] at hlt
        exact absurd hlt (lt_irrefl _)
      · exact ⟨hnew.1, by omega,
          codeOf_prefix d P.data i (findMatch d P.data i remaining) _ hm3 hnew.1
            (le_of_lt hlt)⟩
    · rw [if_neg hlt]
      exact ⟨hm1, hm2, hm3⟩

/-! ### Generic list-access helpers -/

theorem getD_append_lt {α : Type} (l l' : List α) (i : Nat) (d : α) (h : i < l.length) :
    (l ++ l').getD i d = l.getD i d := by
  rw [List.getD_eq_getElem?_getD, List.getD_eq_getElem?_getD,
      List.getElem?_append, if_pos h]

theorem getD_append_ge {α : Type} (l l' : List α) (i : Nat) (d : α) (h : l.length ≤ i) :
    (l ++ l').getD i d = l'.getD (i - l.length) d := by
  rw [List.getD_eq_getElem?_getD, List.getD_eq_getElem?_getD,
      List.getElem?_append_right h]

theorem getD_take_lt {α : Type} (l : List α) (n i : Nat) (d : α) (h : i < n) :
    (l.take n).getD i d = l.getD i d := by
  rw [List.getD_eq_getElem?_getD, List.getD_eq_getElem?_getD, List.getElem?_take, if_pos h]

/-! ### Decoder table lemmas -/

/-- Unfolding one step of the backward walk. -/
theorem decodeStr_succ (lut : List DecEntry) (s code : Nat) :
    decodeStr lut (s + 1) code =
      decodeStr lut s ((lut.getD code default).previous) ++
        [(lut.getD code default).last] := rfl

/-- A literal entry decodes to its byte. -/
theorem decodeCode_lit (lut : List DecEntry) (b : Nat)
    (h : lut.getD b default = ⟨1, 0, b, 0⟩) : decodeCode lut b = [b] := by
  unfold decodeCode
  rw [h]
  show decodeStr lut (0 + 1) b = [b]
  rw [decodeStr_succ, h]
  rfl

/-- An entry whose predecessor chain is consistent decodes to the parent's
string extended by its `last` byte. -/
theorem decodeCode_step (lut : List DecEntry) (v c b q : Nat)
    (h : lut.getD v default = ⟨(lut.getD c default).length + 1, c, b, q⟩) :
    decodeCode lut v = decodeCode lut c ++ [b] := by
  unfold decodeCode
  rw [h]
  rw [decodeStr_succ, h]

/-- All `previous` links of the table point into the table. -/
def PrevBound (lut : List DecEntry) : Prop :=
  ∀ i, i < lut.length → (lut.getD i default).previous < lut.length

/-- Appending entries to the table does not change the backward walk from an
existing entry. -/
theorem decodeStr_stable (lut ext : List DecEntry) (hpb : PrevBound lut) :
    ∀ (s c : Nat), c < lut.length →
      decodeStr (lut ++ ext) s c = decodeStr lut s c := by
  intro s
  induction s with
  | zero => intro c _; rfl
  | succ s ih =>
    intro c hc
    rw [decodeStr_succ, decodeStr_succ, getD_append_lt lut ext c default hc,
        ih _ (hpb c hc)]

/-- Appending entries to the table does not change the string of an existing
code. -/
theorem decodeCode_stable (lut ext : List DecEntry) (hpb : PrevBound lut)
    (c : Nat) (hc : c < lut.length) :
    decodeCode (lut ++ ext) c = decodeCode lut c := by
  unfold decodeCode
  rw [getD_append_lt lut ext c default hc, decodeStr_stable lut ext hpb _ c hc]

/-- `PrevBound` survives appending an entry whose parent is in range. -/
theorem prevBound_append (lut : List DecEntry) (a : DecEntry) (hpb : PrevBound lut)
    (ha : a.previous < lut.length + 1) : PrevBound (lut ++ [a]) := by
  intro i hi
  rw [List.length_append, List.length_singleton] at hi
  by_cases h : i < lut.length
  · rw [getD_append_lt lut [a] i default h, List.length_append, List.length_singleton]
    exact (hpb i h).trans (by omega)
  · have hil : i = lut.length := by omega
    rw [getD_append_ge lut [a] i default (by omega), hil, Nat.sub_self,
        List.length_append, List.length_singleton]
    exact ha

/-! ### The initial table -/

/-- Length of the initial table. -/
theorem initLut_length (isGif : Bool) (clear maxColor : Nat)
    (h : maxColor + 1 ≤ (if isGif then clear + 2 else clear + 1)) :
    (initLut isGif clear maxColor).length = if isGif then clear + 2 else clear + 1 := by
  unfold initLut
  rw [List.length_append, List.length_map, List.length_range, List.length_replicate]
  omega

/-- Literal slots of the initial table. -/
theorem initLut_getD_lit (isGif : Bool) (clear maxColor b : Nat) (hb : b ≤ maxColor) :
    (initLut isGif clear maxColor).getD b default = ⟨1, 0, b, 0⟩ := by
  unfold initLut
  rw [getD_append_lt _ _ b default (by rw [List.length_map, List.length_range]; omega)]
  rw [List.getD_eq_getElem?_getD, List.getElem?_map, List.getElem?_range (by omega)]
  rfl

/-- Control slots of the initial table are zero-initialised. -/
theorem initLut_getD_ctrl (isGif : Bool) (clear maxColor b : Nat) (hb : maxColor < b) :
    (initLut isGif clear maxColor).getD b default = default := by
  unfold initLut
  rw [getD_append_ge _ _ b default (by rw [List.length_map, List.length_range]; omega)]
  rw [List.getD_eq_getElem?_getD, List.getElem?_replicate]
  split <;> (try split) <;> rfl

/-! ### Width synchronisation arithmetic -/

theorem land_eq_and (a b : Nat) : Nat.land a b = a &&& b := rfl

/-- `threshold & (threshold-1) == 0` holds at powers of two. -/
theorem land_two_pow_pred (w : Nat) : Nat.land (2 ^ w) (2 ^ w - 1) = 0 := by
  apply Nat.eq_of_testBit_eq
  intro i
  rw [land_eq_and, Nat.testBit_land, Nat.zero_testBit]
  rcases Nat.lt_or_ge i w with h | h
  · rw [Nat.testBit_two_pow_of_ne (by omega)]
    rfl
  · have hb : (2 ^ w - 1).testBit i = false :=
      Nat.testBit_lt_two_pow
        (lt_of_lt_of_le (Nat.sub_lt (Nat.two_pow_pos w) (by omega))
          (Nat.pow_le_pow_right (by omega) h))
    rw [hb, Bool.and_false]

/-- `threshold & (threshold-1) == 0` fails strictly between powers of two:
both the number and its predecessor carry the top bit. -/
theorem land_pred_ne_zero (w lam : Nat) (hw : 1 ≤ w) (h1 : 2 ^ (w - 1) < lam)
    (h2 : lam < 2 ^ w) : Nat.land lam (lam - 1) ≠ 0 := by
  have hpow : 2 * 2 ^ (w - 1) = 2 ^ w := by
    rw [← pow_succ']
    congr 1
    omega
  have hd1 : lam / 2 ^ (w - 1) = 1 := Nat.div_eq_of_lt_le (by omega) (by omega)
  have hd2 : (lam - 1) / 2 ^ (w - 1) = 1 := Nat.div_eq_of_lt_le (by omega) (by omega)
  intro h0
  have hb : Nat.testBit (Nat.land lam (lam - 1)) (w - 1) = true := by
    rw [land_eq_and, Nat.testBit_land, Nat.testBit_to_div_mod, Nat.testBit_to_div_mod, hd1, hd2]
    rfl
  rw [h0, Nat.zero_testBit] at hb
  exact Bool.noConfusion hb

/-- The fuel argument of `getMinBitsGo` is irrelevant once it covers the
token. -/
theorem getMinBitsGo_fuel : ∀ t f f', t ≤ f → t ≤ f' →
    getMinBitsGo f t = getMinBitsGo f' t := by
  intro t
  induction t using Nat.strong_induction_on with
  | _ t ih =>
    intro f f' hf hf'
    match f, f' with
    | 0, 0 => rfl
    | 0, f' + 1 =>
      have ht : t = 0 := by omega
      subst ht
      rfl
    | f + 1, 0 =>
      have ht : t = 0 := by omega
      subst ht
      rfl
    | f + 1, f' + 1 =>
      by_cases ht : t ≤ 1
      · simp [getMinBitsGo, ht]
      · simp only [getMinBitsGo, if_neg ht]
        rw [ih (t / 2) (by omega) f f' (by omega) (by omega)]

/-- `LzwEncoder::getMinBits` returns the bit length: `w` for values in
`[2^(w-1), 2^w)`. -/
theorem getMinBits_spec : ∀ w, 1 ≤ w → ∀ v, 2 ^ (w - 1) ≤ v → v < 2 ^ w →
    getMinBits v = w := by
  intro w
  induction w with
  | zero => intro h; omega
  | succ w ih =>
    intro _ v hlo hhi
    by_cases hw : w = 0
    · subst hw
      have hv : v = 1 := by
        have h1 : (2:Nat) ^ (0 + 1 - 1) = 1 := by norm_num
        have h2 : (2:Nat) ^ (0 + 1) = 2 := by norm_num
        omega
      subst hv
      rfl
    · have hp1 : 2 * 2 ^ (w - 1) = 2 ^ w := by
        rw [← pow_succ']
        congr 1
        omega
      have hp2 : 2 * 2 ^ w = 2 ^ (w + 1) := by
        rw [← pow_succ']
      have hlo' : 2 ^ w ≤ v := by
        have : w + 1 - 1 = w := by omega
        rw [this] at hlo
        exact hlo
      have h2v : 2 ≤ v := by
        have : 1 ≤ 2 ^ (w - 1) := Nat.one_le_two_pow
        omega
      obtain ⟨f, hf⟩ : ∃ f, v = f + 1 := ⟨v - 1, by omega⟩
      unfold getMinBits
      rw [hf]
      show (if f + 1 ≤ 1 then 1 else getMinBitsGo f ((f + 1) / 2) + 1) = w + 1
      rw [if_neg (by omega)]
      have hfe : getMinBitsGo f ((f + 1) / 2) = getMinBits ((f + 1) / 2) := by
        unfold getMinBits
        exact getMinBitsGo_fuel ((f + 1) / 2) f ((f + 1) / 2) (by omega) (le_refl _)
      rw [hfe, ih (by omega) ((f + 1) / 2) (by omega) (by omega)]

/-- The encoder's width step before a data token (`bumpCodeSize` with the
lagging `m_dictSize = min(lut+1, maxDict)`) agrees with the decoder's
(`m_lut.size() == 1 << codeSize`). -/
theorem bump_sync (isGif : Bool) (L lam w : Nat) (hw1 : 1 ≤ w) (hwL : w ≤ L)
    (hL : 3 ≤ L) (hlo : 2 ^ (w - 1) < lam) (hhi : lam ≤ 2 ^ w)
    (hz : isGif = false → 9 ≤ w) :
    bumpCodeSize isGif L (2 ^ L - 1) (min (lam + 1) (2 ^ L - 1)) w =
      if lam = 2 ^ w ∧ w < L then w + 1 else w := by
  unfold bumpCodeSize
  by_cases hcap : lam + 1 < 2 ^ L - 1
  · rw [min_eq_left (by omega)]
    rw [if_pos (by omega)]
    have hth : lam + 1 - 1 = lam := by omega
    rw [hth]
    by_cases hpow : lam = 2 ^ w
    · subst hpow
      by_cases hwlt : w < L
      · rw [if_pos ⟨land_two_pow_pred w, hwlt⟩]
        have : ¬(¬isGif = true ∧ 2 ^ w = 256) := by
          rintro ⟨hg, h256⟩
          have hg' : isGif = false := by
            cases isGif
            · rfl
            · exact absurd rfl hg
          have h9 : 9 ≤ w := hz hg'
          have : (2:Nat) ^ 9 ≤ 2 ^ w := Nat.pow_le_pow_right (by omega) h9
          norm_num at this
          omega
        rw [if_neg this, if_pos ⟨rfl, hwlt⟩]
      · rw [if_neg (by rintro ⟨_, h⟩; omega), if_neg (by rintro ⟨_, h⟩; omega)]
    · have hne : Nat.land lam (lam - 1) ≠ 0 :=
        land_pred_ne_zero w lam hw1 hlo (by omega)
      rw [if_neg (by rintro ⟨h, _⟩; exact hne h),
          if_neg (by rintro ⟨h, _⟩; exact hpow h)]
  · rw [min_eq_right (by omega)]
    rw [if_neg (by omega)]
    have hnot : ¬(lam = 2 ^ w ∧ w < L) := by
      rintro ⟨hpow, hwlt⟩
      have h1 : 2 ^ w ≤ 2 ^ (L - 1) := Nat.pow_le_pow_right (by omega) (by omega)
      have h2 : 2 * 2 ^ (L - 1) = 2 ^ L := by
        rw [← pow_succ']
        congr 1
        omega
      have h3 : (8:Nat) ≤ 2 ^ L := by
        calc (8:Nat) = 2 ^ 3 := by norm_num
          _ ≤ 2 ^ L := Nat.pow_le_pow_right (by omega) hL
      omega
    rw [if_neg hnot]

/-- The width the encoder closes a non-final block at
(`getMinBits(m_dictSize - 1)` with the lagging dictionary size) agrees with
the width the decoder reads the clear code at. -/
theorem close_width_nonfinal (L lam w : Nat) (hw1 : 1 ≤ w) (hwL : w ≤ L)
    (hL : 3 ≤ L) (hlo : 2 ^ (w - 1) < lam) (hhi : lam ≤ 2 ^ w) :
    getMinBits (min (lam + 1) (2 ^ L - 1) - 1) =
      if lam = 2 ^ w ∧ w < L then w + 1 else w := by
  by_cases hcap : lam + 1 < 2 ^ L - 1
  · rw [min_eq_left (by omega)]
    have hth : lam + 1 - 1 = lam := by omega
    rw [hth]
    by_cases hpow : lam = 2 ^ w
    · subst hpow
      by_cases hwlt : w < L
      · rw [if_pos ⟨rfl, hwlt⟩]
        apply getMinBits_spec (w + 1) (by omega)
        · have : w + 1 - 1 = w := by omega
          rw [this]
        · have hps : 2 * 2 ^ w = 2 ^ (w + 1) := by rw [← pow_succ']
          have hpos := Nat.two_pow_pos w
          omega
      · exfalso
        have hwe : w = L := by omega
        subst hwe
        omega
    · rw [if_neg (by rintro ⟨h, _⟩; exact hpow h)]
      exact getMinBits_spec w hw1 lam (by omega) (by omega)
  · rw [min_eq_right (by omega)]
    have h2 : 2 * 2 ^ (L - 1) = 2 ^ L := by
      rw [← pow_succ']
      congr 1
      omega
    have h3 : (8:Nat) ≤ 2 ^ L := by
      calc (8:Nat) = 2 ^ 3 := by norm_num
        _ ≤ 2 ^ L := Nat.pow_le_pow_right (by omega) hL
    have hw' : w = L := by
      by_contra hne
      have hwlt : w < L := by omega
      have h1 : 2 ^ w ≤ 2 ^ (L - 1) := Nat.pow_le_pow_right (by omega) (by omega)
      omega
    subst hw'
    rw [if_neg (by rintro ⟨_, h⟩; omega)]
    have hpos := Nat.two_pow_pos w
    exact getMinBits_spec w (by omega) _ (by omega) (by omega)

/-- At a final close the encoder's `getMinBits(m_dictSize - 1)` (no lag: the
last token adds no dictionary entry) is exactly the current width. -/
theorem close_width_final (L lam w : Nat) (hw1 : 1 ≤ w) (hwL : w ≤ L)
    (hL : 3 ≤ L) (hlo : 2 ^ (w - 1) < lam) (hhi : lam ≤ 2 ^ w) :
    getMinBits (min lam (2 ^ L - 1) - 1) = w := by
  have h2 : 2 * 2 ^ (L - 1) = 2 ^ L := by
    rw [← pow_succ']
    congr 1
    omega
  have h3 : (8:Nat) ≤ 2 ^ L := by
    calc (8:Nat) = 2 ^ 3 := by norm_num
      _ ≤ 2 ^ L := Nat.pow_le_pow_right (by omega) hL
  by_cases hcap : lam ≤ 2 ^ L - 1
  · rw [min_eq_left hcap]
    have hpos := Nat.two_pow_pos (w - 1)
    exact getMinBits_spec w hw1 (lam - 1) (by omega) (by omega)
  · rw [min_eq_right (by omega)]
    have hw' : w = L := by
      by_contra hne
      have hwlt : w < L := by omega
      have h1 : 2 ^ w ≤ 2 ^ (L - 1) := Nat.pow_le_pow_right (by omega) (by omega)
      omega
    subst hw'
    have hpos := Nat.two_pow_pos w
    exact getMinBits_spec w (by omega) _ (by omega) (by omega)

/-! ### Round-trip: ambient constants

Shared abbreviations for the special codes and limits tied to a
`min_code_size` `m` and the container flavour. -/

/-- The clear code `1 << min_code_size`. -/
def clearC (m : Nat) : Nat := 2 ^ m

/-- The end-of-stream code: `clear + 1` for GIF; `.Z` has none (the C++ uses
`unsigned(-1)`, a value no 16-bit token can take). -/
def eosC (isGif : Bool) (m : Nat) : Nat := if isGif then 2 ^ m + 1 else 4294967295

/-- The largest literal. -/
def maxColorC (m : Nat) : Nat := 2 ^ m - 1

/-- `max_code_bits`: 12 for GIF, 16 for `.Z`. -/
def LC (isGif : Bool) : Nat := if isGif then 12 else 16

/-- The decoder's table bound `1 << maxCodeSize`. -/
def maxTokenC (isGif : Bool) : Nat := 2 ^ LC isGif

/-- The encoder's dictionary cap `(1 << maxCodeLength) - 1`. -/
def maxDictC (isGif : Bool) : Nat := 2 ^ LC isGif - 1

/-- The number of predefined codes: literals plus clear (plus end-of-stream
for GIF). -/
def baseC (isGif : Bool) (m : Nat) : Nat := if isGif then 2 ^ m + 2 else 2 ^ m + 1

/-- The freshly initialised decoder table. -/
def lut0C (isGif : Bool) (m : Nat) : List DecEntry :=
  initLut isGif (clearC m) (maxColorC m)

/-- `decStep` at the standard arguments. -/
def dstep (isGif : Bool) (m : Nat) (st : DecState) : DecResult :=
  decStep isGif m (LC isGif) (clearC m) (eosC isGif m) (maxColorC m) (maxTokenC isGif) st

/-- `decLoop` at the standard arguments. -/
def dloop (isGif : Bool) (m : Nat) : Nat → DecState → Option (List Nat) :=
  decLoop isGif m (LC isGif) (clearC m) (eosC isGif m) (maxColorC m) (maxTokenC isGif)

/-- The decoder state right after the first (literal) token of a block has
been consumed: fresh table, width `m+1`, one token counted. -/
def freshDec (isGif : Bool) (m : Nat) (D : List Nat) (q ob : Nat) (bits : List Bool) :
    DecState :=
  ⟨bits, lut0C isGif m, D.take (q + 1), m + 1, D.getD q 0, 1, ob⟩

theorem LC_ge3 (isGif : Bool) : 3 ≤ LC isGif := by
  unfold LC
  split <;> omega

theorem lut0C_length (isGif : Bool) (m : Nat) :
    (lut0C isGif m).length = baseC isGif m := by
  unfold lut0C baseC clearC maxColorC
  rw [initLut_length]
  have := Nat.two_pow_pos m
  split <;> omega

theorem lut0C_lit (isGif : Bool) (m b : Nat) (hb : b < 2 ^ m) :
    (lut0C isGif m).getD b default = ⟨1, 0, b, 0⟩ := by
  unfold lut0C
  apply initLut_getD_lit
  unfold maxColorC
  omega

theorem lut0C_ctrl (isGif : Bool) (m b : Nat) (hb : 2 ^ m ≤ b) :
    (lut0C isGif m).getD b default = default := by
  unfold lut0C
  apply initLut_getD_ctrl
  unfold maxColorC
  have := Nat.two_pow_pos m
  omega

/-- The inter-token simulation invariant: the encoder is about to emit the
token for the chunk starting at `p`; the decoder has consumed exactly the
tokens for `D.take p`.  (`dec.bits` is unconstrained: the step lemmas supply
the stream explicitly.) -/
structure Sync (isGif : Bool) (m : Nat) (D : List Nat) (p : Nat)
    (st : EncLoop) (dec : DecState) : Prop where
  hp1 : 1 ≤ p
  hpN : p ≤ D.length
  hbytes : dec.bytes = D.take p
  hlen0 : baseC isGif m ≤ dec.lut.length
  hlenM : dec.lut.length ≤ maxTokenC isGif
  hinit : dec.lut.take (baseC isGif m) = lut0C isGif m
  hsize : st.dictSize = if p < D.length
            then min (dec.lut.length + 1) (maxDictC isGif)
            else min dec.lut.length (maxDictC isGif)
  hw : st.codeSize = dec.codeSize
  hwlo : 2 ^ (dec.codeSize - 1) < dec.lut.length
  hwhi : dec.lut.length ≤ 2 ^ dec.codeSize
  hwm : m + 1 ≤ dec.codeSize
  hwL : dec.codeSize ≤ LC isGif
  htoklt : dec.token < dec.lut.length
  htokclear : dec.token ≠ clearC m
  htokeos : dec.token ≠ eosC isGif m
  hchain : ∀ i, baseC isGif m ≤ i → i < dec.lut.length →
             (dec.lut.getD i default).previous < i
  hedge : ∀ c b v, st.dict c b = some v →
    c < dec.lut.length ∧ baseC isGif m ≤ v ∧
    ((v < dec.lut.length ∧ c < v ∧ ∃ q, dec.lut.getD v default =
        ⟨(dec.lut.getD c default).length + 1, c, b, q⟩) ∨
     (v = dec.lut.length ∧ v < maxDictC isGif ∧ c = dec.token ∧ b = D.getD p 0))
  hml : st.matchLength = 0
  hnt : isGif = false → dec.numTokensBlock = st.numTokens
  hob : isGif = false → dec.origBits % 8 = st.numBits % 8
  hres : st.result.length = st.numBits

/-- Under `Sync`, literal slots of the decoder table are intact. -/
theorem sync_lit {isGif : Bool} {m : Nat} {D : List Nat} {p : Nat}
    {st : EncLoop} {dec : DecState} (S : Sync isGif m D p st dec)
    (b : Nat) (hb : b < 2 ^ m) : dec.lut.getD b default = ⟨1, 0, b, 0⟩ := by
  have hbase : b < baseC isGif m := by
    unfold baseC
    split <;> omega
  have h1 : (dec.lut.take (baseC isGif m)).getD b default = dec.lut.getD b default :=
    getD_take_lt _ _ _ _ hbase
  rw [← h1, S.hinit]
  exact lut0C_lit isGif m b hb

/-- Under `Sync`, control slots of the decoder table are zero entries. -/
theorem sync_ctrl {isGif : Bool} {m : Nat} {D : List Nat} {p : Nat}
    {st : EncLoop} {dec : DecState} (S : Sync isGif m D p st dec)
    (b : Nat) (hb1 : 2 ^ m ≤ b) (hb2 : b < baseC isGif m) :
    dec.lut.getD b default = default := by
  have h1 : (dec.lut.take (baseC isGif m)).getD b default = dec.lut.getD b default :=
    getD_take_lt _ _ _ _ hb2
  rw [← h1, S.hinit]
  exact lut0C_ctrl isGif m b hb1

/-- Under `Sync`, every `previous` link points into the table. -/
theorem sync_prevBound {isGif : Bool} {m : Nat} {D : List Nat} {p : Nat}
    {st : EncLoop} {dec : DecState} (S : Sync isGif m D p st dec) :
    PrevBound dec.lut := by
  intro i hi
  by_cases hb : i < baseC isGif m
  · have h1 : (dec.lut.take (baseC isGif m)).getD i default = dec.lut.getD i default :=
      getD_take_lt _ _ _ _ hb
    rw [← h1, S.hinit]
    have hlen0 := S.hlen0
    have hbp : 0 < baseC isGif m := by
      unfold baseC
      have := Nat.two_pow_pos m
      split <;> omega
    by_cases hlit : i < 2 ^ m
    · rw [lut0C_lit isGif m i hlit]
      show (0:Nat) < dec.lut.length
      omega
    · rw [lut0C_ctrl isGif m i (by omega)]
      show (0:Nat) < dec.lut.length
      omega
  · exact (S.hchain i (by omega) hi).trans hi

theorem codeOf_one (d : Dict) (D : List Nat) (p' : Nat) :
    codeOf d D p' 1 = some (D.getD p' 0) := rfl

theorem take_succ_getD (D : List Nat) (x : Nat) (hx : x < D.length) :
    D.take (x + 1) = D.take x ++ [D.getD x 0] := by
  rw [← take_append_sub D x (x + 1) (by omega), sub_one D x hx]

/-- Under `Sync`, a successful trie walk either lands on a realised code whose
decoder string is exactly the walked slice, or on the single pending code
(KwKwK): then the walk minus its last step lands on the previous token and the
last byte looked up equals the first byte of the current chunk. -/
theorem walk_decode {isGif : Bool} {m : Nat} {D : List Nat} {p : Nat}
    {st : EncLoop} {dec : DecState} (S : Sync isGif m D p st dec)
    (hD : ∀ b ∈ D, b < 2 ^ m) :
    ∀ n p' v, 1 ≤ n → p' + n ≤ D.length → codeOf st.dict D p' n = some v →
      (v < dec.lut.length ∧ (v < 2 ^ m ∨ baseC isGif m ≤ v) ∧
        decodeCode dec.lut v = sub D p' (p' + n)) ∨
      (v = dec.lut.length ∧ v < maxDictC isGif ∧ 2 ≤ n ∧
        codeOf st.dict D p' (n - 1) = some dec.token ∧
        D.getD (p' + n - 1) 0 = D.getD p 0) := by
  intro n
  induction n with
  | zero => intro p' v h; omega
  | succ n ih =>
    intro p' v _ hpn hcode
    by_cases hn : n = 0
    · subst hn
      rw [codeOf_one] at hcode
      have hv : D.getD p' 0 = v := Option.some.inj hcode
      have hp' : p' < D.length := by omega
      have hmem : D.getD p' 0 ∈ D := by
        rw [List.getD_eq_getElem?_getD, List.getElem?_eq_getElem hp', Option.getD_some]
        exact List.getElem_mem hp'
      have hvm : v < 2 ^ m := by
        rw [← hv]
        exact hD _ hmem
      left
      have hlen0 := S.hlen0
      have hvbase : v < baseC isGif m := by
        unfold baseC
        split <;> omega
      refine ⟨by omega, Or.inl hvm, ?_⟩
      rw [decodeCode_lit dec.lut v (sync_lit S v hvm), sub_one D p' hp', hv]
    · have h1n : 1 ≤ n := by omega
      rw [codeOf_snoc st.dict D p' n h1n] at hcode
      cases hpre : codeOf st.dict D p' n with
      | none =>
        rw [hpre] at hcode
        exact Option.noConfusion hcode
      | some c' =>
        rw [hpre] at hcode
        have hedge : st.dict c' (D.getD (p' + n) 0) = some v := hcode
        obtain ⟨hsrc, hvbase, hdisj⟩ := S.hedge c' _ v hedge
        have hihpre := ih p' c' h1n (by omega) hpre
        have hpreL : c' < dec.lut.length ∧ decodeCode dec.lut c' = sub D p' (p' + n) := by
          rcases hihpre with ⟨h1, _, h3⟩ | ⟨h1, _, _⟩
          · exact ⟨h1, h3⟩
          · omega
        rcases hdisj with ⟨hvlt, hcv, q, hq⟩ | ⟨hveq, hvmax, hctok, hbp⟩
        · left
          refine ⟨hvlt, Or.inr hvbase, ?_⟩
          rw [decodeCode_step dec.lut v c' _ q hq, hpreL.2]
          have hidx : p' + (n + 1) = (p' + n) + 1 := by omega
          rw [hidx]
          exact sub_snoc D p' (p' + n) (by omega) (by omega)
        · right
          refine ⟨hveq, hvmax, by omega, ?_, ?_⟩
          · have hid : n + 1 - 1 = n := by omega
            rw [hid, hpre, hctok]
          · have hid : p' + (n + 1) - 1 = p' + n := by omega
            rw [hid]
            exact hbp

/-! ### Encoder loop stepping -/

/-- One-step unfolding of `encodeLoop`. -/
theorem encodeLoop_succ (P : EncParams) (fuel i : Nat) (st : EncLoop) :
    encodeLoop P (fuel + 1) i st =
      (if st.matchLength = 0 then
        if 0 < P.o.maxDictionary ∧ P.o.maxDictionary ≤ st.dictSize then some st
        else if 0 < P.o.maxTokens ∧ P.o.maxTokens ≤ st.numTokens then some st
        else
          let remaining := P.len + P.from1 - i
          let choice := chooseMatchLength P st.dict i remaining
          let cs := bumpCodeSize P.isGif P.maxCodeLength P.maxDict st.dictSize st.codeSize
          match addCode P.data P.maxDict ⟨st.dict, st.dictSize⟩ i choice.1 with
          | none => none
          | some (code, ed) =>
            let st1 : EncLoop :=
              { dict := ed.dict
                dictSize := ed.size
                best := st.best
                numBits := st.numBits + cs
                numTokens := st.numTokens + 1
                numNonGreedyMatches := st.numNonGreedyMatches + (if choice.2 then 1 else 0)
                matchLength := choice.1 - 1
                codeSize := cs
                result := if P.emit then addToStream st.result code cs else st.result }
            encodeLoop P fuel (i + 1) (costEval P i st1)
      else
        encodeLoop P fuel (i + 1) (costEval P i { st with matchLength := st.matchLength - 1 })) :=
  rfl

/-- With `readOnlyBest` set (as `merge` always does), `costEval` is the
identity. -/
theorem costEval_id (P : EncParams) (i : Nat) (st : EncLoop)
    (h : P.o.readOnlyBest = true) : costEval P i st = st := by
  unfold costEval
  rw [if_pos h]

/-- The `matchLength > 0` iterations of the loop just decrement the counter
and advance the position. -/
theorem encodeLoop_skip (P : EncParams) (hro : P.o.readOnlyBest = true) :
    ∀ k f i st, st.matchLength = k →
      encodeLoop P (k + f) i st = encodeLoop P f (i + k) { st with matchLength := 0 } := by
  intro k
  induction k with
  | zero =>
    intro f i st hml
    rw [Nat.zero_add]
    cases st with
    | mk d ds best nb nt nng ml cs res =>
      have hml0 : ml = 0 := hml
      subst hml0
      rfl
  | succ k ih =>
    intro f i st hml
    have he : k + 1 + f = (k + f) + 1 := by omega
    rw [he, encodeLoop_succ, if_neg (by omega)]
    rw [costEval_id P i _ hro]
    have hm1 : st.matchLength - 1 = k := by omega
    rw [hm1]
    rw [ih f (i + 1) { st with matchLength := k } rfl]
    have he2 : i + 1 + k = i + (k + 1) := by omega
    rw [he2]

/-- `addCode` succeeds whenever the walk succeeds. -/
theorem addCode_exists (data : List Nat) (maxD : Nat) (st : EncDict) (p c code : Nat)
    (hcode : codeOf st.dict data p c = some code) :
    ∃ ed, addCode data maxD st p c = some (code, ed) := by
  unfold addCode
  rw [hcode]
  dsimp only
  split
  · split
    · exact ⟨_, rfl⟩
    · exact ⟨_, rfl⟩
  · exact ⟨_, rfl⟩

/-- The encoder loop at an emission point: one token step, macro-stepping over
the `matchLength` decrements.  The chosen length is abstracted as `c`. -/
theorem encoder_emit (P : EncParams) (hro : P.o.readOnlyBest = true)
    (hmt : P.o.maxTokens = 0) (hmd : P.o.maxDictionary = 0)
    (p : Nat) (st : EncLoop) (hml : st.matchLength = 0)
    (c : Nat) (ng : Bool)
    (hcc : (chooseMatchLength P st.dict p (P.len + P.from1 - p)).1 = c)
    (hng : (chooseMatchLength P st.dict p (P.len + P.from1 - p)).2 = ng)
    (hc1 : 1 ≤ c)
    (code : Nat) (ed : EncDict)
    (hadd : addCode P.data P.maxDict ⟨st.dict, st.dictSize⟩ p c = some (code, ed)) :
    ∀ f, encodeLoop P (c + f) p st =
      encodeLoop P f (p + c)
        ⟨ed.dict, ed.size, st.best,
         st.numBits + bumpCodeSize P.isGif P.maxCodeLength P.maxDict st.dictSize st.codeSize,
         st.numTokens + 1,
         st.numNonGreedyMatches + (if ng then 1 else 0),
         0,
         bumpCodeSize P.isGif P.maxCodeLength P.maxDict st.dictSize st.codeSize,
         if P.emit then
           addToStream st.result code
             (bumpCodeSize P.isGif P.maxCodeLength P.maxDict st.dictSize st.codeSize)
         else st.result⟩ := by
  intro f
  have he : c + f = ((c - 1) + f) + 1 := by omega
  rw [he, encodeLoop_succ, if_pos hml,
      if_neg (by rw [hmd]; rintro ⟨h, _⟩; exact absurd h (lt_irrefl 0)),
      if_neg (by rw [hmt]; rintro ⟨h, _⟩; exact absurd h (lt_irrefl 0))]
  dsimp only
  rw [hcc, hng, hadd]
  dsimp only
  rw [costEval_id P p _ hro]
  rw [encodeLoop_skip P hro (c - 1) f (p + 1) _ rfl]
  have he2 : p + 1 + (c - 1) = p + c := by omega
  rw [he2]

/-! ### Decoder token step -/

theorem maxDictC_lt_maxTokenC (isGif : Bool) : maxDictC isGif < maxTokenC isGif := by
  unfold maxDictC maxTokenC
  have := Nat.two_pow_pos (LC isGif)
  omega

/-- The table after a data token: the pending entry is appended (unless the
table is at the decoder's hard cap). -/
def nextLut (D : List Nat) (isGif : Bool) (p : Nat) (dec : DecState) : List DecEntry :=
  if dec.lut.length < maxTokenC isGif
  then dec.lut ++ [⟨(dec.lut.getD dec.token default).length + 1, dec.token, D.getD p 0, p⟩]
  else dec.lut

/-- The decoder state after consuming the data token `code` for the chunk
`D[p ... p+c)` at width `cs`. -/
def nextDec (D : List Nat) (isGif : Bool) (p c cs code : Nat) (dec : DecState)
    (rest : List Bool) : DecState :=
  ⟨rest, nextLut D isGif p dec, D.take (p + c), cs, code,
   dec.numTokensBlock + 1, dec.origBits + cs⟩

/-- One decoder pass over a realised (non-KwKwK) data token. -/
theorem dec_step_normal (isGif : Bool) (m : Nat) (D : List Nat) (p c cs code : Nat)
    (dec : DecState) (rest : List Bool)
    (hcs : stepWidth (LC isGif) dec = cs)
    (htokeos : dec.token ≠ eosC isGif m)
    (hcodecs : code < 2 ^ cs)
    (hcodelt : code < dec.lut.length)
    (hcodeclear : code ≠ clearC m)
    (hcodeeos : code ≠ eosC isGif m)
    (hbytes : dec.bytes = D.take p)
    (hpN : p ≤ D.length)
    (hpc : p + c ≤ D.length)
    (hc1 : 1 ≤ c)
    (hs : decodeCode dec.lut code = sub D p (p + c)) :
    dstep isGif m { dec with bits := tokenBits code cs ++ rest } =
      .cont (nextDec D isGif p c cs code dec rest) := by
  have hcs' : stepWidth (LC isGif) { dec with bits := tokenBits code cs ++ rest } = cs := hcs
  have e1 : (dec.token = eosC isGif m) = False := eq_false htokeos
  have e3 : (¬isGif = true ∧ (tokenBits code cs ++ rest).length < cs) = False :=
    eq_false (by
      rintro ⟨_, h⟩
      rw [List.length_append, tokenBits_length] at h
      omega)
  have e3b : ((tokenBits code cs ++ rest).length < cs) = False :=
    eq_false (by
      rw [List.length_append, tokenBits_length]
      omega)
  have e4 : takeBits (tokenBits code cs ++ rest) cs = (code, rest) :=
    takeBits_tokenBits cs code rest hcodecs
  have e5 : (dec.lut.length < code) = False := eq_false (by omega)
  have e7 : (code = clearC m) = False := eq_false hcodeclear
  have e8 : (code = eosC isGif m) = False := eq_false hcodeeos
  have e11 : (dec.lut.length ≤ code) = False := eq_false (by omega)
  have e9 : dec.bytes.length = p := by
    rw [hbytes, List.length_take]
    omega
  have e12 : dec.bytes ++ sub D p (p + c) = D.take (p + c) := by
    rw [hbytes]
    exact take_append_sub D p (p + c) (by omega)
  have e13 : (D.take (p + c)).getD p 0 = D.getD p 0 :=
    getD_take_lt _ _ _ _ (by omega)
  simp only [dstep, decStep, nextDec, nextLut, hcs', e1, e3, e3b, e4, e5, e7, e8, e11,
             if_false, e9, hs, e12, e13, Bool.false_eq_true, if_true, and_false]

/-- One decoder pass over the pending (KwKwK) token. -/
theorem dec_step_kwk (isGif : Bool) (m : Nat) (D : List Nat) (p c cs code : Nat)
    (dec : DecState) (rest : List Bool)
    (hcs : stepWidth (LC isGif) dec = cs)
    (htokeos : dec.token ≠ eosC isGif m)
    (hcodecs : code < 2 ^ cs)
    (hcodeeq : code = dec.lut.length)
    (hlmax : dec.lut.length < maxDictC isGif)
    (hcodeclear : code ≠ clearC m)
    (hcodeeos : code ≠ eosC isGif m)
    (hbytes : dec.bytes = D.take p)
    (hpN : p ≤ D.length)
    (hpc : p + c ≤ D.length)
    (hc2 : 2 ≤ c)
    (hs : decodeCode dec.lut dec.token = sub D p (p + c - 1))
    (hlast : D.getD (p + c - 1) 0 = D.getD p 0) :
    dstep isGif m { dec with bits := tokenBits code cs ++ rest } =
      .cont (nextDec D isGif p c cs code dec rest) := by
  have hmm' := maxDictC_lt_maxTokenC isGif
  have hcs' : stepWidth (LC isGif) { dec with bits := tokenBits code cs ++ rest } = cs := hcs
  have e1 : (dec.token = eosC isGif m) = False := eq_false htokeos
  have e3 : (¬isGif = true ∧ (tokenBits code cs ++ rest).length < cs) = False :=
    eq_false (by
      rintro ⟨_, h⟩
      rw [List.length_append, tokenBits_length] at h
      omega)
  have e3b : ((tokenBits code cs ++ rest).length < cs) = False :=
    eq_false (by
      rw [List.length_append, tokenBits_length]
      omega)
  have e4 : takeBits (tokenBits code cs ++ rest) cs = (code, rest) :=
    takeBits_tokenBits cs code rest hcodecs
  have e5 : (dec.lut.length < code) = False := eq_false (by omega)
  have e7 : (code = clearC m) = False := eq_false hcodeclear
  have e8 : (code = eosC isGif m) = False := eq_false hcodeeos
  have e11 : (dec.lut.length ≤ code) = True := eq_true (le_of_eq hcodeeq.symm)
  have e11b : (maxTokenC isGif ≤ dec.lut.length) = False := eq_false (by omega)
  have e11c : (dec.lut.length < maxTokenC isGif) = True := eq_true (by omega)
  have e9 : dec.bytes.length = p := by
    rw [hbytes, List.length_take]
    omega
  have e12 : dec.bytes ++ sub D p (p + c - 1) = D.take (p + c - 1) := by
    rw [hbytes]
    exact take_append_sub D p (p + c - 1) (by omega)
  have e13 : (D.take (p + c - 1)).getD p 0 = D.getD p 0 :=
    getD_take_lt _ _ _ _ (by omega)
  have e14 : D.take (p + c - 1) ++ [D.getD p 0] = D.take (p + c) := by
    rw [← hlast, ← take_succ_getD D (p + c - 1) (by omega)]
    congr 1
    omega
  simp only [dstep, decStep, nextDec, nextLut, hcs', e1, e3, e3b, e4, e5, e7, e8, e11,
             e11b, e11c, if_false, if_true, e9, hs, e12, e13, e14, Bool.false_eq_true,
             and_false]

theorem baseC_le_maxDictC (isGif : Bool) (m : Nat) (hm8 : m ≤ 8) :
    baseC isGif m + 1 ≤ maxDictC isGif := by
  have hpm : 2 ^ m ≤ 2 ^ 8 := Nat.pow_le_pow_right (by omega) hm8
  have h8 : (2:Nat) ^ 8 = 256 := by norm_num
  have h12 : (2:Nat) ^ 12 = 4096 := by norm_num
  have h16 : (2:Nat) ^ 16 = 65536 := by norm_num
  unfold baseC maxDictC LC
  cases isGif
  · rw [if_neg Bool.false_ne_true, if_neg Bool.false_ne_true]
    omega
  · rw [if_pos rfl, if_pos rfl]
    omega

/-- Under `Sync` mid-input, the encoder's next-token width agrees with the
decoder's. -/
theorem sync_stepWidth {isGif : Bool} {m : Nat} {D : List Nat} {p : Nat}
    {st : EncLoop} {dec : DecState} (S : Sync isGif m D p st dec)
    (hps : p < D.length) (hzm : isGif = false → m = 8) :
    bumpCodeSize isGif (LC isGif) (maxDictC isGif) st.dictSize st.codeSize =
      stepWidth (LC isGif) dec := by
  rw [S.hw, S.hsize, if_pos hps]
  unfold maxDictC
  rw [bump_sync isGif (LC isGif) dec.lut.length dec.codeSize
        (by have := S.hwm; omega) S.hwL (LC_ge3 isGif) S.hwlo S.hwhi
        (fun hg => by
          have h8 := hzm hg
          have := S.hwm
          omega)]
  rfl

/-- Re-establishing `Sync` after one data token: the encoder's `addCode`
effect in conditional form against the decoder's `nextDec`. -/
theorem sync_next {isGif : Bool} {m : Nat} {D : List Nat} {p : Nat}
    {st : EncLoop} {dec : DecState} (S : Sync isGif m D p st dec)
    (hD : ∀ b ∈ D, b < 2 ^ m) (hm2 : 2 ≤ m) (hm8 : m ≤ 8)
    (c code : Nat) (hc1 : 1 ≤ c) (hpc : p + c ≤ D.length)
    (hcode : codeOf st.dict D p c = some code)
    (nng : Nat) (res : List Bool)
    (hres : res.length = st.numBits + stepWidth (LC isGif) dec)
    (rest : List Bool) :
    Sync isGif m D (p + c)
      ⟨(if p + c < D.length ∧ st.dictSize < maxDictC isGif ∧
           st.dict code (D.getD (p + c) 0) = none
        then setChild st.dict code (D.getD (p + c) 0) st.dictSize else st.dict),
       (if p + c < D.length
        then (if st.dictSize < maxDictC isGif then st.dictSize + 1 else st.dictSize)
        else st.dictSize),
       st.best, st.numBits + stepWidth (LC isGif) dec, st.numTokens + 1, nng, 0,
       stepWidth (LC isGif) dec, res⟩
      (nextDec D isGif p c (stepWidth (LC isGif) dec) code dec rest) := by
  have hpN' : p < D.length := by omega
  have hwd := walk_decode S hD c p code hc1 hpc hcode
  have hmlt := maxDictC_lt_maxTokenC isGif
  have hbm := baseC_le_maxDictC isGif m hm8
  have hlen0 := S.hlen0
  have hlenM := S.hlenM
  have hwlo := S.hwlo
  have hwhi := S.hwhi
  have hwm := S.hwm
  have hwL := S.hwL
  have htoklt := S.htoklt
  have hp1 := S.hp1
  have hds : st.dictSize = min (dec.lut.length + 1) (maxDictC isGif) := by
    have h := S.hsize
    rw [if_pos hpN'] at h
    exact h
  have hpow1 : 2 * 2 ^ dec.codeSize = 2 ^ (dec.codeSize + 1) := by rw [← pow_succ']
  have hpow0 : 0 < 2 ^ dec.codeSize := Nat.two_pow_pos _
  have hpow0' : 0 < 2 ^ (dec.codeSize - 1) := Nat.two_pow_pos _
  have hmt : maxTokenC isGif = 2 ^ LC isGif := rfl
  have hcsEq : stepWidth (LC isGif) dec =
      (if dec.lut.length = 2 ^ dec.codeSize ∧ dec.codeSize < LC isGif
       then dec.codeSize + 1 else dec.codeSize) := rfl
  have hlamEq : (nextLut D isGif p dec).length =
      (if dec.lut.length < maxTokenC isGif
       then dec.lut.length + 1 else dec.lut.length) := by
    unfold nextLut
    split
    · rw [List.length_append, List.length_singleton]
    · rfl
  have hcr : code < dec.lut.length ∨
      (code = dec.lut.length ∧ code < maxDictC isGif) := by
    rcases hwd with ⟨h1, _, _⟩ | ⟨h1, h2, _⟩
    · exact Or.inl h1
    · exact Or.inr ⟨h1, h2⟩
  have hrange : code < 2 ^ m ∨ baseC isGif m ≤ code := by
    rcases hwd with ⟨_, hr, _⟩ | ⟨h1, _, _⟩
    · exact hr
    · right
      omega
  have hbgt : clearC m < baseC isGif m := by
    unfold clearC baseC
    split <;> omega
  have hold : ∀ c' b' v', st.dict c' b' = some v' →
      c' < (nextLut D isGif p dec).length ∧ baseC isGif m ≤ v' ∧
      ((v' < (nextLut D isGif p dec).length ∧ c' < v' ∧
        ∃ q, (nextLut D isGif p dec).getD v' default =
          ⟨((nextLut D isGif p dec).getD c' default).length + 1, c', b', q⟩) ∨
       (v' = (nextLut D isGif p dec).length ∧ v' < maxDictC isGif ∧
        c' = code ∧ b' = D.getD (p + c) 0)) := by
    intro c' b' v' hv'
    obtain ⟨hsrc, hvb, hdisj⟩ := S.hedge c' b' v' hv'
    have hc'lam : c' < (nextLut D isGif p dec).length := by
      rw [hlamEq]
      split_ifs <;> omega
    refine ⟨hc'lam, hvb, ?_⟩
    rcases hdisj with ⟨hvlt, hcv, q, hq⟩ | ⟨hveq, hvmax, hctok, hbp⟩
    · left
      have hgv : (nextLut D isGif p dec).getD v' default = dec.lut.getD v' default := by
        unfold nextLut
        split
        · exact getD_append_lt _ _ _ _ hvlt
        · rfl
      have hgc : (nextLut D isGif p dec).getD c' default = dec.lut.getD c' default := by
        unfold nextLut
        split
        · exact getD_append_lt _ _ _ _ hsrc
        · rfl
      refine ⟨by rw [hlamEq]; split_ifs <;> omega, hcv, q, ?_⟩
      rw [hgv, hgc]
      exact hq
    · left
      have happ : dec.lut.length < maxTokenC isGif := by omega
      have hgc : (nextLut D isGif p dec).getD c' default = dec.lut.getD c' default := by
        unfold nextLut
        rw [if_pos happ]
        exact getD_append_lt _ _ _ _ hsrc
      have hgv : (nextLut D isGif p dec).getD v' default =
          ⟨(dec.lut.getD dec.token default).length + 1, dec.token, D.getD p 0, p⟩ := by
        unfold nextLut
        rw [if_pos happ, hveq, getD_append_ge _ _ _ _ (le_refl _), Nat.sub_self]
        rfl
      refine ⟨by rw [hlamEq, if_pos happ]; omega, by omega, p, ?_⟩
      rw [hgv, hgc, hctok, hbp]
  unfold nextDec
  constructor
  · omega
  · exact hpc
  · rfl
  · show baseC isGif m ≤ (nextLut D isGif p dec).length
    rw [hlamEq]
    split_ifs <;> omega
  · show (nextLut D isGif p dec).length ≤ maxTokenC isGif
    rw [hlamEq]
    split_ifs <;> omega
  · show (nextLut D isGif p dec).take (baseC isGif m) = lut0C isGif m
    unfold nextLut
    split
    · rw [List.take_append_of_le_length (by omega)]
      exact S.hinit
    · exact S.hinit
  · show (if p + c < D.length
        then (if st.dictSize < maxDictC isGif then st.dictSize + 1 else st.dictSize)
        else st.dictSize) = if p + c < D.length
        then min ((nextLut D isGif p dec).length + 1) (maxDictC isGif)
        else min (nextLut D isGif p dec).length (maxDictC isGif)
    rw [hds, hlamEq]
    split_ifs <;> omega
  · rfl
  · show 2 ^ (stepWidth (LC isGif) dec - 1) < (nextLut D isGif p dec).length
    rw [hcsEq, hlamEq]
    by_cases h1 : dec.lut.length = 2 ^ dec.codeSize ∧ dec.codeSize < LC isGif
    · rw [if_pos h1]
      have hup : 2 ^ (dec.codeSize + 1) ≤ 2 ^ LC isGif :=
        Nat.pow_le_pow_right (by omega) (by omega)
      rw [Nat.add_sub_cancel, if_pos (by omega)]
      omega
    · rw [if_neg h1]
      split_ifs <;> omega
  · show (nextLut D isGif p dec).length ≤ 2 ^ stepWidth (LC isGif) dec
    rw [hcsEq, hlamEq]
    by_cases h1 : dec.lut.length = 2 ^ dec.codeSize ∧ dec.codeSize < LC isGif
    · rw [if_pos h1]
      have hup : 2 ^ (dec.codeSize + 1) ≤ 2 ^ LC isGif :=
        Nat.pow_le_pow_right (by omega) (by omega)
      rw [if_pos (by omega)]
      omega
    · rw [if_neg h1]
      split_ifs with h2
      · by_cases h3 : dec.lut.length = 2 ^ dec.codeSize
        · exfalso
          have hwe : dec.codeSize = LC isGif := by
            by_contra hne
            exact h1 ⟨h3, by omega⟩
          rw [hwe] at h3
          omega
        · omega
      · exact hwhi
  · show m + 1 ≤ stepWidth (LC isGif) dec
    rw [hcsEq]
    split_ifs <;> omega
  · show stepWidth (LC isGif) dec ≤ LC isGif
    rw [hcsEq]
    split_ifs with h1
    · omega
    · omega
  · show code < (nextLut D isGif p dec).length
    rw [hlamEq]
    rcases hcr with h | ⟨h1, h2⟩
    · split_ifs <;> omega
    · rw [if_pos (by omega)]
      omega
  · show code ≠ clearC m
    have hce : clearC m = 2 ^ m := rfl
    rcases hrange with h | h <;> omega
  · show code ≠ eosC isGif m
    cases isGif
    · have h16 : maxTokenC false = 65536 := by
        unfold maxTokenC LC
        norm_num
      have heb : eosC false m = 4294967295 := rfl
      have hcd : code ≤ dec.lut.length := by
        rcases hcr with h | ⟨h, _⟩ <;> omega
      omega
    · have heost : eosC true m = 2 ^ m + 1 := rfl
      have hbt : baseC true m = 2 ^ m + 2 := rfl
      rcases hrange with h | h <;> omega
  · show ∀ i, baseC isGif m ≤ i → i < (nextLut D isGif p dec).length →
        ((nextLut D isGif p dec).getD i default).previous < i
    intro i hbase hi
    unfold nextLut at hi ⊢
    by_cases hap : dec.lut.length < maxTokenC isGif
    · rw [if_pos hap] at hi ⊢
      rw [List.length_append, List.length_singleton] at hi
      by_cases hil : i < dec.lut.length
      · rw [getD_append_lt _ _ _ _ hil]
        exact S.hchain i hbase hil
      · have hieq : i = dec.lut.length := by omega
        rw [getD_append_ge _ _ _ _ (by omega), hieq, Nat.sub_self]
        show dec.token < dec.lut.length
        exact htoklt
    · rw [if_neg hap] at hi ⊢
      exact S.hchain i hbase hi
  · show ∀ c' b' v', _ → _
    intro c' b' v' hv'
    dsimp only at hv' ⊢
    by_cases hA : p + c < D.length ∧ st.dictSize < maxDictC isGif ∧
        st.dict code (D.getD (p + c) 0) = none
    · rw [if_pos hA] at hv'
      simp only [setChild] at hv'
      by_cases hnew : c' = code ∧ b' = D.getD (p + c) 0
      · rw [if_pos hnew] at hv'
        have hveq : st.dictSize = v' := Option.some.inj hv'
        have hds' : st.dictSize = dec.lut.length + 1 := by omega
        have happ : dec.lut.length < maxTokenC isGif := by omega
        refine ⟨?_, by omega, Or.inr ⟨?_, by omega, ?_, hnew.2⟩⟩
        · rw [hlamEq, if_pos happ]
          rcases hcr with h | ⟨h, _⟩ <;> omega
        · rw [hlamEq, if_pos happ]
          omega
        · show c' = code
          exact hnew.1
      · rw [if_neg hnew] at hv'
        exact hold c' b' v' hv'
    · rw [if_neg hA] at hv'
      exact hold c' b' v' hv'
  · rfl
  · intro hg
    show dec.numTokensBlock + 1 = st.numTokens + 1
    rw [S.hnt hg]
  · intro hg
    have h := S.hob hg
    show (dec.origBits + stepWidth (LC isGif) dec) % 8 =
      (st.numBits + stepWidth (LC isGif) dec) % 8
    omega
  · exact hres

/-- Characterisation of a successful `addCode` call. -/
theorem addCode_cases (data : List Nat) (maxD : Nat) (d : Dict) (ds : Nat)
    (p c code : Nat) (ed : EncDict)
    (hadd : addCode data maxD ⟨d, ds⟩ p c = some (code, ed)) :
    codeOf d data p c = some code ∧
    ed.size = (if p + c < data.length
               then (if ds < maxD then ds + 1 else ds) else ds) ∧
    ed.dict = (if p + c < data.length ∧ ds < maxD ∧ d code (data.getD (p + c) 0) = none
               then setChild d code (data.getD (p + c) 0) ds else d) := by
  unfold addCode at hadd
  cases hc : codeOf d data p c with
  | none =>
    rw [hc] at hadd
    exact Option.noConfusion hadd
  | some code' =>
    rw [hc] at hadd
    dsimp only at hadd
    by_cases h1 : p + c < data.length
    · rw [if_pos h1] at hadd
      by_cases h2 : ds < maxD
      · rw [if_pos h2] at hadd
        have h3 := Option.some.inj hadd
        have hcd : code' = code := congrArg Prod.fst h3
        have hed : (⟨if d code' (data.getD (p + c) 0) = none
                     then setChild d code' (data.getD (p + c) 0) ds else d,
                    ds + 1⟩ : EncDict) = ed := congrArg Prod.snd h3
        subst hcd
        refine ⟨rfl, ?_, ?_⟩
        · rw [← hed, if_pos h1, if_pos h2]
        · rw [← hed]
          by_cases h4 : d code' (data.getD (p + c) 0) = none
          · rw [if_pos h4, if_pos ⟨h1, h2, h4⟩]
          · rw [if_neg h4, if_neg (by rintro ⟨_, _, hh⟩; exact h4 hh)]
      · rw [if_neg h2] at hadd
        have h3 := Option.some.inj hadd
        have hcd : code' = code := congrArg Prod.fst h3
        have hed : (⟨d, ds⟩ : EncDict) = ed := congrArg Prod.snd h3
        subst hcd
        refine ⟨rfl, ?_, ?_⟩
        · rw [← hed, if_pos h1, if_neg h2]
        · rw [← hed, if_neg (by rintro ⟨_, hh, _⟩; exact h2 hh)]
    · rw [if_neg h1] at hadd
      have h3 := Option.some.inj hadd
      have hcd : code' = code := congrArg Prod.fst h3
      have hed : (⟨d, ds⟩ : EncDict) = ed := congrArg Prod.snd h3
      subst hcd
      refine ⟨rfl, ?_, ?_⟩
      · rw [← hed, if_neg h1]
      · rw [← hed, if_neg (by rintro ⟨hh, _, _⟩; exact h1 hh)]

/-- The parameter block every `optimizePartial` call made from `merge` (with
caps zeroed) satisfies. -/
def WFP (P : EncParams) (isGif : Bool) (D : List Nat) : Prop :=
  P.data = D ∧ P.isGif = isGif ∧ P.maxCodeLength = LC isGif ∧
  P.maxDict = maxDictC isGif ∧ P.emit = true ∧ P.o.readOnlyBest = true ∧
  P.o.maxTokens = 0 ∧ P.o.maxDictionary = 0

/-- One full token of the simulation: the encoder emits the chunk starting at
`p`; the decoder consumes its bits and the two states stay in `Sync`. -/
theorem emit_step (isGif : Bool) (m : Nat) (D : List Nat) (P : EncParams)
    (hP : WFP P isGif D) (hD : ∀ b ∈ D, b < 2 ^ m)
    (hm2 : 2 ≤ m) (hm8 : m ≤ 8) (hzm : isGif = false → m = 8)
    (p : Nat) (st : EncLoop) (dec : DecState)
    (S : Sync isGif m D p st dec)
    (hseg : p < P.from1 + P.len) (hsegN : P.from1 + P.len ≤ D.length) :
    ∃ c code st',
      1 ≤ c ∧ p + c ≤ P.from1 + P.len ∧
      (∀ f, encodeLoop P (c + f) p st = encodeLoop P f (p + c) st') ∧
      st'.result = st.result ++ tokenBits code (stepWidth (LC isGif) dec) ∧
      (∃ dec', (∀ rest, dstep isGif m { dec with bits := tokenBits code (stepWidth (LC isGif) dec) ++ rest } = .cont { dec' with bits := rest }) ∧
        Sync isGif m D (p + c) st' dec') := by
  obtain ⟨hPd, hPg, hPL, hPD, hPe, hro, hmt0, hmd0⟩ := hP
  have hpN' : p < D.length := by omega
  have hrem1 : 1 ≤ P.len + P.from1 - p := by omega
  have hpdata : p < P.data.length := by
    rw [hPd]
    exact hpN'
  obtain ⟨hc1, hcrem, hwalk⟩ :=
    chooseMatchLength_bounds P st.dict p (P.len + P.from1 - p) hrem1 hpdata
  obtain ⟨c, hc⟩ : ∃ c, (chooseMatchLength P st.dict p (P.len + P.from1 - p)).1 = c :=
    ⟨_, rfl⟩
  obtain ⟨ng, hng⟩ : ∃ ng, (chooseMatchLength P st.dict p (P.len + P.from1 - p)).2 = ng :=
    ⟨_, rfl⟩
  rw [hc] at hc1 hcrem hwalk
  obtain ⟨code, hcode⟩ := Option.ne_none_iff_exists'.mp hwalk
  have hcodeD : codeOf st.dict D p c = some code := by
    rw [← hPd]
    exact hcode
  have hpc : p + c ≤ P.from1 + P.len := by omega
  have hpcN : p + c ≤ D.length := by omega
  obtain ⟨ed, hadd⟩ := addCode_exists P.data P.maxDict ⟨st.dict, st.dictSize⟩ p c code hcode
  have henc := encoder_emit P hro hmt0 hmd0 p st S.hml c ng hc hng hc1 code ed hadd
  obtain ⟨_, hedsize, heddict⟩ :=
    addCode_cases P.data P.maxDict st.dict st.dictSize p c code ed hadd
  rw [hPd] at hedsize heddict
  rw [hPD] at hedsize heddict
  have hsw : bumpCodeSize P.isGif P.maxCodeLength P.maxDict st.dictSize st.codeSize =
      stepWidth (LC isGif) dec := by
    rw [hPg, hPL, hPD]
    exact sync_stepWidth S hpN' hzm
  -- shared range facts for the emitted code
  have hwd := walk_decode S hD c p code hc1 hpcN hcodeD
  have hmlt := maxDictC_lt_maxTokenC isGif
  have hmt : maxTokenC isGif = 2 ^ LC isGif := rfl
  have hwhi := S.hwhi
  have hwlo := S.hwlo
  have hwm := S.hwm
  have hwL := S.hwL
  have hlen0 := S.hlen0
  have htoklt := S.htoklt
  have hpow1 : 2 * 2 ^ dec.codeSize = 2 ^ (dec.codeSize + 1) := by rw [← pow_succ']
  have hpow0 : 0 < 2 ^ dec.codeSize := Nat.two_pow_pos _
  have hcsEq : stepWidth (LC isGif) dec =
      (if dec.lut.length = 2 ^ dec.codeSize ∧ dec.codeSize < LC isGif
       then dec.codeSize + 1 else dec.codeSize) := rfl
  have hcr : code < dec.lut.length ∨
      (code = dec.lut.length ∧ code < maxDictC isGif) := by
    rcases hwd with ⟨h1, _, _⟩ | ⟨h1, h2, _⟩
    · exact Or.inl h1
    · exact Or.inr ⟨h1, h2⟩
  have hrange : code < 2 ^ m ∨ baseC isGif m ≤ code := by
    rcases hwd with ⟨_, hr, _⟩ | ⟨h1, _, _⟩
    · exact hr
    · right
      omega
  have hbgt : clearC m < baseC isGif m := by
    unfold clearC baseC
    split <;> omega
  have hcodecs : code < 2 ^ stepWidth (LC isGif) dec := by
    rw [hcsEq]
    rcases hcr with h | ⟨h1, h2⟩
    · split_ifs <;> omega
    · by_cases h3 : dec.lut.length = 2 ^ dec.codeSize
      · have hwlt : dec.codeSize < LC isGif := by
          by_contra hge
          have : 2 ^ LC isGif ≤ 2 ^ dec.codeSize :=
            Nat.pow_le_pow_right (by omega) (by omega)
          omega
        rw [if_pos ⟨h3, hwlt⟩]
        omega
      · rw [if_neg (by rintro ⟨hh, _⟩; exact h3 hh)]
        omega
  have hcclear : code ≠ clearC m := by
    have hce : clearC m = 2 ^ m := rfl
    rcases hrange with h | h <;> omega
  have hceos : code ≠ eosC isGif m := by
    cases isGif
    · have h16 : maxTokenC false = 65536 := by
        unfold maxTokenC LC
        norm_num
      have heb : eosC false m = 4294967295 := rfl
      have hlenM := S.hlenM
      have hcd : code ≤ dec.lut.length := by
        rcases hcr with h | ⟨h, _⟩ <;> omega
      omega
    · have heost : eosC true m = 2 ^ m + 1 := rfl
      have hbt : baseC true m = 2 ^ m + 2 := rfl
      rcases hrange with h | h <;> omega
  -- the target encoder state
  have hresL : (st.result ++ tokenBits code (stepWidth (LC isGif) dec)).length =
      st.numBits + stepWidth (LC isGif) dec := by
    rw [List.length_append, tokenBits_length, S.hres]
  have hsync := sync_next S hD hm2 hm8 c code hc1 hpcN hcodeD
    (st.numNonGreedyMatches + (if ng then 1 else 0))
    (st.result ++ tokenBits code (stepWidth (LC isGif) dec)) hresL
  refine ⟨c, code,
    ⟨(if p + c < D.length ∧ st.dictSize < maxDictC isGif ∧
         st.dict code (D.getD (p + c) 0) = none
      then setChild st.dict code (D.getD (p + c) 0) st.dictSize else st.dict),
     (if p + c < D.length
      then (if st.dictSize < maxDictC isGif then st.dictSize + 1 else st.dictSize)
      else st.dictSize),
     st.best, st.numBits + stepWidth (LC isGif) dec, st.numTokens + 1,
     st.numNonGreedyMatches + (if ng then 1 else 0), 0,
     stepWidth (LC isGif) dec,
     st.result ++ tokenBits code (stepWidth (LC isGif) dec)⟩,
    hc1, hpc, ?_, rfl, ?_⟩
  · intro f
    rw [henc f, hsw]
    congr 1
    rw [heddict, hedsize, hPe]
    rw [if_pos rfl]
    rfl
  · refine ⟨nextDec D isGif p c (stepWidth (LC isGif) dec) code dec [], ?_, hsync []⟩
    intro rest
    show dstep isGif m { dec with bits := tokenBits code (stepWidth (LC isGif) dec) ++ rest } =
      .cont (nextDec D isGif p c (stepWidth (LC isGif) dec) code dec rest)
    rcases hwd with ⟨hlt, _, hdec⟩ | ⟨heq, hmax, h2c, hpre, hlastB⟩
    · exact dec_step_normal isGif m D p c (stepWidth (LC isGif) dec) code dec rest
        rfl S.htokeos hcodecs hlt hcclear hceos S.hbytes S.hpN hpcN hc1 hdec
    · have hpreWD := walk_decode S hD (c - 1) p dec.token (by omega) (by omega) hpre
      have hskwk : decodeCode dec.lut dec.token = sub D p (p + c - 1) := by
        rcases hpreWD with ⟨_, _, h3⟩ | ⟨h1, _, _⟩
        · have hidx : p + (c - 1) = p + c - 1 := by omega
          rw [← hidx]
          exact h3
        · omega
      exact dec_step_kwk isGif m D p c (stepWidth (LC isGif) dec) code dec rest
        rfl S.htokeos hcodecs heq (heq ▸ hmax) hcclear hceos S.hbytes S.hpN hpcN h2c
        hskwk hlastB

/-! ### Multi-step decoder runs -/

/-- The invariant ignores the input bits. -/
theorem sync_bits {isGif : Bool} {m : Nat} {D : List Nat} {p : Nat}
    {st : EncLoop} {dec : DecState} (S : Sync isGif m D p st dec) (b : List Bool) :
    Sync isGif m D p st { dec with bits := b } :=
  ⟨S.hp1, S.hpN, S.hbytes, S.hlen0, S.hlenM, S.hinit, S.hsize, S.hw, S.hwlo, S.hwhi,
   S.hwm, S.hwL, S.htoklt, S.htokclear, S.htokeos, S.hchain, S.hedge, S.hml, S.hnt,
   S.hob, S.hres⟩

/-- Reflexive-transitive closure of `.cont` passes of the decoder loop. -/
inductive Steps (isGif : Bool) (m : Nat) : DecState → DecState → Prop
  | refl (s : DecState) : Steps isGif m s s
  | tail {s s' s'' : DecState} : dstep isGif m s = .cont s' → Steps isGif m s' s'' →
      Steps isGif m s s''

theorem steps_trans {isGif : Bool} {m : Nat} {s s' s'' : DecState}
    (h1 : Steps isGif m s s') (h2 : Steps isGif m s' s'') : Steps isGif m s s'' := by
  induction h1 with
  | refl => exact h2
  | tail hstep _ ih => exact Steps.tail hstep (ih h2)

theorem dloop_cont (isGif : Bool) (m : Nat) (f : Nat) (s s' : DecState)
    (h : dstep isGif m s = .cont s') :
    dloop isGif m (f + 1) s = dloop isGif m f s' := by
  have heq : dloop isGif m (f + 1) s =
      match dstep isGif m s with
      | .done bs => some bs
      | .fail => none
      | .cont st1 => dloop isGif m f st1 := rfl
  rw [heq, h]

theorem dloop_done (isGif : Bool) (m : Nat) (f : Nat) (s : DecState) (out : List Nat)
    (h : dstep isGif m s = .done out) :
    dloop isGif m (f + 1) s = some out := by
  unfold dloop decLoop
  rw [show decStep isGif m (LC isGif) (clearC m) (eosC isGif m) (maxColorC m)
        (maxTokenC isGif) s = .done out from h]

theorem dloop_fail (isGif : Bool) (m : Nat) (f : Nat) (s : DecState)
    (h : dstep isGif m s = .fail) :
    dloop isGif m (f + 1) s = none := by
  unfold dloop decLoop
  rw [show decStep isGif m (LC isGif) (clearC m) (eosC isGif m) (maxColorC m)
        (maxTokenC isGif) s = .fail from h]

theorem steps_dloop (isGif : Bool) (m : Nat) {s s' : DecState}
    (h : Steps isGif m s s') (out : List Nat)
    (hex : ∃ f, dloop isGif m f s' = some out) :
    ∃ f, dloop isGif m f s = some out := by
  induction h with
  | refl => exact hex
  | tail hstep _ ih =>
    obtain ⟨f, hf⟩ := ih hex
    exact ⟨f + 1, by rw [dloop_cont isGif m f _ _ hstep]; exact hf⟩

theorem dloop_mono (isGif : Bool) (m : Nat) :
    ∀ f f' s out, f ≤ f' → dloop isGif m f s = some out →
      dloop isGif m f' s = some out := by
  intro f
  induction f with
  | zero =>
    intro f' s out _ h
    exact absurd h (by unfold dloop decLoop; exact Option.noConfusion)
  | succ f ih =>
    intro f' s out hle h
    obtain ⟨f'', hf''⟩ : ∃ f'', f' = f'' + 1 := ⟨f' - 1, by omega⟩
    subst hf''
    cases hd : dstep isGif m s with
    | done bs =>
      rw [dloop_done isGif m f s bs hd] at h
      rw [dloop_done isGif m f'' s bs hd]
      exact h
    | fail =>
      rw [dloop_fail isGif m f s hd] at h
      exact Option.noConfusion h
    | cont s1 =>
      rw [dloop_cont isGif m f s s1 hd] at h
      rw [dloop_cont isGif m f'' s s1 hd]
      exact ih f'' s1 out (by omega) h

/-- The interior of one segment: from any `Sync` point to the segment end,
the encoder loop completes and the decoder consumes exactly the emitted
bits. -/
theorem seg_sim (isGif : Bool) (m : Nat) (D : List Nat) (P : EncParams)
    (hP : WFP P isGif D) (hD : ∀ b ∈ D, b < 2 ^ m)
    (hm2 : 2 ≤ m) (hm8 : m ≤ 8) (hzm : isGif = false → m = 8)
    (hsegN : P.from1 + P.len ≤ D.length) :
    ∀ n p st dec, n = P.from1 + P.len - p → p ≤ P.from1 + P.len →
      Sync isGif m D p st dec →
      ∃ stF Δ decF, encodeLoop P n p st = some stF ∧
        stF.result = st.result ++ Δ ∧
        Sync isGif m D (P.from1 + P.len) stF decF ∧
        ∀ rest, Steps isGif m { dec with bits := Δ ++ rest }
          { decF with bits := rest } := by
  intro n
  induction n using Nat.strong_induction_on with
  | _ n ih =>
    intro p st dec hn hpe S
    by_cases hpe' : p = P.from1 + P.len
    · subst hpe'
      have hn0 : n = 0 := by omega
      subst hn0
      refine ⟨st, [], dec, rfl, by rw [List.append_nil], S, ?_⟩
      intro rest
      exact Steps.refl _
    · have hseg : p < P.from1 + P.len := by omega
      obtain ⟨c, code, st', hc1, hpc, henc, hres', dec', hdstep, S'⟩ :=
        emit_step isGif m D P ⟨hP.1, hP.2.1, hP.2.2.1, hP.2.2.2.1, hP.2.2.2.2.1,
          hP.2.2.2.2.2.1, hP.2.2.2.2.2.2.1, hP.2.2.2.2.2.2.2⟩ hD hm2 hm8 hzm p st dec S
          hseg hsegN
      obtain ⟨stF, Δ2, decF, hencF, hresF, SF, hsteps⟩ :=
        ih (n - c) (by omega) (p + c) st' dec' (by omega) (by omega) S'
      refine ⟨stF, tokenBits code (stepWidth (LC isGif) dec) ++ Δ2, decF, ?_, ?_, SF, ?_⟩
      · have hnc : n = c + (n - c) := by omega
        rw [hnc, henc (n - c)]
        exact hencF
      · rw [hresF, hres', List.append_assoc]
      · intro rest
        have hassoc : (tokenBits code (stepWidth (LC isGif) dec) ++ Δ2) ++ rest =
            tokenBits code (stepWidth (LC isGif) dec) ++ (Δ2 ++ rest) :=
          List.append_assoc _ _ _
        rw [hassoc]
        exact Steps.tail (hdstep (Δ2 ++ rest)) (hsteps rest)

/-! ### Fresh segment: the first token -/

theorem getD_lt (D : List Nat) (m i : Nat) (hD : ∀ b ∈ D, b < 2 ^ m)
    (hi : i < D.length) : D.getD i 0 < 2 ^ m := by
  have hmem : D.getD i 0 ∈ D := by
    rw [List.getD_eq_getElem?_getD, List.getElem?_eq_getElem hi, Option.getD_some]
    exact List.getElem_mem hi
  exact hD _ hmem

/-- On the empty dictionary every match has length 1. -/
theorem findMatch_empty (data : List Nat) (from1 maxLength : Nat) (h : 1 ≤ maxLength) :
    findMatch emptyDict data from1 maxLength = 1 := by
  unfold findMatch
  rw [if_neg (by omega)]
  obtain ⟨r, hr⟩ : ∃ r, maxLength - 1 = r := ⟨_, rfl⟩
  rw [hr]
  cases r <;> rfl

/-- On the empty dictionary the chosen match is the greedy length-1 match. -/
theorem chooseMatchLength_empty (P : EncParams) (i remaining : Nat) (h : 1 ≤ remaining) :
    chooseMatchLength P emptyDict i remaining = (1, false) := by
  unfold chooseMatchLength
  rw [findMatch_empty P.data i remaining h]
  dsimp only
  rw [if_pos (Or.inl rfl)]
  have h2 : (if P.data.length ≤ i + 1 + 4 then false else false) = false := by
    split <;> rfl
  rw [h2]
  rfl

/-- The initial code width is `min_code_size + 1`. -/
theorem getMinBits_base (isGif : Bool) (m : Nat) (hm2 : 2 ≤ m) :
    getMinBits (baseC isGif m) = m + 1 := by
  have hpm1 : 2 * 2 ^ m = 2 ^ (m + 1) := by rw [← pow_succ']
  have hp4 : 4 ≤ 2 ^ m := by
    calc (4:Nat) = 2 ^ 2 := by norm_num
      _ ≤ 2 ^ m := Nat.pow_le_pow_right (by omega) hm2
  apply getMinBits_spec (m + 1) (by omega)
  · rw [Nat.add_sub_cancel]
    unfold baseC
    split <;> omega
  · unfold baseC
    split <;> omega

/-- The width step before the first token of a fresh dictionary is a no-op:
for GIF the threshold `2^m + 1` is not a power of two; for `.Z` the increase
at threshold 256 is undone. -/
theorem bump_fresh (isGif : Bool) (m : Nat) (hm2 : 2 ≤ m) (hm8 : m ≤ 8)
    (hzm : isGif = false → m = 8) :
    bumpCodeSize isGif (LC isGif) (maxDictC isGif) (baseC isGif m) (m + 1) = m + 1 := by
  have hble := baseC_le_maxDictC isGif m hm8
  unfold bumpCodeSize
  rw [if_pos (by omega)]
  cases isGif
  · have h8 := hzm rfl
    subst h8
    have hth : baseC false 8 - 1 = 256 := by
      unfold baseC
      norm_num
    rw [hth]
    have hl : Nat.land 256 (256 - 1) = 0 := by
      have h := land_two_pow_pred 8
      norm_num at h ⊢
      exact h
    rw [if_pos ⟨hl, by unfold LC; norm_num⟩]
    rw [if_pos ⟨Bool.false_ne_true, rfl⟩]
  · have hth : baseC true m - 1 = 2 ^ m + 1 := by
      have := Nat.two_pow_pos m
      unfold baseC
      rw [if_pos rfl]
      omega
    rw [hth]
    have hpm1 : 2 * 2 ^ m = 2 ^ (m + 1) := by rw [← pow_succ']
    have hp1 : 1 < 2 ^ m := by
      calc (1:Nat) < 2 ^ 2 := by norm_num
        _ ≤ 2 ^ m := Nat.pow_le_pow_right (by omega) hm2
    have hne : Nat.land (2 ^ m + 1) (2 ^ m + 1 - 1) ≠ 0 := by
      apply land_pred_ne_zero (m + 1) (2 ^ m + 1) (by omega)
      · rw [Nat.add_sub_cancel]
        omega
      · omega
    rw [if_neg (by rintro ⟨hl, _⟩; exact hne hl)]

/-- The encoder state at the top of `optimizePartial`'s loop. -/
def encInit (isGif : Bool) (m : Nat) (best0 : Nat → BestBlock) : EncLoop :=
  ⟨emptyDict, baseC isGif m, best0, 0, 0, 0, 0, getMinBits (baseC isGif m), []⟩

/-- The first token of a fresh segment: the encoder emits the literal
`D[from1]` at width `m+1` and the resulting state `Sync`s with the fresh
decoder state. -/
theorem first_token (isGif : Bool) (m : Nat) (D : List Nat) (P : EncParams)
    (hP : WFP P isGif D) (hD : ∀ b ∈ D, b < 2 ^ m)
    (hm2 : 2 ≤ m) (hm8 : m ≤ 8) (hzm : isGif = false → m = 8)
    (best0 : Nat → BestBlock)
    (hq1 : P.from1 + 1 ≤ P.from1 + P.len) (hsegN : P.from1 + P.len ≤ D.length) :
    ∃ st1, (∀ f, encodeLoop P (1 + f) P.from1 (encInit isGif m best0) =
        encodeLoop P f (P.from1 + 1) st1) ∧
      st1.result = tokenBits (D.getD P.from1 0) (m + 1) ∧
      ∀ ob, (isGif = false → ob % 8 = (m + 1) % 8) →
        Sync isGif m D (P.from1 + 1) st1 (freshDec isGif m D P.from1 ob []) := by
  obtain ⟨hPd, hPg, hPL, hPD, hPe, hro, hmt0, hmd0⟩ := hP
  have hrem : 1 ≤ P.len + P.from1 - P.from1 := by omega
  have hch : chooseMatchLength P emptyDict P.from1 (P.len + P.from1 - P.from1) = (1, false) :=
    chooseMatchLength_empty P P.from1 _ (by omega)
  have hcode : codeOf emptyDict P.data P.from1 1 = some (P.data.getD P.from1 0) :=
    codeOf_one emptyDict P.data P.from1
  have hgd : P.data.getD P.from1 0 = D.getD P.from1 0 := by rw [hPd]
  obtain ⟨ed, hadd⟩ := addCode_exists P.data P.maxDict ⟨emptyDict, baseC isGif m⟩
    P.from1 1 _ hcode
  have henc := encoder_emit P hro hmt0 hmd0 P.from1 (encInit isGif m best0) rfl 1 false
    (by show (chooseMatchLength P emptyDict P.from1 (P.len + P.from1 - P.from1)).1 = 1
        rw [hch])
    (by show (chooseMatchLength P emptyDict P.from1 (P.len + P.from1 - P.from1)).2 = false
        rw [hch])
    (le_refl 1) (P.data.getD P.from1 0) ed hadd
  obtain ⟨_, hedsize, heddict⟩ := addCode_cases P.data P.maxDict emptyDict
    (baseC isGif m) P.from1 1 _ ed hadd
  rw [hPd] at hedsize heddict
  rw [hPD] at hedsize heddict
  have hgm := getMinBits_base isGif m hm2
  have hbf : bumpCodeSize P.isGif P.maxCodeLength P.maxDict (baseC isGif m)
      (getMinBits (baseC isGif m)) = m + 1 := by
    rw [hPg, hPL, hPD, hgm]
    exact bump_fresh isGif m hm2 hm8 hzm
  have hq1N : P.from1 + 1 ≤ D.length := by omega
  have hqN : P.from1 < D.length := by omega
  have hble := baseC_le_maxDictC isGif m hm8
  have hmlt := maxDictC_lt_maxTokenC isGif
  have hbase0 : 0 < baseC isGif m := by
    unfold baseC
    have := Nat.two_pow_pos m
    split <;> omega
  have hpm1 : 2 * 2 ^ m = 2 ^ (m + 1) := by rw [← pow_succ']
  have hpm0 : 0 < 2 ^ m := Nat.two_pow_pos m
  have hpm4 : 4 ≤ 2 ^ m := by
    calc (4:Nat) = 2 ^ 2 := by norm_num
      _ ≤ 2 ^ m := Nat.pow_le_pow_right (by omega) hm2
  have hbyte : D.getD P.from1 0 < 2 ^ m := getD_lt D m P.from1 hD hqN
  have hclb : 2 ^ m < baseC isGif m := by
    unfold baseC
    split <;> omega
  have hl0 := lut0C_length isGif m
  refine ⟨⟨(if P.from1 + 1 < D.length ∧ baseC isGif m < maxDictC isGif ∧
              emptyDict (D.getD P.from1 0) (D.getD (P.from1 + 1) 0) = none
           then setChild emptyDict (D.getD P.from1 0) (D.getD (P.from1 + 1) 0)
                  (baseC isGif m)
           else emptyDict),
          (if P.from1 + 1 < D.length
           then (if baseC isGif m < maxDictC isGif then baseC isGif m + 1
                 else baseC isGif m)
           else baseC isGif m),
          best0, m + 1, 1, 0, 0, m + 1, tokenBits (D.getD P.from1 0) (m + 1)⟩,
    ?_, rfl, ?_⟩
  · intro f
    rw [henc f]
    congr 1
    rw [heddict, hedsize]
    simp only [encInit, hbf, hPe, hgd, Nat.zero_add, Nat.add_zero, eq_self_iff_true,
               if_true, Bool.false_eq_true, if_false, addToStream, List.nil_append]
  · intro ob hob
    constructor
    · omega
    · exact hq1N
    · rfl
    · show baseC isGif m ≤ (lut0C isGif m).length
      omega
    · show (lut0C isGif m).length ≤ maxTokenC isGif
      omega
    · show (lut0C isGif m).take (baseC isGif m) = lut0C isGif m
      rw [← hl0]
      exact List.take_length _
    · show (if P.from1 + 1 < D.length
          then (if baseC isGif m < maxDictC isGif then baseC isGif m + 1
                else baseC isGif m)
          else baseC isGif m) = if P.from1 + 1 < D.length
          then min ((lut0C isGif m).length + 1) (maxDictC isGif)
          else min (lut0C isGif m).length (maxDictC isGif)
      rw [hl0]
      by_cases h1 : P.from1 + 1 < D.length
      · rw [if_pos h1, if_pos h1, if_pos (by omega), min_eq_left (by omega)]
      · rw [if_neg h1, if_neg h1, min_eq_left (by omega)]
    · rfl
    · show 2 ^ (m + 1 - 1) < (lut0C isGif m).length
      rw [Nat.add_sub_cancel, hl0]
      omega
    · show (lut0C isGif m).length ≤ 2 ^ (m + 1)
      rw [hl0]
      unfold baseC
      split <;> omega
    · exact le_refl _
    · show m + 1 ≤ LC isGif
      unfold LC
      split <;> omega
    · show D.getD P.from1 0 < (lut0C isGif m).length
      omega
    · show D.getD P.from1 0 ≠ clearC m
      have : clearC m = 2 ^ m := rfl
      omega
    · show D.getD P.from1 0 ≠ eosC isGif m
      cases isGif
      · have : eosC false m = 4294967295 := rfl
        have hm256 : 2 ^ m ≤ 2 ^ 8 := Nat.pow_le_pow_right (by omega) hm8
        have h8 : (2:Nat) ^ 8 = 256 := by norm_num
        omega
      · have : eosC true m = 2 ^ m + 1 := rfl
        omega
    · intro i hbase hi
      have hi' : i < baseC isGif m := by
        rw [← hl0]
        exact hi
      omega
    · intro c' b' v' hv'
      dsimp only at hv' ⊢
      split at hv'
      · rename_i hA
        simp only [setChild] at hv'
        by_cases hnew : c' = D.getD P.from1 0 ∧ b' = D.getD (P.from1 + 1) 0
        · rw [if_pos hnew] at hv'
          have hveq : baseC isGif m = v' := Option.some.inj hv'
          refine ⟨?_, by omega, Or.inr ⟨?_, by omega, hnew.1, hnew.2⟩⟩
          · show c' < (lut0C isGif m).length
            rw [hl0]
            omega
          · show v' = (lut0C isGif m).length
            rw [hl0]
            omega
        · rw [if_neg hnew] at hv'
          exact Option.noConfusion hv'
      · exact Option.noConfusion hv'
    · rfl
    · intro _
      rfl
    · intro hg
      show ob % 8 = (m + 1) % 8
      exact hob hg
    · show (tokenBits (D.getD P.from1 0) (m + 1)).length = m + 1
      rw [tokenBits_length]

/-! ### Dictionary reset between segments -/

/-- One-step unfolding of `resetLoop`. -/
theorem resetLoop_succ (isGif : Bool) (minCodeSize clear maxColor fuel : Nat)
    (st : DecState) :
    resetLoop isGif minCodeSize clear maxColor (fuel + 1) st =
      (if st.token ≠ clear then some st
       else
        let lut1 := st.lut.take (if isGif then clear + 2 else clear + 1)
        let st1 : DecState := { st with lut := lut1 }
        let st2 :=
          if ¬isGif then
            let skip := if st1.origBits % 8 ≠ 0 then 8 - st1.origBits % 8 else 0
            let bitsA := (takeBits st1.bits skip).2
            let mod8 := st1.numTokensBlock % 8
            let gap := if mod8 = 0 then 0 else 8 - mod8
            let bitsB := (takeBits bitsA (gap * st1.codeSize)).2
            { st1 with bits := bitsB, origBits := st1.origBits + skip }
          else st1
        let cs := minCodeSize + 1
        let r := takeBits st2.bits cs
        if maxColor < r.1 then none
        else
          resetLoop isGif minCodeSize clear maxColor fuel
            { st2 with bits := r.2, codeSize := cs, token := r.1
                       numTokensBlock := 1, origBits := st2.origBits + cs
                       bytes := st2.bytes ++ [r.1] }) := rfl

/-- The GIF reset: truncate the table and read the first literal of the next
block. -/
theorem resetLoop_gif (m : Nat) (D : List Nat) (q : Nat) (lut : List DecEntry)
    (bytes : List Nat) (w ntb ob F : Nat) (rest : List Bool)
    (hinit : lut.take (baseC true m) = lut0C true m)
    (hbyte : D.getD q 0 < 2 ^ m)
    (hbytes : bytes = D.take q) (hq : q < D.length) (hF : 1 ≤ F) :
    resetLoop true m (2 ^ m) (2 ^ m - 1) (F + 1)
      ⟨tokenBits (D.getD q 0) (m + 1) ++ rest, lut, bytes, w, 2 ^ m, ntb, ob⟩ =
      some (freshDec true m D q (ob + (m + 1)) rest) := by
  obtain ⟨F', hF'⟩ : ∃ F', F = F' + 1 := ⟨F - 1, by omega⟩
  subst hF'
  have hpm1 : 2 * 2 ^ m = 2 ^ (m + 1) := by rw [← pow_succ']
  have hpm0 : 0 < 2 ^ m := Nat.two_pow_pos m
  have e1 : ((2:Nat) ^ m ≠ 2 ^ m) = False := eq_false (by omega)
  have e2 : lut.take (2 ^ m + 2) = lut0C true m := hinit
  have e3 : takeBits (tokenBits (D.getD q 0) (m + 1) ++ rest) (m + 1) =
      (D.getD q 0, rest) := takeBits_tokenBits _ _ _ (by omega)
  have e4 : ((2:Nat) ^ m - 1 < D.getD q 0) = False := eq_false (by omega)
  have e5 : (D.getD q 0 ≠ 2 ^ m) = True := eq_true (by omega)
  have e6 : bytes ++ [D.getD q 0] = D.take (q + 1) := by
    rw [hbytes, ← take_succ_getD D q hq]
  rw [resetLoop_succ]
  simp only [e1, if_false, e2, e3, e4, e6, not_true, if_true]
  rw [resetLoop_succ]
  simp only [e5, if_true, freshDec]

/-- The `.Z` reset: drop the byte-boundary padding and the alignment gap,
truncate the table and read the first literal of the next block. -/
theorem resetLoop_z (m : Nat) (D : List Nat) (q : Nat) (lut : List DecEntry)
    (bytes : List Nat) (w ntb ob F skip gap : Nat) (rest : List Bool)
    (hinit : lut.take (baseC false m) = lut0C false m)
    (hbyte : D.getD q 0 < 2 ^ m)
    (hbytes : bytes = D.take q) (hq : q < D.length) (hF : 1 ≤ F)
    (hskip : skip = (if ob % 8 ≠ 0 then 8 - ob % 8 else 0))
    (hgap : gap = (if ntb % 8 = 0 then 0 else 8 - ntb % 8)) :
    resetLoop false m (2 ^ m) (2 ^ m - 1) (F + 1)
      ⟨List.replicate skip false ++ (List.replicate (gap * w) false ++
         (tokenBits (D.getD q 0) (m + 1) ++ rest)), lut, bytes, w, 2 ^ m, ntb, ob⟩ =
      some (freshDec false m D q (ob + skip + (m + 1)) rest) := by
  obtain ⟨F', hF'⟩ : ∃ F', F = F' + 1 := ⟨F - 1, by omega⟩
  subst hF'
  have hpm1 : 2 * 2 ^ m = 2 ^ (m + 1) := by rw [← pow_succ']
  have hpm0 : 0 < 2 ^ m := Nat.two_pow_pos m
  have e1 : ((2:Nat) ^ m ≠ 2 ^ m) = False := eq_false (by omega)
  have e2 : lut.take (2 ^ m + 1) = lut0C false m := hinit
  have eSkip : (if ob % 8 ≠ 0 then 8 - ob % 8 else 0) = skip := hskip.symm
  have eGap : (if ntb % 8 = 0 then 0 else 8 - ntb % 8) = gap := hgap.symm
  have e3a : (takeBits (List.replicate skip false ++ (List.replicate (gap * w) false ++
      (tokenBits (D.getD q 0) (m + 1) ++ rest))) skip).2 =
      List.replicate (gap * w) false ++ (tokenBits (D.getD q 0) (m + 1) ++ rest) :=
    takeBits_replicate_drop _ _
  have e3b : (takeBits (List.replicate (gap * w) false ++
      (tokenBits (D.getD q 0) (m + 1) ++ rest)) (gap * w)).2 =
      tokenBits (D.getD q 0) (m + 1) ++ rest :=
    takeBits_replicate_drop _ _
  have e3c : takeBits (tokenBits (D.getD q 0) (m + 1) ++ rest) (m + 1) =
      (D.getD q 0, rest) := takeBits_tokenBits _ _ _ (by omega)
  have e4 : ((2:Nat) ^ m - 1 < D.getD q 0) = False := eq_false (by omega)
  have e5 : (D.getD q 0 ≠ 2 ^ m) = True := eq_true (by omega)
  have e6 : bytes ++ [D.getD q 0] = D.take (q + 1) := by
    rw [hbytes, ← take_succ_getD D q hq]
  rw [resetLoop_succ]
  simp only [e1, if_false, e2, eSkip, eGap, e3a, e3b, e3c, e4, e6,
             Bool.false_eq_true, not_false_iff, if_true]
  rw [resetLoop_succ]
  simp only [e5, if_true, freshDec]

/-- The decoder pass over a GIF clear token: reset and read the next block's
first literal. -/
theorem dec_step_clear_gif (m : Nat) (D : List Nat) (q csE : Nat) (dec : DecState)
    (rest : List Bool)
    (hcs : stepWidth (LC true) dec = csE)
    (htokeos : dec.token ≠ eosC true m)
    (hclearcs : 2 ^ m < 2 ^ csE)
    (hclearlt : 2 ^ m < dec.lut.length)
    (hinit : dec.lut.take (baseC true m) = lut0C true m)
    (hbyte : D.getD q 0 < 2 ^ m)
    (hbytes : dec.bytes = D.take q) (hq : q < D.length) :
    dstep true m { dec with bits := tokenBits (2 ^ m) csE ++
        (tokenBits (D.getD q 0) (m + 1) ++ rest) } =
      .cont (freshDec true m D q (dec.origBits + csE + (m + 1)) rest) := by
  have hcs' : stepWidth (LC true) { dec with bits := tokenBits (2 ^ m) csE ++
      (tokenBits (D.getD q 0) (m + 1) ++ rest) } = csE := hcs
  have e1 : (dec.token = eosC true m) = False := eq_false htokeos
  have e2 : (¬true = true ∧ (tokenBits (2 ^ m) csE ++
      (tokenBits (D.getD q 0) (m + 1) ++ rest)).length < csE) = False :=
    eq_false (by rintro ⟨h, _⟩; exact h rfl)
  have e2b : ((tokenBits (2 ^ m) csE ++
      (tokenBits (D.getD q 0) (m + 1) ++ rest)).length < csE) = False :=
    eq_false (by
      rw [List.length_append, tokenBits_length]
      omega)
  have e3 : takeBits (tokenBits (2 ^ m) csE ++
      (tokenBits (D.getD q 0) (m + 1) ++ rest)) csE =
      (2 ^ m, tokenBits (D.getD q 0) (m + 1) ++ rest) :=
    takeBits_tokenBits _ _ _ hclearcs
  have e4 : (dec.lut.length < 2 ^ m) = False := eq_false (by omega)
  have e5 : ((2:Nat) ^ m = clearC m) = True := eq_true rfl
  have eReset : resetLoop true m (clearC m) (maxColorC m)
      ((tokenBits (D.getD q 0) (m + 1) ++ rest).length + 2)
      ⟨tokenBits (D.getD q 0) (m + 1) ++ rest, dec.lut, dec.bytes, csE, 2 ^ m,
       dec.numTokensBlock + 1, dec.origBits + csE⟩ =
      some (freshDec true m D q (dec.origBits + csE + (m + 1)) rest) :=
    resetLoop_gif m D q dec.lut dec.bytes csE (dec.numTokensBlock + 1)
      (dec.origBits + csE) ((tokenBits (D.getD q 0) (m + 1) ++ rest).length + 1) rest
      hinit hbyte hbytes hq (by omega)
  simp only [dstep, decStep, hcs', e1, e2, e2b, e3, e4, e5, if_false, if_true, eReset,
             not_true, not_false_iff, true_and, false_and, and_false, Bool.false_eq_true]

/-- The decoder pass over a `.Z` clear token: skip the byte padding and the
alignment gap, reset and read the next block's first literal. -/
theorem dec_step_clear_z (m : Nat) (D : List Nat) (q csE skip gap : Nat)
    (dec : DecState) (rest : List Bool)
    (hcs : stepWidth (LC false) dec = csE)
    (htokeos : dec.token ≠ eosC false m)
    (hclearcs : 2 ^ m < 2 ^ csE)
    (hclearlt : 2 ^ m < dec.lut.length)
    (hinit : dec.lut.take (baseC false m) = lut0C false m)
    (hbyte : D.getD q 0 < 2 ^ m)
    (hbytes : dec.bytes = D.take q) (hq : q < D.length)
    (hskip : skip = (if (dec.origBits + csE) % 8 ≠ 0
                     then 8 - (dec.origBits + csE) % 8 else 0))
    (hgap : gap = (if (dec.numTokensBlock + 1) % 8 = 0 then 0
                   else 8 - (dec.numTokensBlock + 1) % 8)) :
    dstep false m { dec with bits := tokenBits (2 ^ m) csE ++
        (List.replicate skip false ++ (List.replicate (gap * csE) false ++
          (tokenBits (D.getD q 0) (m + 1) ++ rest))) } =
      .cont (freshDec false m D q (dec.origBits + csE + skip + (m + 1)) rest) := by
  have hcs' : stepWidth (LC false) { dec with bits := tokenBits (2 ^ m) csE ++
      (List.replicate skip false ++ (List.replicate (gap * csE) false ++
        (tokenBits (D.getD q 0) (m + 1) ++ rest))) } = csE := hcs
  have e1 : (dec.token = eosC false m) = False := eq_false htokeos
  have e2 : (¬false = true ∧ (tokenBits (2 ^ m) csE ++
      (List.replicate skip false ++ (List.replicate (gap * csE) false ++
        (tokenBits (D.getD q 0) (m + 1) ++ rest)))).length < csE) = False :=
    eq_false (by
      rintro ⟨_, h⟩
      rw [List.length_append, tokenBits_length] at h
      omega)
  have e2b : ((tokenBits (2 ^ m) csE ++
      (List.replicate skip false ++ (List.replicate (gap * csE) false ++
        (tokenBits (D.getD q 0) (m + 1) ++ rest)))).length < csE) = False :=
    eq_false (by
      rw [List.length_append, tokenBits_length]
      omega)
  have e3 : takeBits (tokenBits (2 ^ m) csE ++
      (List.replicate skip false ++ (List.replicate (gap * csE) false ++
        (tokenBits (D.getD q 0) (m + 1) ++ rest)))) csE =
      (2 ^ m, List.replicate skip false ++ (List.replicate (gap * csE) false ++
        (tokenBits (D.getD q 0) (m + 1) ++ rest))) :=
    takeBits_tokenBits _ _ _ hclearcs
  have e4 : (dec.lut.length < 2 ^ m) = False := eq_false (by omega)
  have e5 : ((2:Nat) ^ m = clearC m) = True := eq_true rfl
  have eReset : resetLoop false m (clearC m) (maxColorC m)
      ((List.replicate skip false ++ (List.replicate (gap * csE) false ++
        (tokenBits (D.getD q 0) (m + 1) ++ rest))).length + 2)
      ⟨List.replicate skip false ++ (List.replicate (gap * csE) false ++
        (tokenBits (D.getD q 0) (m + 1) ++ rest)), dec.lut, dec.bytes, csE, 2 ^ m,
       dec.numTokensBlock + 1, dec.origBits + csE⟩ =
      some (freshDec false m D q (dec.origBits + csE + skip + (m + 1)) rest) :=
    resetLoop_z m D q dec.lut dec.bytes csE (dec.numTokensBlock + 1)
      (dec.origBits + csE)
      ((List.replicate skip false ++ (List.replicate (gap * csE) false ++
        (tokenBits (D.getD q 0) (m + 1) ++ rest))).length + 1) skip gap rest
      hinit hbyte hbytes hq (by omega) hskip hgap
  simp only [dstep, decStep, hcs', e1, e2, e2b, e3, e4, e5, if_false, if_true, eReset,
             not_true, not_false_iff, true_and, false_and, and_false, Bool.false_eq_true]

/-! ### Block closings -/

/-- A zero-bit suffix does not change the value a bit list denotes. -/
theorem bitsToNat_replicate_false (k : Nat) :
    bitsToNat (List.replicate k false) = 0 := by
  induction k with
  | zero => rfl
  | succ k ih =>
    show bitsToNat (false :: List.replicate k false) = 0
    simp only [bitsToNat, ih, Bool.false_eq_true, if_false]

theorem bitsToNat_append_zeros (bs : List Bool) (k : Nat) :
    bitsToNat (bs ++ List.replicate k false) = bitsToNat bs := by
  induction bs with
  | nil =>
    show bitsToNat (List.replicate k false) = bitsToNat []
    rw [bitsToNat_replicate_false]
    rfl
  | cons b bs ih =>
    show bitsToNat (b :: (bs ++ List.replicate k false)) = bitsToNat (b :: bs)
    simp only [bitsToNat, ih]

/-- Reading `s` bits off a token followed by zero padding, `n ≤ s ≤ n + k`:
the token's low `n` bits plus padding zeros above them give back the token. -/
theorem takeBits_tokenBits_pad (n s k x : Nat) (hx : x < 2 ^ n)
    (hns : n ≤ s) (hsk : s ≤ n + k) :
    takeBits (tokenBits x n ++ List.replicate k false) s =
      (x, (tokenBits x n ++ List.replicate k false).drop s) := by
  have h1 : List.take s (tokenBits x n ++ List.replicate k false) =
      tokenBits x n ++ List.replicate (min (s - n) k) false := by
    rw [List.take_append_eq_append_take,
        List.take_of_length_le (by rw [tokenBits_length]; exact hns),
        tokenBits_length, List.take_replicate]
  unfold takeBits
  rw [h1, bitsToNat_append_zeros, bitsToNat_tokenBits_lt n x hx]

/-- The decoder pass over the GIF end-of-stream token at the end of the
payload: the read may be one bit wider than the token was written (the width
step at LzwDecoder.cpp lines 153-155), and the extra bits come from the `k`
zero padding bits of the final written byte. -/
theorem dec_step_eos_gif (m : Nat) (csE k : Nat) (dec : DecState)
    (hcsle : csE ≤ stepWidth (LC true) dec)
    (hkle : stepWidth (LC true) dec ≤ csE + k)
    (htokeos : dec.token ≠ eosC true m)
    (heoscs : 2 ^ m + 1 < 2 ^ csE)
    (heoslt : 2 ^ m + 1 < dec.lut.length)
    (hpm0 : 0 < 2 ^ m) :
    dstep true m { dec with bits := tokenBits (2 ^ m + 1) csE ++ List.replicate k false } = .done dec.bytes := by
  obtain ⟨cs', hcs'⟩ : ∃ x, stepWidth (LC true) dec = x := ⟨_, rfl⟩
  rw [hcs'] at hcsle hkle
  have hcs2 : stepWidth (LC true) { dec with bits := tokenBits (2 ^ m + 1) csE ++ List.replicate k false } = cs' :=
    hcs'
  have e1 : (dec.token = eosC true m) = False := eq_false htokeos
  have e2b : ((tokenBits (2 ^ m + 1) csE ++ List.replicate k false).length < cs') =
      False :=
    eq_false (by
      rw [List.length_append, tokenBits_length, List.length_replicate]
      omega)
  have e3 : takeBits (tokenBits (2 ^ m + 1) csE ++ List.replicate k false) cs' =
      (2 ^ m + 1,
       (tokenBits (2 ^ m + 1) csE ++ List.replicate k false).drop cs') :=
    takeBits_tokenBits_pad csE cs' k (2 ^ m + 1) heoscs hcsle hkle
  have e4 : (dec.lut.length < 2 ^ m + 1) = False := eq_false (by omega)
  have e5 : ((2:Nat) ^ m + 1 = clearC m) = False := eq_false (by
    have : clearC m = 2 ^ m := rfl
    omega)
  have e6 : ((2:Nat) ^ m + 1 = eosC true m) = True := eq_true rfl
  simp only [dstep, decStep, hcs2, e1, e2b, e3, e4, e5, e6, if_false, if_true,
             and_false, Bool.false_eq_true]

/-- The `.Z` decoder stops when fewer bits than one code remain (the final
byte padding). -/
theorem dec_step_short_z (m : Nat) (dec : DecState) (pad : Nat)
    (htokeos : dec.token ≠ eosC false m)
    (hpad : pad < m + 1)
    (hwm : m + 1 ≤ dec.codeSize) :
    dstep false m { dec with bits := List.replicate pad false } = .done dec.bytes := by
  have hsw : dec.codeSize ≤ stepWidth (LC false) dec := by
    unfold stepWidth
    split <;> omega
  obtain ⟨cs', hcs'⟩ : ∃ x, stepWidth (LC false) dec = x := ⟨_, rfl⟩
  rw [hcs'] at hsw
  have hcs2 : stepWidth (LC false) { dec with bits := List.replicate pad false } = cs' :=
    hcs'
  have e1 : (dec.token = eosC false m) = False := eq_false htokeos
  have e2 : (¬false = true ∧ (List.replicate pad false).length < cs') = True :=
    eq_true ⟨Bool.false_ne_true, by rw [List.length_replicate]; omega⟩
  simp only [dstep, decStep, hcs2, e1, e2, if_false, if_true]

/-- Closing a GIF block: the control code at `getMinBits(dictSize - 1)`. -/
theorem closeBlock_gif_eq (P : EncParams) (isFinal : Bool) (st : EncLoop)
    (hPe : P.emit = true) (hPg : P.isGif = true) :
    closeBlock P isFinal st = some { st with
      result := st.result ++ tokenBits
        (if isFinal then 2 ^ P.o.minCodeSize + 1 else 2 ^ P.o.minCodeSize)
        (getMinBits (st.dictSize - 1)),
      codeSize := getMinBits (st.dictSize - 1) } := by
  unfold closeBlock
  rw [if_neg (by rw [hPe]; intro h; exact h rfl), if_pos hPg]
  cases isFinal <;> rfl

/-- Closing the final `.Z` block: only the byte padding. -/
theorem closeBlock_z_final_eq (P : EncParams) (st : EncLoop)
    (hPe : P.emit = true) (hPg : P.isGif = false) :
    closeBlock P true st = some { st with
      result := st.result ++ List.replicate ((8 - st.result.length % 8) % 8) false,
      numBits := st.numBits + (8 - st.result.length % 8) % 8,
      codeSize := getMinBits (st.dictSize - 1) } := by
  unfold closeBlock
  rw [if_neg (by rw [hPe]; intro h; exact h rfl),
      if_neg (by rw [hPg]; exact Bool.false_ne_true)]
  rfl

/-- Closing a non-final `.Z` block: clear code at width 16, byte padding, and
the 8-alignment gap. -/
theorem closeBlock_z_nonfinal_eq (P : EncParams) (st : EncLoop)
    (hPe : P.emit = true) (hPg : P.isGif = false)
    (hcs16 : getMinBits (st.dictSize - 1) = 16) :
    closeBlock P false st = some { st with
      result := ((st.result ++ tokenBits (2 ^ P.o.minCodeSize) 16) ++
        List.replicate
          ((8 - (st.result ++ tokenBits (2 ^ P.o.minCodeSize) 16).length % 8) % 8)
          false) ++
        List.replicate (8 * (16 * (if (st.numTokens + 1) % 8 = 0 then 0
          else 8 - (st.numTokens + 1) % 8) / 8)) false,
      numBits := st.numBits +
        (8 - (st.result ++ tokenBits (2 ^ P.o.minCodeSize) 16).length % 8) % 8,
      numTokens := st.numTokens + 1,
      codeSize := 16 } := by
  simp only [closeBlock]
  rw [if_neg (by rw [hPe]; intro h; exact h rfl),
      if_neg (by rw [hPg]; exact Bool.false_ne_true), hcs16]
  rw [if_pos Bool.false_ne_true]
  rw [if_neg (by intro h; exact h rfl)]
  rfl

/-! ### Whole-segment composition -/

/-- `optimizePartial` with `emit = true` reduced past the alignment guard and
the (emitting runs never take it) greedy early exit. -/
theorem optimizePartial_emit (data : List Nat) (isGif : Bool) (best0 : Nat → BestBlock)
    (from1 maxLength : Nat) (isFinal : Bool) (o : OptimizationSettings)
    (halign : from1 % (if o.alignment = 0 then 1 else o.alignment) = 0) :
    optimizePartial data isGif best0 from1 maxLength true isFinal o =
      match encodeLoop
          ⟨data, isGif, if isGif then 12 else 16, 2 ^ (if isGif then 12 else 16) - 1, o,
           if o.alignment = 0 then 1 else o.alignment, from1,
           if maxLength ≠ 0 ∧ maxLength < data.length - from1 then maxLength
           else data.length - from1, true⟩
          (if maxLength ≠ 0 ∧ maxLength < data.length - from1 then maxLength
           else data.length - from1)
          from1
          ⟨emptyDict, if isGif then 2 ^ o.minCodeSize + 2 else 2 ^ o.minCodeSize + 1,
           best0, 0, 0, 0, 0,
           getMinBits (if isGif then 2 ^ o.minCodeSize + 2 else 2 ^ o.minCodeSize + 1),
           []⟩ with
      | none => none
      | some st =>
          (closeBlock
            ⟨data, isGif, if isGif then 12 else 16, 2 ^ (if isGif then 12 else 16) - 1, o,
             if o.alignment = 0 then 1 else o.alignment, from1,
             if maxLength ≠ 0 ∧ maxLength < data.length - from1 then maxLength
             else data.length - from1, true⟩ isFinal st).map
            fun st2 => (st2.result, st2.best) := by
  simp only [optimizePartial]
  rw [if_neg (fun hne => hne halign),
      if_neg (by rintro ⟨_, _, h3, _, _⟩; exact h3 trivial)]

/-- The decoder's next read width is at least the current width. -/
theorem stepWidth_ge (L : Nat) (dec : DecState) : dec.codeSize ≤ stepWidth L dec := by
  unfold stepWidth
  split <;> omega

/-- The decoder's next read width exceeds the current width by at most one. -/
theorem stepWidth_le (L : Nat) (dec : DecState) : stepWidth L dec ≤ dec.codeSize + 1 := by
  unfold stepWidth
  split <;> omega

/-- At a non-final sync point the encoder's closing width equals the decoder's
next read width. -/
theorem close_width_sync_nonfinal {isGif : Bool} {m : Nat} {D : List Nat} {p : Nat}
    {st : EncLoop} {dec : DecState} (S : Sync isGif m D p st dec)
    (hp : p < D.length) :
    getMinBits (st.dictSize - 1) = stepWidth (LC isGif) dec := by
  rw [S.hsize, if_pos hp]
  have h := close_width_nonfinal (LC isGif) dec.lut.length dec.codeSize
    (by have := S.hwm; omega) S.hwL (LC_ge3 isGif) S.hwlo S.hwhi
  unfold maxDictC
  rw [h]
  unfold stepWidth
  rfl

/-- At the final sync point the encoder's closing width equals the decoder's
current width. -/
theorem close_width_sync_final {isGif : Bool} {m : Nat} {D : List Nat}
    {st : EncLoop} {dec : DecState} (S : Sync isGif m D D.length st dec) :
    getMinBits (st.dictSize - 1) = dec.codeSize := by
  rw [S.hsize, if_neg (lt_irrefl D.length)]
  unfold maxDictC
  exact close_width_final (LC isGif) dec.lut.length dec.codeSize
    (by have := S.hwm; omega) S.hwL (LC_ge3 isGif) S.hwlo S.hwhi

/-- A whole emitted segment: from the fresh dictionary through all tokens, the
encoder's bits past the first token replay through the decoder into a final
`Sync`ed state, uniformly in the decoder's bit-position bookkeeping. -/
theorem seg_full (isGif : Bool) (m : Nat) (D : List Nat) (P : EncParams)
    (hP : WFP P isGif D) (hD : ∀ b ∈ D, b < 2 ^ m)
    (hm2 : 2 ≤ m) (hm8 : m ≤ 8) (hzm : isGif = false → m = 8)
    (best0 : Nat → BestBlock)
    (hq1 : P.from1 + 1 ≤ P.from1 + P.len) (hsegN : P.from1 + P.len ≤ D.length) :
    ∃ stF Δ, encodeLoop P P.len P.from1 (encInit isGif m best0) = some stF ∧
      stF.result = tokenBits (D.getD P.from1 0) (m + 1) ++ Δ ∧
      ∀ ob, (isGif = false → ob % 8 = (m + 1) % 8) →
        ∃ decF, Sync isGif m D (P.from1 + P.len) stF decF ∧
          ∀ rest, Steps isGif m (freshDec isGif m D P.from1 ob (Δ ++ rest))
            { decF with bits := rest } := by
  obtain ⟨st1, henc1, hres1, hsync1⟩ :=
    first_token isGif m D P hP hD hm2 hm8 hzm best0 hq1 hsegN
  have h1 := henc1 (P.len - 1)
  have hfuel : 1 + (P.len - 1) = P.len := by omega
  rw [hfuel] at h1
  obtain ⟨stF, Δ, decF0, hencF, hstF, _, _⟩ :=
    seg_sim isGif m D P hP hD hm2 hm8 hzm hsegN (P.len - 1) (P.from1 + 1) st1
      (freshDec isGif m D P.from1 (m + 1) []) (by omega) (by omega)
      (hsync1 (m + 1) (fun _ => rfl))
  refine ⟨stF, Δ, h1.trans hencF, by rw [hstF, hres1], ?_⟩
  intro ob hob
  obtain ⟨stF', Δ', decF, hencF', hstF', SF, hsteps⟩ :=
    seg_sim isGif m D P hP hD hm2 hm8 hzm hsegN (P.len - 1) (P.from1 + 1) st1
      (freshDec isGif m D P.from1 ob []) (by omega) (by omega)
      (hsync1 ob hob)
  have hstFeq : stF' = stF := by
    have := hencF'.symm.trans hencF
    exact (Option.some.injEq _ _ ▸ this)
  subst hstFeq
  have hDeq : Δ' = Δ := by
    rw [hstF] at hstF'
    exact (List.append_cancel_left hstF').symm
  rw [hDeq] at hsteps
  refine ⟨decF, SF, ?_⟩
  intro rest
  have hfd : ({ freshDec isGif m D P.from1 ob [] with bits := Δ ++ rest } : DecState) =
      freshDec isGif m D P.from1 ob (Δ ++ rest) := rfl
  rw [← hfd]
  exact hsteps rest

/-- A non-final `.Z` block closing at a width other than 16 is a fatal error. -/
theorem closeBlock_z_nonfinal_none (P : EncParams) (st : EncLoop)
    (hPe : P.emit = true) (hPg : P.isGif = false)
    (hne : getMinBits (st.dictSize - 1) ≠ 16) :
    closeBlock P false st = none := by
  simp only [closeBlock]
  rw [if_neg (by rw [hPe]; intro h; exact h rfl),
      if_neg (by rw [hPg]; exact Bool.false_ne_true)]
  rw [if_pos Bool.false_ne_true]
  rw [if_pos hne]

/-- One emitted block of `merge`: the block starts with the literal `D[q]` at
width `m+1`; for a final block the decoder runs from the matching fresh state
to exactly `D`; for a non-final block it replays to the fresh state of the
next block. -/
theorem block_sim (isGif : Bool) (m : Nat) (D : List Nat) (best0 : Nat → BestBlock)
    (o2 : OptimizationSettings) (q r : Nat) (isFinal : Bool)
    (block : List Bool) (best1 : Nat → BestBlock)
    (hD : ∀ b ∈ D, b < 2 ^ m) (hm2 : 2 ≤ m) (hm8 : m ≤ 8)
    (hzm : isGif = false → m = 8)
    (hmcs : o2.minCodeSize = m) (hro : o2.readOnlyBest = true)
    (hmt : o2.maxTokens = 0) (hmd : o2.maxDictionary = 0)
    (hqr : q < r) (hrN : r ≤ D.length)
    (hfin : isFinal = true → r = D.length)
    (hnfin : isFinal = false → r < D.length)
    (hopt : optimizePartial D isGif best0 q (r - q) true isFinal o2 =
      some (block, best1)) :
    ∃ blockRest, block = tokenBits (D.getD q 0) (m + 1) ++ blockRest ∧
      (isFinal = true → ∀ ob pad, (isGif = false → ob % 8 = (m + 1) % 8) →
        (isGif = true → 1 ≤ pad) → (isGif = false → pad = 0) →
        ∃ f, dloop isGif m f (freshDec isGif m D q ob
          (blockRest ++ List.replicate pad false)) = some D) ∧
      (isFinal = false → ∀ ob rest, (isGif = false → ob % 8 = (m + 1) % 8) →
        ∃ ob2, (isGif = false → ob2 % 8 = (m + 1) % 8) ∧
          Steps isGif m
            (freshDec isGif m D q ob
              (blockRest ++ (tokenBits (D.getD r 0) (m + 1) ++ rest)))
            (freshDec isGif m D r ob2 rest)) := by
  subst hmcs
  by_cases hal : q % (if o2.alignment = 0 then 1 else o2.alignment) ≠ 0
  · exfalso
    simp only [optimizePartial] at hopt
    rw [if_pos hal] at hopt
    exact Option.noConfusion hopt
  rw [not_ne_iff] at hal
  have hlen : (if r - q ≠ 0 ∧ r - q < D.length - q then r - q else D.length - q) =
      r - q := by
    split
    · rfl
    · omega
  have hWFP : WFP (⟨D, isGif, LC isGif, maxDictC isGif, o2,
      if o2.alignment = 0 then 1 else o2.alignment, q, r - q, true⟩ : EncParams)
      isGif D :=
    ⟨rfl, rfl, rfl, rfl, rfl, hro, hmt, hmd⟩
  obtain ⟨stF, Δ, hencFull, hstF, hdecs⟩ :=
    seg_full isGif o2.minCodeSize D _ hWFP hD hm2 hm8 hzm best0
      (by show q + 1 ≤ q + (r - q); omega) (by show q + (r - q) ≤ D.length; omega)
  have hencraw : encodeLoop
      ⟨D, isGif, if isGif then 12 else 16, 2 ^ (if isGif then 12 else 16) - 1, o2,
       if o2.alignment = 0 then 1 else o2.alignment, q, r - q, true⟩
      (r - q) q
      ⟨emptyDict, if isGif then 2 ^ o2.minCodeSize + 2 else 2 ^ o2.minCodeSize + 1,
       best0, 0, 0, 0, 0,
       getMinBits (if isGif then 2 ^ o2.minCodeSize + 2 else 2 ^ o2.minCodeSize + 1),
       []⟩ = some stF := hencFull
  have hval : optimizePartial D isGif best0 q (r - q) true isFinal o2 =
      (closeBlock
        ⟨D, isGif, LC isGif, maxDictC isGif, o2,
         if o2.alignment = 0 then 1 else o2.alignment, q, r - q, true⟩ isFinal stF).map
        (fun st2 => (st2.result, st2.best)) := by
    rw [optimizePartial_emit D isGif best0 q (r - q) isFinal o2 hal]
    rw [hlen]
    rw [hencraw]
    rfl
  rw [hval] at hopt
  have hstF' : stF.result = tokenBits (D.getD q 0) (o2.minCodeSize + 1) ++ Δ := hstF
  have hqr' : q + (r - q) = r := by omega
  have hdecs' : ∀ ob, (isGif = false → ob % 8 = (o2.minCodeSize + 1) % 8) →
      ∃ decF, Sync isGif o2.minCodeSize D r stF decF ∧
        ∀ rest, Steps isGif o2.minCodeSize
          (freshDec isGif o2.minCodeSize D q ob (Δ ++ rest))
          { decF with bits := rest } := by
    intro ob hob
    obtain ⟨decF, SF, hst⟩ := hdecs ob hob
    refine ⟨decF, ?_, hst⟩
    have h2 : Sync isGif o2.minCodeSize D (q + (r - q)) stF decF := SF
    rwa [hqr'] at h2
  clear hdecs hstF hencFull hencraw hval hWFP
  cases isFinal with
  | true =>
    have hrD : r = D.length := hfin rfl
    subst hrD
    cases isGif with
    | true =>
      obtain ⟨csE, hcsE⟩ : ∃ x, getMinBits (stF.dictSize - 1) = x := ⟨_, rfl⟩
      have hclose := closeBlock_gif_eq
        (⟨D, true, LC true, maxDictC true, o2,
          if o2.alignment = 0 then 1 else o2.alignment, q, D.length - q, true⟩ :
          EncParams)
        true stF rfl rfl
      rw [if_pos rfl, hcsE] at hclose
      rw [hclose] at hopt
      simp only [Option.map_some'] at hopt
      have hpair := Option.some.inj hopt
      have hblock : block = stF.result ++ tokenBits (2 ^ o2.minCodeSize + 1) csE :=
        (congrArg Prod.fst hpair).symm
      refine ⟨Δ ++ tokenBits (2 ^ o2.minCodeSize + 1) csE,
        ?_, ?_, fun hff => Bool.noConfusion hff⟩
      · rw [hblock, hstF', List.append_assoc]
      · intro _ ob pad hob hp1 _
        obtain ⟨decF, SF, hsteps⟩ := hdecs' ob hob
        have hcw : csE = decF.codeSize := by
          rw [← hcsE]
          exact close_width_sync_final SF
        have hpm := Nat.two_pow_pos o2.minCodeSize
        have hdone : dstep true o2.minCodeSize { decF with bits := tokenBits (2 ^ o2.minCodeSize + 1) csE ++ List.replicate pad false } = .done decF.bytes := by
          apply dec_step_eos_gif
          · rw [hcw]
            exact stepWidth_ge _ _
          · have h1 := stepWidth_le (LC true) decF
            have h2 := hp1 rfl
            rw [hcw]
            omega
          · exact SF.htokeos
          · rw [hcw]
            have h21 : (2:Nat) ^ (o2.minCodeSize + 1) ≤ 2 ^ decF.codeSize :=
              Nat.pow_le_pow_right (by omega) SF.hwm
            have h22 : (2:Nat) ^ (o2.minCodeSize + 1) = 2 * 2 ^ o2.minCodeSize :=
              pow_succ' 2 _
            have hp4 : (4:Nat) ≤ 2 ^ o2.minCodeSize :=
              calc (4:Nat) = 2 ^ 2 := by norm_num
                _ ≤ 2 ^ o2.minCodeSize := Nat.pow_le_pow_right (by omega) hm2
            omega
          · have hl : 2 ^ o2.minCodeSize + 2 ≤ decF.lut.length := SF.hlen0
            omega
          · exact hpm
        have hbD : decF.bytes = D := by rw [SF.hbytes, List.take_length]
        rw [List.append_assoc]
        apply steps_dloop true o2.minCodeSize (hsteps _) D
        refine ⟨1, ?_⟩
        have hd2 : dstep true o2.minCodeSize { decF with bits := tokenBits (2 ^ o2.minCodeSize + 1) csE ++ List.replicate pad false } = .done D := by
          rw [hdone, hbD]
        exact dloop_done true o2.minCodeSize 0 _ D hd2
    | false =>
      obtain ⟨pad, hpad⟩ : ∃ x, (8 - stF.result.length % 8) % 8 = x := ⟨_, rfl⟩
      have hclose := closeBlock_z_final_eq
        (⟨D, false, LC false, maxDictC false, o2,
          if o2.alignment = 0 then 1 else o2.alignment, q, D.length - q, true⟩ :
          EncParams)
        stF rfl rfl
      rw [hpad] at hclose
      rw [hclose] at hopt
      simp only [Option.map_some'] at hopt
      have hpair := Option.some.inj hopt
      have hblock : block = stF.result ++ List.replicate pad false :=
        (congrArg Prod.fst hpair).symm
      refine ⟨Δ ++ List.replicate pad false,
        ?_, ?_, fun hff => Bool.noConfusion hff⟩
      · rw [hblock, hstF', List.append_assoc]
      · intro _ ob padE hob _ hp0
        have hpE : padE = 0 := hp0 rfl
        subst hpE
        rw [show (List.replicate 0 false : List Bool) = [] from rfl, List.append_nil]
        obtain ⟨decF, SF, hsteps⟩ := hdecs' ob hob
        have hdone : dstep false o2.minCodeSize { decF with bits := List.replicate pad false } = .done decF.bytes := by
          apply dec_step_short_z
          · exact SF.htokeos
          · have hlt : (8 - stF.result.length % 8) % 8 < 8 := Nat.mod_lt _ (by omega)
            have hm8' : o2.minCodeSize = 8 := hzm rfl
            omega
          · exact SF.hwm
        have hbD : decF.bytes = D := by rw [SF.hbytes, List.take_length]
        apply steps_dloop false o2.minCodeSize (hsteps _) D
        refine ⟨1, ?_⟩
        have hd2 : dstep false o2.minCodeSize { decF with bits := List.replicate pad false } = .done D := by
          rw [hdone, hbD]
        exact dloop_done false o2.minCodeSize 0 _ D hd2
  | false =>
    have hrD : r < D.length := hnfin rfl
    cases isGif with
    | true =>
      have hclose := closeBlock_gif_eq
        (⟨D, true, LC true, maxDictC true, o2,
          if o2.alignment = 0 then 1 else o2.alignment, q, r - q, true⟩ : EncParams)
        false stF rfl rfl
      rw [if_neg Bool.false_ne_true] at hclose
      rw [hclose] at hopt
      simp only [Option.map_some'] at hopt
      have hpair := Option.some.inj hopt
      have hblock : block = stF.result ++
          tokenBits (2 ^ o2.minCodeSize) (getMinBits (stF.dictSize - 1)) :=
        (congrArg Prod.fst hpair).symm
      refine ⟨Δ ++ tokenBits (2 ^ o2.minCodeSize) (getMinBits (stF.dictSize - 1)),
        ?_, fun hff => Bool.noConfusion hff, ?_⟩
      · rw [hblock, hstF', List.append_assoc]
      · intro _ ob rest hob
        obtain ⟨decF, SF, hsteps⟩ := hdecs' ob hob
        have hcw : getMinBits (stF.dictSize - 1) = stepWidth (LC true) decF :=
          close_width_sync_nonfinal SF hrD
        have hpm := Nat.two_pow_pos o2.minCodeSize
        have hcsge : o2.minCodeSize + 1 ≤ getMinBits (stF.dictSize - 1) := by
          rw [hcw]
          exact le_trans SF.hwm (stepWidth_ge _ _)
        have hclear := dec_step_clear_gif o2.minCodeSize D r
          (getMinBits (stF.dictSize - 1)) decF rest hcw.symm SF.htokeos
          (by
            have h21 : (2:Nat) ^ (o2.minCodeSize + 1) ≤
                2 ^ getMinBits (stF.dictSize - 1) :=
              Nat.pow_le_pow_right (by omega) hcsge
            have h22 : (2:Nat) ^ (o2.minCodeSize + 1) = 2 * 2 ^ o2.minCodeSize :=
              pow_succ' 2 _
            omega)
          (by
            have hl : 2 ^ o2.minCodeSize + 2 ≤ decF.lut.length := SF.hlen0
            omega)
          SF.hinit (getD_lt D _ r hD hrD) SF.hbytes hrD
        refine ⟨decF.origBits + getMinBits (stF.dictSize - 1) + (o2.minCodeSize + 1),
          fun h => Bool.noConfusion h, ?_⟩
        have hassoc : (Δ ++ tokenBits (2 ^ o2.minCodeSize) (getMinBits (stF.dictSize - 1)))
            ++ (tokenBits (D.getD r 0) (o2.minCodeSize + 1) ++ rest) =
            Δ ++ (tokenBits (2 ^ o2.minCodeSize) (getMinBits (stF.dictSize - 1)) ++
              (tokenBits (D.getD r 0) (o2.minCodeSize + 1) ++ rest)) := by
          simp only [List.append_assoc]
        rw [hassoc]
        exact steps_trans (hsteps _) (Steps.tail hclear (Steps.refl _))
    | false =>
      by_cases h16 : getMinBits (stF.dictSize - 1) = 16
      · have hclose := closeBlock_z_nonfinal_eq
          (⟨D, false, LC false, maxDictC false, o2,
            if o2.alignment = 0 then 1 else o2.alignment, q, r - q, true⟩ : EncParams)
          stF rfl rfl h16
        rw [hclose] at hopt
        simp only [Option.map_some'] at hopt
        have hpair := Option.some.inj hopt
        have hblock : block = ((stF.result ++ tokenBits (2 ^ o2.minCodeSize) 16) ++
            List.replicate
              ((8 - (stF.result ++ tokenBits (2 ^ o2.minCodeSize) 16).length % 8) % 8)
              false) ++
            List.replicate (8 * (16 * (if (stF.numTokens + 1) % 8 = 0 then 0
              else 8 - (stF.numTokens + 1) % 8) / 8)) false :=
          (congrArg Prod.fst hpair).symm
        have hcnt : 8 * (16 * (if (stF.numTokens + 1) % 8 = 0 then 0
            else 8 - (stF.numTokens + 1) % 8) / 8) =
            (if (stF.numTokens + 1) % 8 = 0 then 0
             else 8 - (stF.numTokens + 1) % 8) * 16 := by
          omega
        have hplen : (stF.result ++ tokenBits (2 ^ o2.minCodeSize) 16).length =
            stF.result.length + 16 := by
          rw [List.length_append, tokenBits_length]
        rw [hcnt, hplen] at hblock
        refine ⟨Δ ++ (tokenBits (2 ^ o2.minCodeSize) 16 ++
          (List.replicate ((8 - (stF.result.length + 16) % 8) % 8) false ++
           List.replicate ((if (stF.numTokens + 1) % 8 = 0 then 0
             else 8 - (stF.numTokens + 1) % 8) * 16) false)),
          ?_, fun hff => Bool.noConfusion hff, ?_⟩
        · rw [hblock, hstF']
          simp only [List.append_assoc]
        · intro _ ob rest hob
          obtain ⟨decF, SF, hsteps⟩ := hdecs' ob hob
          have hcw : getMinBits (stF.dictSize - 1) = stepWidth (LC false) decF :=
            close_width_sync_nonfinal SF hrD
          have hcs16 : stepWidth (LC false) decF = 16 := by rw [← hcw, h16]
          have hm8' : o2.minCodeSize = 8 := hzm rfl
          have hob' : decF.origBits % 8 = stF.numBits % 8 := SF.hob rfl
          have hres' : stF.result.length = stF.numBits := SF.hres
          have hnt' : decF.numTokensBlock = stF.numTokens := SF.hnt rfl
          have hskip : (8 - (stF.result.length + 16) % 8) % 8 =
              (if (decF.origBits + 16) % 8 ≠ 0 then 8 - (decF.origBits + 16) % 8
               else 0) := by
            have hcong : (decF.origBits + 16) % 8 = (stF.result.length + 16) % 8 := by
              omega
            rw [hcong]
            by_cases hz : (stF.result.length + 16) % 8 = 0
            · rw [if_neg (not_ne_iff.mpr hz)]
              omega
            · rw [if_pos hz]
              have : (stF.result.length + 16) % 8 < 8 := Nat.mod_lt _ (by omega)
              omega
          have hgap : (if (stF.numTokens + 1) % 8 = 0 then 0
              else 8 - (stF.numTokens + 1) % 8) =
              (if (decF.numTokensBlock + 1) % 8 = 0 then 0
               else 8 - (decF.numTokensBlock + 1) % 8) := by
            rw [hnt']
          have hclear := dec_step_clear_z o2.minCodeSize D r 16
            ((8 - (stF.result.length + 16) % 8) % 8)
            (if (stF.numTokens + 1) % 8 = 0 then 0 else 8 - (stF.numTokens + 1) % 8)
            decF rest hcs16 SF.htokeos
            (by rw [hm8']; norm_num)
            (by
              have hl : 2 ^ o2.minCodeSize + 1 ≤ decF.lut.length := SF.hlen0
              have hwlo := SF.hwlo
              have hwhi := SF.hwhi
              have hwm := SF.hwm
              have h1 : (2:Nat) ^ o2.minCodeSize < 2 ^ decF.codeSize := by
                have h21 : (2:Nat) ^ (o2.minCodeSize + 1) ≤ 2 ^ decF.codeSize :=
                  Nat.pow_le_pow_right (by omega) hwm
                have h22 : (2:Nat) ^ (o2.minCodeSize + 1) = 2 * 2 ^ o2.minCodeSize :=
                  pow_succ' 2 _
                have := Nat.two_pow_pos o2.minCodeSize
                omega
              omega)
            SF.hinit (getD_lt D _ r hD hrD) SF.hbytes hrD hskip hgap
          refine ⟨decF.origBits + 16 + ((8 - (stF.result.length + 16) % 8) % 8) +
            (o2.minCodeSize + 1), ?_, ?_⟩
          · intro _
            have hsk0 : (decF.origBits + 16 + ((8 - (stF.result.length + 16) % 8) % 8))
                % 8 = 0 := by
              omega
            omega
          · have hassoc : (Δ ++ (tokenBits (2 ^ o2.minCodeSize) 16 ++
                (List.replicate ((8 - (stF.result.length + 16) % 8) % 8) false ++
                 List.replicate ((if (stF.numTokens + 1) % 8 = 0 then 0
                   else 8 - (stF.numTokens + 1) % 8) * 16) false))) ++
                (tokenBits (D.getD r 0) (o2.minCodeSize + 1) ++ rest) =
                Δ ++ (tokenBits (2 ^ o2.minCodeSize) 16 ++
                  (List.replicate ((8 - (stF.result.length + 16) % 8) % 8) false ++
                   (List.replicate ((if (stF.numTokens + 1) % 8 = 0 then 0
                     else 8 - (stF.numTokens + 1) % 8) * 16) false ++
                    (tokenBits (D.getD r 0) (o2.minCodeSize + 1) ++ rest)))) := by
              simp only [List.append_assoc]
            rw [hassoc]
            exact steps_trans (hsteps _) (Steps.tail hclear (Steps.refl _))
      · exfalso
        have hclose := closeBlock_z_nonfinal_none
          (⟨D, false, LC false, maxDictC false, o2,
            if o2.alignment = 0 then 1 else o2.alignment, q, r - q, true⟩ : EncParams)
          stF rfl rfl h16
        rw [hclose] at hopt
        have hopt2 : (none : Option (List Bool × (Nat → BestBlock))) =
            some (block, best1) := hopt
        exact Option.noConfusion hopt2

/-- The segment loop of `merge`: starting at position `q` with strictly
increasing segment ends ending at `D.length`, the emitted bits replay through
the decoder from the fresh state after `D[q]` to exactly `D`. -/
theorem mergeGo_sim (isGif : Bool) (m : Nat) (D : List Nat)
    (hD : ∀ b ∈ D, b < 2 ^ m) (hm2 : 2 ≤ m) (hm8 : m ≤ 8)
    (hzm : isGif = false → m = 8) :
    ∀ rs o best q result final,
      o.minCodeSize = m → o.maxTokens = 0 → o.maxDictionary = 0 →
      List.Chain' (· < ·) (q :: rs) → (∀ x ∈ rs, x ≤ D.length) →
      rs.getLastD 0 = D.length → rs ≠ [] →
      ∀ bestEmpty, mergeGo D isGif o best bestEmpty q result rs = some final →
      ∃ tail, final = result ++ (tokenBits (D.getD q 0) (m + 1) ++ tail) ∧
        ∀ ob pad, (isGif = false → ob % 8 = (m + 1) % 8) →
          (isGif = true → 1 ≤ pad) → (isGif = false → pad = 0) →
          ∃ f, dloop isGif m f (freshDec isGif m D q ob
            (tail ++ List.replicate pad false)) = some D := by
  intro rs
  induction rs with
  | nil =>
    intro o best q result final _ _ _ _ _ _ hne _ _
    exact absurd rfl hne
  | cons r rest ih =>
    intro o best q result final hmin hmt hmd hch hall hlast _ bestEmpty hmerge
    obtain ⟨hqr, hch'⟩ := List.chain'_cons.mp hch
    have hrN : r ≤ D.length := hall r (by simp)
    simp only [mergeGo] at hmerge
    rw [if_neg (by omega : ¬ r = 0)] at hmerge
    split at hmerge
    · exact Option.noConfusion hmerge
    · rename_i block best1 heq
      cases rest with
      | nil =>
        have hrD : r = D.length := hlast
        obtain ⟨bR, hblock, hfinI, _⟩ :=
          block_sim isGif m D best _ q r _ block best1 hD hm2 hm8 hzm
            (by split <;> exact hmin) rfl (by split <;> exact hmt)
            (by split <;> exact hmd) hqr hrN (fun _ => hrD)
            (fun h => Bool.noConfusion h) heq
        have hbne : ¬(block = [] ∧ 0 < r - q) := by
          rintro ⟨hbe, _⟩
          have hl0 := congrArg List.length (hblock.symm.trans hbe)
          rw [List.length_append, tokenBits_length, List.length_nil] at hl0
          omega
        rw [if_neg hbne] at hmerge
        simp only [mergeGo] at hmerge
        have hfinal : final = result ++ block := (Option.some.inj hmerge).symm
        refine ⟨bR, by rw [hfinal, hblock], ?_⟩
        intro ob pad hob hp1 hp0
        exact hfinI rfl ob pad hob hp1 hp0
      | cons r2 rest2 =>
        have hr2N : r2 ≤ D.length := hall r2 (by simp)
        have hrr2 : r < r2 := (List.chain'_cons.mp hch').1
        obtain ⟨bR, hblock, _, hnfinI⟩ :=
          block_sim isGif m D best _ q r _ block best1 hD hm2 hm8 hzm
            (by split <;> exact hmin) rfl (by split <;> exact hmt)
            (by split <;> exact hmd) hqr hrN (fun h => Bool.noConfusion h)
            (fun _ => by omega) heq
        have hbne : ¬(block = [] ∧ 0 < r - q) := by
          rintro ⟨hbe, _⟩
          have hl0 := congrArg List.length (hblock.symm.trans hbe)
          rw [List.length_append, tokenBits_length, List.length_nil] at hl0
          omega
        rw [if_neg hbne] at hmerge
        have hlast' : (r2 :: rest2).getLastD 0 = D.length := by
          rw [List.getLastD_cons] at hlast
          rw [List.getLastD_cons] at hlast ⊢
          exact hlast
        obtain ⟨tail', hfinal', hdec'⟩ :=
          ih _ best1 r (result ++ block) final (by split <;> exact hmin)
            (by split <;> exact hmt) (by split <;> exact hmd) hch'
            (fun x hx => hall x (List.mem_cons_of_mem r hx)) hlast'
            (by intro h; exact List.noConfusion h) false hmerge
        refine ⟨bR ++ (tokenBits (D.getD r 0) (m + 1) ++ tail'), ?_, ?_⟩
        · rw [hfinal', hblock]
          simp only [List.append_assoc]
        · intro ob pad hob hp1 hp0
          obtain ⟨ob2, hob2, hsteps⟩ :=
            hnfinI rfl ob (tail' ++ List.replicate pad false) hob
          obtain ⟨f, hf⟩ := hdec' ob2 pad hob2 hp1 hp0
          have hassoc2 : (bR ++ (tokenBits (D.getD r 0) (m + 1) ++ tail')) ++
              List.replicate pad false =
              bR ++ (tokenBits (D.getD r 0) (m + 1) ++
                (tail' ++ List.replicate pad false)) := by
            simp only [List.append_assoc]
          rw [hassoc2]
          exact steps_dloop isGif m hsteps D ⟨f, hf⟩

/-! ### Top-level round trip -/

/-- The prepended clear code of `merge` is exactly the clear token. -/
theorem tokenBits_clear (m : Nat) :
    tokenBits (2 ^ m) (m + 1) = List.replicate m false ++ [true] := by
  induction m with
  | zero => rfl
  | succ k ih =>
    have h1 : 2 ^ (k + 1) % 2 = 0 := by
      rw [pow_succ]
      exact Nat.mul_mod_left _ 2
    have h2 : 2 ^ (k + 1) / 2 = 2 ^ k := by
      rw [pow_succ]
      exact Nat.mul_div_cancel _ (by omega)
    show decide (2 ^ (k + 1) % 2 = 1) :: tokenBits (2 ^ (k + 1) / 2) (k + 1) =
      List.replicate (k + 1) false ++ [true]
    rw [h1, h2, ih]
    rfl

/-- One pass of the initial-token loop. -/
theorem skipClears_step (clear cs F : Nat) (bits : List Bool) (orig : Nat) :
    skipClears clear cs (F + 1) bits orig =
      if (takeBits bits cs).1 = clear then
        skipClears clear cs F (takeBits bits cs).2 (orig + cs)
      else some ((takeBits bits cs).1, (takeBits bits cs).2, orig + cs) := rfl

/-- The initial-token loop stops at a literal. -/
theorem skipClears_lit (m F : Nat) (x : Nat) (rest : List Bool) (orig : Nat)
    (hx : x < 2 ^ m) :
    skipClears (2 ^ m) (m + 1) (F + 1) (tokenBits x (m + 1) ++ rest) orig =
      some (x, rest, orig + (m + 1)) := by
  have h22 : (2:Nat) ^ (m + 1) = 2 * 2 ^ m := pow_succ' 2 m
  rw [skipClears_step,
      takeBits_tokenBits (m + 1) x rest (by have := Nat.two_pow_pos m; omega)]
  show (if x = 2 ^ m then skipClears (2 ^ m) (m + 1) F rest (orig + (m + 1))
        else some (x, rest, orig + (m + 1))) = some (x, rest, orig + (m + 1))
  rw [if_neg (by omega)]

/-- The initial-token loop consumes a clear code. -/
theorem skipClears_clear (m F : Nat) (rest : List Bool) (orig : Nat) :
    skipClears (2 ^ m) (m + 1) (F + 1) (tokenBits (2 ^ m) (m + 1) ++ rest) orig =
      skipClears (2 ^ m) (m + 1) F rest (orig + (m + 1)) := by
  have h22 : (2:Nat) ^ (m + 1) = 2 * 2 ^ m := pow_succ' 2 m
  rw [skipClears_step,
      takeBits_tokenBits (m + 1) (2 ^ m) rest (by have := Nat.two_pow_pos m; omega)]
  show (if (2:Nat) ^ m = 2 ^ m then skipClears (2 ^ m) (m + 1) F rest (orig + (m + 1))
        else some (2 ^ m, rest, orig + (m + 1))) =
      skipClears (2 ^ m) (m + 1) F rest (orig + (m + 1))
  rw [if_pos rfl]

/-- `decompress` reduced past the initial token to the main loop on the fresh
decoder state. -/
theorem decompress_to_dloop (isGif : Bool) (m : Nat) (D : List Nat) (f orig : Nat)
    (bits tail : List Bool)
    (hskip : skipClears (2 ^ m) (m + 1) (bits.length + 1) bits 0 =
      some (D.getD 0 0, tail, orig))
    (hD0 : D.getD 0 0 < 2 ^ m) (hm8 : m ≤ 8) (hDne : D ≠ []) :
    decompress isGif m (LC isGif) f bits =
      dloop isGif m f (freshDec isGif m D 0 orig tail) := by
  have heq : decompress isGif m (LC isGif) f bits =
      (if (initLut isGif (2 ^ m) (2 ^ m - 1)).length ≤ D.getD 0 0 then none
       else decLoop isGif m (LC isGif) (2 ^ m)
         (if isGif then 2 ^ m + 1 else 4294967295) (2 ^ m - 1) (2 ^ LC isGif) f
         ⟨tail, initLut isGif (2 ^ m) (2 ^ m - 1),
          if D.getD 0 0 ≠ (if isGif then 2 ^ m + 1 else 4294967295)
          then [D.getD 0 0] else [], m + 1, D.getD 0 0, 1, orig⟩) := by
    simp only [decompress]
    rw [hskip]
  rw [heq]
  have hlen : (initLut isGif (2 ^ m) (2 ^ m - 1)).length =
      if isGif then 2 ^ m + 2 else 2 ^ m + 1 := by
    rw [initLut_length]
    have := Nat.two_pow_pos m
    split <;> omega
  rw [if_neg (by
    rw [hlen]
    intro hle
    have h2m : 2 ^ m ≤ D.getD 0 0 :=
      le_trans (by split <;> omega) hle
    exact absurd hD0 (not_lt.mpr h2m))]
  have hnee : D.getD 0 0 ≠ (if isGif then 2 ^ m + 1 else 4294967295) := by
    have h256 : (2:Nat) ^ m ≤ 2 ^ 8 := Nat.pow_le_pow_right (by omega) hm8
    intro hEq
    rw [hEq] at hD0
    split at hD0 <;> omega
  rw [if_pos hnee]
  obtain ⟨d, D', hDd⟩ : ∃ d D', D = d :: D' := by
    cases D with
    | nil => exact absurd rfl hDne
    | cons d D' => exact ⟨d, D', rfl⟩
  subst hDd
  rfl

/-- **C1 (amended).** Round trip of `merge` against `decompress` in the regime
the driver uses (`maxTokens = 0`, `maxDictionary = 0`; GIF `2 ≤ mcs ≤ 8` or
`.Z` `mcs = 8`; literals below `2^mcs`; strictly increasing restart positions
within the data): whenever `merge` returns a bit vector, decoding the written
bytes — the payload followed by the final byte's zero padding — with enough
fuel returns exactly the input literal stream.  For GIF the payload must not
be byte-aligned: a byte-aligned payload whose final dictionary has just
reached a power of two makes the decoder step its width before the
end-of-stream code, run out of bits and throw (see the counterexample). -/
theorem merge_roundtrip (isGif : Bool) (m : Nat) (D : List Nat)
    (best : Nat → BestBlock) (bestEmpty : Bool) (restarts : List Nat)
    (o : OptimizationSettings) (bits : List Bool)
    (hD : ∀ b ∈ D, b < 2 ^ m) (hDne : D ≠ [])
    (hm2 : 2 ≤ m) (hm8 : m ≤ 8) (hzm : isGif = false → m = 8)
    (hmin : o.minCodeSize = m) (hmt : o.maxTokens = 0) (hmd : o.maxDictionary = 0)
    (hrne : restarts ≠ []) (hch : List.Chain' (· < ·) restarts)
    (hrN : ∀ x ∈ restarts, x ≤ D.length)
    (hmerge : merge D isGif best bestEmpty restarts o = some bits)
    (hpad8 : isGif = true → bits.length % 8 ≠ 0) :
    ∃ fuel, ∀ f, fuel ≤ f →
      decompress isGif m (LC isGif) f
        (bits ++ List.replicate (if isGif then (8 - bits.length % 8) % 8 else 0) false)
        = some D := by
  have hN1 : 1 ≤ D.length := List.length_pos.mpr hDne
  have hD0 : D.getD 0 0 < 2 ^ m := getD_lt D m 0 hD (by omega)
  simp only [merge] at hmerge
  rw [if_neg hrne] at hmerge
  obtain ⟨rs1, hrs1⟩ : ∃ x, (if restarts.getLastD 0 < D.length
      then restarts ++ [D.length] else restarts) = x := ⟨_, rfl⟩
  rw [hrs1] at hmerge
  have hch1 : List.Chain' (· < ·) rs1 := by
    rw [← hrs1]
    split
    · rename_i hc
      rw [List.chain'_append]
      refine ⟨hch, List.chain'_singleton _, ?_⟩
      intro x hx y hy
      have hx' : restarts.getLast? = some x := hx
      have hy' : ([D.length] : List Nat).head? = some y := hy
      have hyN : y = D.length := (Option.some.inj hy').symm
      have hxl : restarts.getLastD 0 = x := by
        rw [List.getLastD_eq_getLast?, hx']
        rfl
      omega
    · exact hch
  have hall1 : ∀ x ∈ rs1, x ≤ D.length := by
    intro x hx
    rw [← hrs1] at hx
    split at hx
    · rcases List.mem_append.mp hx with h | h
      · exact hrN x h
      · rw [List.mem_singleton] at h
        omega
    · exact hrN x hx
  have hlast1 : rs1.getLastD 0 = D.length := by
    rw [← hrs1]
    split
    · rw [List.getLastD_eq_getLast?, List.getLast?_concat]
      rfl
    · rename_i hc
      have hmem : restarts.getLastD 0 ∈ restarts := by
        cases hre : restarts.getLast? with
        | none => exact absurd (List.getLast?_eq_none.mp hre) hrne
        | some a =>
          rw [List.getLastD_eq_getLast?, hre]
          have ha : a ∈ restarts.getLast? := hre
          obtain ⟨hne', hax⟩ := List.mem_getLast?_eq_getLast ha
          show a ∈ restarts
          rw [hax]
          exact List.getLast_mem hne'
      have := hrN _ hmem
      omega
  have hne1 : rs1 ≠ [] := by
    rw [← hrs1]
    split
    · simp
    · exact hrne
  obtain ⟨result0, hres0⟩ : ∃ x, (if o.startWithClearCode ∧ isGif
      then List.replicate o.minCodeSize false ++ [true] else []) = x := ⟨_, rfl⟩
  rw [hres0] at hmerge
  have hsim : ∃ tail, bits = result0 ++ (tokenBits (D.getD 0 0) (m + 1) ++ tail) ∧
      ∀ ob pad, (isGif = false → ob % 8 = (m + 1) % 8) →
        (isGif = true → 1 ≤ pad) → (isGif = false → pad = 0) →
        ∃ f, dloop isGif m f (freshDec isGif m D 0 ob
          (tail ++ List.replicate pad false)) = some D := by
    cases hrs1c : rs1 with
    | nil => exact absurd hrs1c hne1
    | cons h0 t1 =>
      subst hrs1c
      by_cases hh0 : h0 = 0
      · subst hh0
        simp only [mergeGo] at hmerge
        rw [if_pos trivial] at hmerge
        have ht1ne : t1 ≠ [] := by
          intro h
          subst h
          have h0N : (0:Nat) = D.length := hlast1
          omega
        have hlast1' : t1.getLastD 0 = D.length := by
          rw [List.getLastD_cons] at hlast1
          exact hlast1
        exact mergeGo_sim isGif m D hD hm2 hm8 hzm t1 o best 0 result0 bits
          hmin hmt hmd hch1 (fun x hx => hall1 x (List.mem_cons_of_mem 0 hx))
          hlast1' ht1ne bestEmpty hmerge
      · have hch0 : List.Chain' (· < ·) (0 :: h0 :: t1) :=
          List.chain'_cons.mpr ⟨by omega, hch1⟩
        exact mergeGo_sim isGif m D hD hm2 hm8 hzm (h0 :: t1) o best 0 result0 bits
          hmin hmt hmd hch0 hall1 hlast1 (by intro h; exact List.noConfusion h)
          bestEmpty hmerge
  obtain ⟨tail, hbits, hdec⟩ := hsim
  obtain ⟨padT, hpadT⟩ : ∃ x, (if isGif then (8 - bits.length % 8) % 8 else 0) = x :=
    ⟨_, rfl⟩
  rw [hpadT]
  have hp1T : isGif = true → 1 ≤ padT := by
    intro hg
    rw [← hpadT, hg, if_pos rfl]
    have := hpad8 hg
    omega
  have hp0T : isGif = false → padT = 0 := by
    intro hg
    rw [← hpadT, hg, if_neg Bool.false_ne_true]
  by_cases hswc : o.startWithClearCode = true ∧ isGif = true
  · have hr0 : result0 = List.replicate m false ++ [true] := by
      rw [← hres0, if_pos hswc, hmin]
    have hbits' : bits ++ List.replicate padT false = tokenBits (2 ^ m) (m + 1) ++
        (tokenBits (D.getD 0 0) (m + 1) ++ (tail ++ List.replicate padT false)) := by
      rw [hbits, hr0, ← tokenBits_clear]
      simp only [List.append_assoc]
    have hlen2 : (tokenBits (2 ^ m) (m + 1) ++
        (tokenBits (D.getD 0 0) (m + 1) ++
          (tail ++ List.replicate padT false))).length =
        ((tokenBits (D.getD 0 0) (m + 1) ++
          (tail ++ List.replicate padT false)).length + m) + 1 := by
      rw [List.length_append, tokenBits_length]
      omega
    have hskip : skipClears (2 ^ m) (m + 1)
        ((bits ++ List.replicate padT false).length + 1)
        (bits ++ List.replicate padT false) 0 =
        some (D.getD 0 0, tail ++ List.replicate padT false,
          0 + (m + 1) + (m + 1)) := by
      rw [hbits', hlen2, skipClears_clear]
      exact skipClears_lit m _ _ (tail ++ List.replicate padT false) (0 + (m + 1)) hD0
    obtain ⟨f0, hf0⟩ := hdec (0 + (m + 1) + (m + 1)) padT
      (fun hgf => Bool.noConfusion (hswc.2.symm.trans hgf)) hp1T hp0T
    refine ⟨f0, ?_⟩
    intro f hf
    rw [decompress_to_dloop isGif m D f (0 + (m + 1) + (m + 1))
      (bits ++ List.replicate padT false) (tail ++ List.replicate padT false)
      hskip hD0 hm8 hDne]
    exact dloop_mono isGif m f0 f _ D hf hf0
  · have hr0 : result0 = [] := by
      rw [← hres0, if_neg hswc]
    have hbits' : bits ++ List.replicate padT false =
        tokenBits (D.getD 0 0) (m + 1) ++ (tail ++ List.replicate padT false) := by
      rw [hbits, hr0, List.nil_append, List.append_assoc]
    have hskip : skipClears (2 ^ m) (m + 1)
        ((bits ++ List.replicate padT false).length + 1)
        (bits ++ List.replicate padT false) 0 =
        some (D.getD 0 0, tail ++ List.replicate padT false, 0 + (m + 1)) := by
      rw [hbits']
      exact skipClears_lit m _ _ (tail ++ List.replicate padT false) 0 hD0
    obtain ⟨f0, hf0⟩ := hdec (0 + (m + 1)) padT (fun _ => by omega) hp1T hp0T
    refine ⟨f0, ?_⟩
    intro f hf
    rw [decompress_to_dloop isGif m D f (0 + (m + 1))
      (bits ++ List.replicate padT false) (tail ++ List.replicate padT false)
      hskip hD0 hm8 hDne]
    exact dloop_mono isGif m f0 f _ D hf hf0

/-- **C1 (counterexample).** Two failures of the claimed round trip.
First, with `max_tokens = 1` — a settings value the encoder accepts —
`merge` truncates the only segment after one token: the input `[0,1,2]`
encodes to the six bits `0 . 5₃` (literal 0, end-of-stream), which decode to
`[0]`, not `[0,1,2]`.  Second, even with the driver settings, an input whose
eleven tokens close the dictionary at exactly `16 = 2^4` entries while the
payload (with the prepended clear code) is exactly 48 bits: the payload is
byte-aligned, so no padding bit is written, the decoder steps its width to 5
before the end-of-stream code written at width 4, runs past the written bytes
and throws ("too few bits available in unlzw") — decoding fails outright. -/
theorem merge_roundtrip_fails_for_max_tokens :
    (merge [0, 1, 2] true (fun _ => default) true [3]
        { gifSettings with maxTokens := 1 } =
      some [false, false, false, true, false, true] ∧
    decompress true 2 12 10 [false, false, false, true, false, true] =
      some [0] ∧
    ([0] : List Nat) ≠ [0, 1, 2]) ∧
    (merge [0, 1, 0, 2, 0, 3, 1, 1, 2, 2, 3] true (fun _ => default) true [11]
        { gifSettings with startWithClearCode := true } =
      some [false, false, true, false, false, false, true, false, false, false,
        false, false, false, true, false, false, false, false, false, false,
        true, true, false, false, true, false, false, false, true, false,
        false, false, false, true, false, false, false, true, false, false,
        true, true, false, false, true, false, true, false] ∧
    ([false, false, true, false, false, false, true, false, false, false,
        false, false, false, true, false, false, false, false, false, false,
        true, true, false, false, true, false, false, false, true, false,
        false, false, false, true, false, false, false, true, false, false,
        true, true, false, false, true, false, true, false] : List Bool).length % 8
      = 0 ∧
    decompress true 2 12 100 [false, false, true, false, false, false, true,
        false, false, false, false, false, false, true, false, false, false,
        false, false, false, true, true, false, false, true, false, false,
        false, true, false, false, false, false, true, false, false, false,
        true, false, false, true, true, false, false, true, false, true,
        false] = none) := by decide

/-- **C1 (witness).** A concrete instance of the amended round trip: the GIF
stream `merge` emits for `[0]` with the driver settings is the six bits
`0 . 5₃` (not byte-aligned), and the written byte — payload plus two zero
padding bits — decodes back to `[0]`. -/
theorem merge_roundtrip_witness :
    merge [0] true (fun _ => default) true [1] gifSettings =
      some [false, false, false, true, false, true] ∧
    ([false, false, false, true, false, true] : List Bool).length % 8 ≠ 0 ∧
    ∃ fuel, ∀ f, fuel ≤ f →
      decompress true 2 (LC true) f
        [false, false, false, true, false, true, false, false] = some [0] :=
  ⟨by decide, by decide,
   merge_roundtrip true 2 [0] (fun _ => default) true [1] gifSettings
     [false, false, false, true, false, true]
     (by decide) (by decide) (by decide) (by decide) (fun h => Bool.noConfusion h)
     rfl rfl rfl (by decide) (List.chain'_singleton 1) (by decide) (by decide)
     (fun _ => by decide)⟩

end FlexiGif
